import Mathlib

/-!
# yoink: the declaration-dependency graph engine

A shallow embedding of

* `SerializedGraph.Merge` (`unused/serialize.go`), the two-pass merger that folds
  partial use graphs into one canonical graph,
* `walk` together with the seeding loop of `yoink` (`main.go`), the target-driven
  reachability selection,
* `sameId`, `lookupMethod` and `implements` (`unused/implements.go`), the interface
  satisfaction matcher, and
* the methods `Set` and `String` of the flag type `set` (`main.go`).

Go slices are lists, Go maps are finite partial functions (`key → Option value`),
a map that is only used as a set is the list of its keys,
a Go `panic` is an `Except.error`.  A batch handed to `Merge` is a value that shares no
storage with the receiver: the in-place rewrite of the caller's `Uses`/`Owns` slices in
the second pass then concerns the caller's batch only and is not modelled.  The one call
in which the batch is the receiver's own node list, `g.Merge(g.nodes)`, is modelled
apart, with its aliasing (`mergeOwn`).
-/

namespace Yoink

/-! ## Data model -/

/-- The struct `ObjectPath` of `serialize.go`; `objectpath.Path` is a string type. -/
structure ObjectPath where
  PkgPath : String
  ObjPath : String
deriving DecidableEq, Repr

/-- The zero value `ObjectPath{}`. -/
def ObjectPath.zero : ObjectPath := ⟨"", ""⟩

/-- The struct `token.Position` of the Go standard library. -/
structure token.Position where
  Filename : String
  Offset : Int
  Line : Int
  Column : Int
deriving DecidableEq, Repr

/-- The zero value `token.Position{}`. -/
def token.Position.zero : token.Position := ⟨"", 0, 0, 0⟩

/-- Modelled from the spec: the struct `Object` is declared outside `serialize.go`; `Merge`
and `walk` read its fields `Name`, `Path` and `Position` (name, stable path, source
position of a declaration) and copy the value as a whole. -/
structure Object where
  Name : String
  Path : ObjectPath
  Position : token.Position
deriving DecidableEq, Repr

/-- The zero value `Object{}`. -/
def Object.zero : Object := ⟨"", ObjectPath.zero, token.Position.zero⟩

/-- Modelled from the spec: the struct `Node` is declared outside `serialize.go`; `Merge`
and `walk` use its fields `ID`, `Obj`, `Uses` and `Owns` (id, declaration, ordered list of
referenced ids, ordered list of contained ids).  The id type `NodeID`, also declared
outside `serialize.go`, is the dense non-negative integer id of a node (`id`: dense
integer in `[0, N)`), used as a slice index; it is `Nat` here. -/
structure Node where
  ID : Nat
  Obj : Object
  Uses : List Nat
  Owns : List Nat
deriving DecidableEq, Repr

/-- The zero value `Node{}` with which `Merge` seeds the root. -/
def Node.zero : Node := ⟨0, Object.zero, [], []⟩

/-- The struct `SerializedGraph`: the canonical node list and the two identity tables.
A nil map and an empty map behave alike and are both the everywhere-`none` function. -/
structure SerializedGraph where
  nodes : List Node
  nodesByPath : ObjectPath → Option Nat
  nodesByPosition : token.Position → Option Nat

/-- The zero value `SerializedGraph{}`, a fresh graph. -/
def SerializedGraph.empty : SerializedGraph := ⟨[], fun _ => none, fun _ => none⟩

/-- The ways `Merge` can abort. -/
inductive Panic where
  /-- the explicit `panic` of the first pass: no path and no column information -/
  | noIdentity (name : String)
  /-- a Go run-time panic: slice index out of range -/
  | indexOutOfRange
deriving DecidableEq, Repr

/-! ## `SerializedGraph.Merge` -/

/-- The assignment `remapping[i] = v`; panics when `i` is out of range. -/
def setIdx (remapping : List Nat) (i v : Nat) : Except Panic (List Nat) :=
  if i < remapping.length then .ok (remapping.set i v) else .error .indexOutOfRange

/-- The read `remapping[i]`; panics when `i` is out of range. -/
def getIdx (remapping : List Nat) (i : Nat) : Except Panic Nat :=
  match remapping[i]? with
  | some v => .ok v
  | none => .error .indexOutOfRange

/-- The statement `nodes[i].Uses = append(nodes[i].Uses, xs...)`. -/
def appendUses (nodes : List Node) (i : Nat) (xs : List Nat) : Except Panic (List Node) :=
  match nodes[i]? with
  | some nd => .ok (nodes.set i { nd with Uses := nd.Uses ++ xs })
  | none => .error .indexOutOfRange

/-- The statement `nodes[i].Owns = append(nodes[i].Owns, xs...)`. -/
def appendOwns (nodes : List Node) (i : Nat) (xs : List Nat) : Except Panic (List Node) :=
  match nodes[i]? with
  | some nd => .ok (nodes.set i { nd with Owns := nd.Owns ++ xs })
  | none => .error .indexOutOfRange

/-- The map insertion `m[k] = v`. -/
def mapSet {K : Type} [DecidableEq K] (m : K → Option Nat) (k : K) (v : Nat) :
    K → Option Nat :=
  fun k' => if k' = k then some v else m k'

/-- Lines 32-41 of `Merge`: the maps are made non-nil and an empty node list is seeded
with the root `Node{}`. -/
def seedRoot (g : SerializedGraph) : SerializedGraph :=
  if g.nodes.length = 0 then { g with nodes := g.nodes ++ [Node.zero] } else g

/-- The `else` branch of the first pass (lines 64-83): the object is new, a fresh node
with id `len(g.nodes)` is appended and registered. -/
def allocate (g : SerializedGraph) (remapping : List Nat) (n : Node) :
    Except Panic (SerializedGraph × List Nat) :=
  let newID : Nat := g.nodes.length
  match setIdx remapping n.ID newID with
  | .error e => .error e
  | .ok remapping1 =>
    let nodes1 := g.nodes ++ [{ ID := newID, Obj := n.Obj, Uses := [], Owns := [] }]
    match (if n.ID = 0 then appendUses nodes1 0 [newID] else .ok nodes1) with
    | .error e => .error e
    | .ok nodes2 =>
      let byPath := if n.Obj.Path ≠ ObjectPath.zero then mapSet g.nodesByPath n.Obj.Path newID
        else g.nodesByPath
      let byPos := if n.Obj.Position.Column ≠ 0 then
          mapSet g.nodesByPosition n.Obj.Position newID
        else g.nodesByPosition
      .ok ({ nodes := nodes2, nodesByPath := byPath, nodesByPosition := byPos }, remapping1)

/-- One iteration of the first pass (lines 46-85): the identity check and the identity
resolution of the incoming node `n`. -/
def resolve (g : SerializedGraph) (remapping : List Nat) (n : Node) :
    Except Panic (SerializedGraph × List Nat) :=
  if n.ID ≠ 0 ∧ n.Obj.Path = ObjectPath.zero ∧ n.Obj.Position.Column = 0 then
    .error (.noIdentity n.Obj.Name)
  else
    match g.nodesByPath n.Obj.Path with
    | some orig =>
      match setIdx remapping n.ID orig with
      | .error e => .error e
      | .ok remapping1 => .ok (g, remapping1)
    | none =>
      match g.nodesByPosition n.Obj.Position with
      | some orig =>
        if n.Obj.Position.Column ≠ 0 then
          match setIdx remapping n.ID orig with
          | .error e => .error e
          | .ok remapping1 => .ok (g, remapping1)
        else allocate g remapping n
      | none => allocate g remapping n

/-- The first pass: `resolve` over the batch in order. -/
def pass1 (g : SerializedGraph) (remapping : List Nat) :
    List Node → Except Panic (SerializedGraph × List Nat)
  | [] => .ok (g, remapping)
  | n :: rest =>
    match resolve g remapping n with
    | .error e => .error e
    | .ok (g1, remapping1) => pass1 g1 remapping1 rest

/-- The loops of lines 90-95: every entry of an edge list is sent through the table. -/
def remapIDs (remapping : List Nat) : List Nat → Except Panic (List Nat)
  | [] => .ok []
  | u :: us =>
    match getIdx remapping u with
    | .error e => .error e
    | .ok v =>
      match remapIDs remapping us with
      | .error e => .error e
      | .ok vs => .ok (v :: vs)

/-- One iteration of the second pass (lines 88-98). -/
def applyRemap (nodes : List Node) (remapping : List Nat) (n : Node) :
    Except Panic (List Node) :=
  match getIdx remapping n.ID with
  | .error e => .error e
  | .ok id =>
    match remapIDs remapping n.Uses with
    | .error e => .error e
    | .ok uses =>
      match remapIDs remapping n.Owns with
      | .error e => .error e
      | .ok owns =>
        match appendUses nodes id uses with
        | .error e => .error e
        | .ok nodes1 => appendOwns nodes1 id owns

/-- The second pass: `applyRemap` over the batch in order. -/
def pass2 (remapping : List Nat) : List Node → List Node → Except Panic (List Node)
  | nodes, [] => .ok nodes
  | nodes, n :: rest =>
    match applyRemap nodes remapping n with
    | .error e => .error e
    | .ok nodes1 => pass2 remapping nodes1 rest

/-- The whole of `Merge`, returning next to the new graph the remapping table of the
first pass (a local variable of the Go function). -/
def mergeRemap (g : SerializedGraph) (batch : List Node) :
    Except Panic (SerializedGraph × List Nat) :=
  match pass1 (seedRoot g) (List.replicate batch.length 0) batch with
  | .error e => .error e
  | .ok (g1, remapping) =>
    match pass2 remapping g1.nodes batch with
    | .error e => .error e
    | .ok nodes2 => .ok ({ g1 with nodes := nodes2 }, remapping)

/-- The method `(*SerializedGraph).Merge`: the receiver after the call, or the panic. -/
def Merge (g : SerializedGraph) (batch : List Node) : Except Panic SerializedGraph :=
  match mergeRemap g batch with
  | .error e => .error e
  | .ok (g2, _) => .ok g2

/-- Successive `Merge` calls on one receiver, collecting the remapping table of each. -/
def mergeAllRemap : SerializedGraph → List (List Node) →
    Except Panic (SerializedGraph × List (List Nat))
  | g, [] => .ok (g, [])
  | g, b :: bs =>
    match mergeRemap g b with
    | .error e => .error e
    | .ok (g1, r) =>
      match mergeAllRemap g1 bs with
      | .error e => .error e
      | .ok (g2, rs) => .ok (g2, r :: rs)

/-- Successive `Merge` calls on one receiver. -/
def mergeAll : SerializedGraph → List (List Node) → Except Panic SerializedGraph
  | g, [] => .ok g
  | g, b :: bs =>
    match Merge g b with
    | .error e => .error e
    | .ok g1 => mergeAll g1 bs

/-! ## Readings of the first and second pass -/

/-- The identity lookup of lines 55 and 59: the canonical id the tables give for the
object of `n`, the stable path first, the position only with a genuine column. -/
def lookupIdentity (g : SerializedGraph) (n : Node) : Option Nat :=
  match g.nodesByPath n.Obj.Path with
  | some orig => some orig
  | none => if n.Obj.Position.Column ≠ 0 then g.nodesByPosition n.Obj.Position else none

/-- The identity lookup of lines 55 and 59 on explicit tables. -/
def lookupTables (byPath : ObjectPath → Option Nat) (byPos : token.Position → Option Nat)
    (path : ObjectPath) (pos : token.Position) : Option Nat :=
  match byPath path with
  | some orig => some orig
  | none => if pos.Column ≠ 0 then byPos pos else none

/-- The node appended by the `else` branch of the first pass. -/
def freshNode (g : SerializedGraph) (n : Node) : Node :=
  { ID := g.nodes.length, Obj := n.Obj, Uses := [], Owns := [] }

/-- The value the remapping table holds for the local id `u` (0 outside the table). -/
def remapOf (rm : List Nat) (u : Nat) : Nat := rm.getD u 0

/-- The `uses` entries the second pass appends to the canonical node `c`: for each batch
node remapped to `c`, in batch order, its `Uses` sent through the table. -/
def addedUses (rm : List Nat) (batch : List Node) (c : Nat) : List Nat :=
  (batch.filter (fun n => decide (remapOf rm n.ID = c))).flatMap
    (fun n => n.Uses.map (remapOf rm))

/-- The `owns` entries the second pass appends to the canonical node `c`. -/
def addedOwns (rm : List Nat) (batch : List Node) (c : Nat) : List Nat :=
  (batch.filter (fun n => decide (remapOf rm n.ID = c))).flatMap
    (fun n => n.Owns.map (remapOf rm))

/-- The `uses` list of canonical node 0 (empty while the graph has no node). -/
def rootUses (g : SerializedGraph) : List Nat :=
  match g.nodes[0]? with
  | some r => r.Uses
  | none => []

/-! ## Predicates on batches and graphs -/

/-- The fatal input of line 49: not the batch root, no stable path, no column. -/
def Node.Bad (n : Node) : Prop :=
  n.ID ≠ 0 ∧ n.Obj.Path = ObjectPath.zero ∧ n.Obj.Position.Column = 0

instance (n : Node) : Decidable n.Bad := by unfold Node.Bad; infer_instance

/-- Local ids and edge entries of a batch are valid indices into the batch. -/
def BatchInRange (batch : List Node) : Prop :=
  ∀ n ∈ batch, n.ID < batch.length ∧ (∀ u ∈ n.Uses, u < batch.length) ∧
    (∀ u ∈ n.Owns, u < batch.length)

instance (batch : List Node) : Decidable (BatchInRange batch) := by
  unfold BatchInRange; infer_instance

/-- A well-formed partial graph: local ids equal indices, the batch has its root (local
id 0), every non-root node has a stable path or a genuine column, and the edge entries
are local ids of the batch. -/
def WellFormedBatch (batch : List Node) : Prop :=
  batch.map Node.ID = List.range batch.length ∧ batch ≠ [] ∧ (∀ n ∈ batch, ¬ n.Bad) ∧
    ∀ n ∈ batch, (∀ u ∈ n.Uses, u < batch.length) ∧ (∀ u ∈ n.Owns, u < batch.length)

instance (batch : List Node) : Decidable (WellFormedBatch batch) := by
  unfold WellFormedBatch; infer_instance

/-- The object carries a stable path or a genuine column. -/
def Object.Identified (o : Object) : Prop :=
  o.Path ≠ ObjectPath.zero ∨ o.Position.Column ≠ 0

instance (o : Object) : Decidable o.Identified := by unfold Object.Identified; infer_instance

/-- A two-node partial graph for one declaration: an identity-less root at local id 0
and, at local id 1, a node whose object has the stable path `path` and the position
`pos` (the empty path, or a position with column 0, meaning "not carried"). -/
def IsDeclBatch (batch : List Node) (path : ObjectPath) (pos : token.Position) : Prop :=
  ∃ r d, batch = [r, d] ∧ r.ID = 0 ∧ r.Obj.Path = ObjectPath.zero ∧
    r.Obj.Position.Column = 0 ∧ d.ID = 1 ∧ d.Obj.Path = path ∧ d.Obj.Position = pos ∧
    BatchInRange batch

/-- The root of a batch is new to the graph `g`: neither its stable path nor, with a
genuine column, its position is recorded.  An identity-less root is new to every
canonical graph. -/
def freshRoot (g : SerializedGraph) (batch : List Node) : Prop :=
  match batch with
  | [] => False
  | r :: _ => lookupIdentity g r = none

/-- The roots of successive batches are each new to the graph at the moment their batch
is merged. -/
def FreshRoots : SerializedGraph → List (List Node) → Prop
  | _, [] => True
  | g, b :: bs =>
    freshRoot g b ∧
    match Merge g b with
    | .ok g1 => FreshRoots g1 bs
    | .error _ => True

/-- A canonical graph: the receiver after some sequence of completed `Merge` calls on a
fresh `SerializedGraph` (the empty sequence gives the fresh graph itself). -/
def Reachable (g : SerializedGraph) : Prop :=
  ∃ batches : List (List Node), mergeAll SerializedGraph.empty batches = .ok g

/-! ## Invariants of the canonical graph -/

/-- The node list `ns2` extends `ns1`: no node is lost, every old node keeps its id and
its object, and its old edge lists are initial segments of the new ones. -/
def Grows (ns1 ns2 : List Node) : Prop :=
  ns1.length ≤ ns2.length ∧
  ∀ (i : Nat) (a : Node), ns1[i]? = some a → ∃ b : Node, ns2[i]? = some b ∧ b.ID = a.ID ∧ b.Obj = a.Obj ∧
    a.Uses <+: b.Uses ∧ a.Owns <+: b.Owns

/-- Ids are dense: the node stored at index `i` has id `i`. -/
def Dense (ns : List Node) : Prop := ∀ (i : Nat) (a : Node), ns[i]? = some a → a.ID = i

/-- Edge entries of the canonical nodes are canonical ids. -/
def EdgesInRange (ns : List Node) : Prop :=
  ∀ (i : Nat) (a : Node), ns[i]? = some a →
    (∀ u ∈ a.Uses, u < ns.length) ∧ (∀ u ∈ a.Owns, u < ns.length)

/-- The invariant of a canonical graph between `Merge` calls. -/
structure Inv (g : SerializedGraph) : Prop where
  dense : Dense g.nodes
  edges : EdgesInRange g.nodes
  pathRange : ∀ k v, g.nodesByPath k = some v → 0 < v ∧ v < g.nodes.length
  posRange : ∀ k v, g.nodesByPosition k = some v → 0 < v ∧ v < g.nodes.length
  pathKey : g.nodesByPath ObjectPath.zero = none
  posKey : ∀ k v, g.nodesByPosition k = some v → k.Column ≠ 0
  rootObj : ∀ a : Node, g.nodes[0]? = some a → a.Obj = Object.zero

/-- The invariant of the state of the first pass: the graph invariant, the seeded root,
and a remapping table that holds canonical ids only. -/
structure Pass1Inv (g : SerializedGraph) (rm : List Nat) : Prop where
  inv : Inv g
  nonempty : g.nodes ≠ []
  remap : ∀ v ∈ rm, v < g.nodes.length

/-- The identity tables of `g2` extend those of `g1`: no recorded entry is changed. -/
def TablesLe (g1 g2 : SerializedGraph) : Prop :=
  (∀ k v, g1.nodesByPath k = some v → g2.nodesByPath k = some v) ∧
  (∀ k v, g1.nodesByPosition k = some v → g2.nodesByPosition k = some v)

/-- Every canonical node other than the root is found again by the identity lookup of
its own object: its stable path, when it has one, is recorded for it, and otherwise its
position has a genuine column and is recorded for it. -/
def SelfRegistered (g : SerializedGraph) : Prop :=
  ∀ (i : Nat) (a : Node), g.nodes[i]? = some a → i ≠ 0 →
    (a.Obj.Path ≠ ObjectPath.zero → g.nodesByPath a.Obj.Path = some i) ∧
    (a.Obj.Path = ObjectPath.zero →
      a.Obj.Position.Column ≠ 0 ∧ g.nodesByPosition a.Obj.Position = some i)

/-! ## Example inputs of the merger -/

/-- A stable path used in the examples. -/
def exPath : ObjectPath := ⟨"example.com/pkg", "T"⟩

/-- A position with a genuine column used in the examples. -/
def exPos : token.Position := ⟨"pkg.go", 120, 9, 6⟩

/-- A partial graph with an identity-less root and one declaration that carries the
stable path `exPath` and the position `exPos`. -/
def exBatch : List Node :=
  [⟨0, Object.zero, [1], []⟩, ⟨1, ⟨"T", exPath, exPos⟩, [], []⟩]

/-- A partial graph whose second node is neither the root nor identified. -/
def exBadBatch : List Node :=
  [⟨0, Object.zero, [1], []⟩, ⟨1, ⟨"x", ObjectPath.zero, token.Position.zero⟩, [], []⟩]

/-- The declaration of `exBatch`, carried by its stable path only. -/
def exPathBatch : List Node :=
  [⟨0, Object.zero, [1], []⟩, ⟨1, ⟨"T", exPath, token.Position.zero⟩, [], []⟩]

/-- The declaration of `exBatch`, carried by its position only. -/
def exPosBatch : List Node :=
  [⟨0, Object.zero, [1], []⟩, ⟨1, ⟨"T", ObjectPath.zero, exPos⟩, [], []⟩]

/-- A partial graph whose root is the package object and carries a stable path. -/
def exRootedBatch : List Node :=
  [⟨0, ⟨"pkg", ⟨"example.com/pkg", ""⟩, token.Position.zero⟩, [1], []⟩,
   ⟨1, ⟨"T", exPath, exPos⟩, [], []⟩]

/-- A graph in which the stable path `exPath` is recorded for node 1 and the position
`exPos` for node 2. -/
def exTwoGraph : SerializedGraph :=
  { nodes := [Node.zero, ⟨1, ⟨"T", exPath, token.Position.zero⟩, [], []⟩,
      ⟨2, ⟨"u", ObjectPath.zero, exPos⟩, [], []⟩],
    nodesByPath := mapSet (fun _ => none) exPath 1,
    nodesByPosition := mapSet (fun _ => none) exPos 2 }

/-! ## `walk` and the seeding loop of `yoink` -/

/-- The struct `ast.Ident` of go/ast, as far as `walk` reads it. -/
structure ast.Ident where
  NamePos : Int
  Name : String
deriving DecidableEq, Repr

/-- What `table` holds for a position: an `*ast.Ident` or another `ast.Node`. -/
inductive ast.Node where
  | Ident (id : ast.Ident)
  | Other
deriving DecidableEq, Repr

/-- What `walk` distinguishes in `obj.Type()`: a `*types.Named`, given by the positions
`fset.Position(o.Method(i).Pos())` of its methods in order, or any other type. -/
inductive types.Type where
  | Named (methods : List token.Position)
  | Other
deriving DecidableEq, Repr

/-- The arguments `fset`, `table` and `info` of `walk`, and the Unicode upper-case test
behind `ast.Ident.IsExported`.  `ObjectOf id` is `info.ObjectOf(id)` followed by
`obj.Type()`, `none` when the object is nil. -/
structure Env where
  table : token.Position → Option ast.Node
  ObjectOf : ast.Ident → Option types.Type
  IsUpper : Char → Bool

/-- The function `token.IsExported`: the first rune of the name is upper case. -/
def IsExported (env : Env) (name : String) : Bool :=
  match name.data with
  | [] => false
  | c :: _ => env.IsUpper c

/-- The ways `walk` can abort; `outOfFuel` is the end of the recursion budget of the
embedding, not a state of the program. -/
inductive WalkPanic where
  /-- `nodes[n]` or `nodes[u]` with an index out of range -/
  | indexOutOfRange
  /-- `table[...]` does not hold an `*ast.Ident` -/
  | typeAssertion
  | outOfFuel
deriving DecidableEq, Repr

/-- Lines 393-397: every node at the position of the method is walked from its `ID`. -/
def walkMethod (rec : Nat → List Nat → Except WalkPanic (List Nat)) (mpos : token.Position) :
    List Node → List Nat → Except WalkPanic (List Nat)
  | [], seen => .ok seen
  | v :: vs, seen =>
    if mpos = v.Obj.Position then
      match rec v.ID seen with
      | .error e => .error e
      | .ok seen1 => walkMethod rec mpos vs seen1
    else walkMethod rec mpos vs seen

/-- Lines 391-398: the loop over the methods of a named type. -/
def walkMethods (rec : Nat → List Nat → Except WalkPanic (List Nat)) (nodes : List Node) :
    List token.Position → List Nat → Except WalkPanic (List Nat)
  | [], seen => .ok seen
  | m :: ms, seen =>
    match walkMethod rec m nodes seen with
    | .error e => .error e
    | .ok seen1 => walkMethods rec nodes ms seen1

/-- Lines 384-401: the body of the loop over `nodes[n].Uses`, for the entry `u`. -/
def walkUse (env : Env) (nodes : List Node) (targets : List String)
    (rec : Nat → List Nat → Except WalkPanic (List Nat)) (u : Nat) (seen : List Nat) :
    Except WalkPanic (List Nat) :=
  match nodes[u]? with
  | none => .error .indexOutOfRange
  | some nu =>
    match env.table nu.Obj.Position with
    | some (.Ident id) =>
      if IsExported env id.Name && !(targets.contains id.Name) then .ok seen
      else
        match (match env.ObjectOf id with
          | some (.Named ms) => walkMethods rec nodes ms seen
          | _ => .ok seen) with
        | .error e => .error e
        | .ok seen1 => rec u seen1
    | _ => .error .typeAssertion

/-- Line 383: the loop over `nodes[n].Uses`. -/
def walkUses (env : Env) (nodes : List Node) (targets : List String)
    (rec : Nat → List Nat → Except WalkPanic (List Nat)) :
    List Nat → List Nat → Except WalkPanic (List Nat)
  | [], seen => .ok seen
  | u :: us, seen =>
    match walkUse env nodes targets rec u seen with
    | .error e => .error e
    | .ok seen1 => walkUses env nodes targets rec us seen1

/-- The function `walk`; `seen` is the set of keys of the map `seen`, the first argument
bounds the depth of the recursion. -/
def walk (env : Env) (nodes : List Node) (targets : List String) :
    Nat → Nat → List Nat → Except WalkPanic (List Nat)
  | 0, _, _ => .error .outOfFuel
  | fuel + 1, n, seen =>
    if n ∈ seen then .ok seen
    else
      match nodes[n]? with
      | none => .error .indexOutOfRange
      | some nd => walkUses env nodes targets (walk env nodes targets fuel) nd.Uses (n :: seen)

/-- Lines 166-170 of `yoink`: the loop over the nodes that walks from every target. -/
def walkTargets (env : Env) (nodes : List Node) (targets : List String) (fuel : Nat) :
    List Node → List Nat → Except WalkPanic (List Nat)
  | [], seen => .ok seen
  | n :: ns, seen =>
    if targets.contains n.Obj.Name then
      match walk env nodes targets fuel n.ID seen with
      | .error e => .error e
      | .ok seen1 => walkTargets env nodes targets fuel ns seen1
    else walkTargets env nodes targets fuel ns seen

/-- Lines 164-170 of `yoink`: the set `seen` computed for the targets. -/
def yoinkSeen (env : Env) (nodes : List Node) (targets : List String) (fuel : Nat) :
    Except WalkPanic (List Nat) :=
  walkTargets env nodes targets fuel nodes []

/-! ## The inclusion rule, stated on the graph -/

/-- The identifier that `table` holds for the position of node `u`. -/
def identOf (env : Env) (nodes : List Node) (u : Nat) : Option ast.Ident :=
  match nodes[u]? with
  | none => none
  | some nu =>
    match env.table nu.Obj.Position with
    | some (.Ident id) => some id
    | _ => none

/-- The node `u` is unexported or its name is a target. -/
def Included (env : Env) (nodes : List Node) (targets : List String) (u : Nat) : Prop :=
  ∃ id, identOf env nodes u = some id ∧ (IsExported env id.Name = false ∨ id.Name ∈ targets)

/-- The node with id `v` is a method of the named type of node `u`. -/
def MethodOf (env : Env) (nodes : List Node) (u v : Nat) : Prop :=
  ∃ id ms, identOf env nodes u = some id ∧ env.ObjectOf id = some (.Named ms) ∧
    ∃ nv ∈ nodes, nv.Obj.Position ∈ ms ∧ nv.ID = v

/-- The node with id `i` is a seed: its name is a target. -/
def Seed (nodes : List Node) (targets : List String) (i : Nat) : Prop :=
  ∃ n ∈ nodes, n.ID = i ∧ n.Obj.Name ∈ targets

/-- The set `S` is closed under the inclusion rule. -/
def Closed (env : Env) (nodes : List Node) (targets : List String) (S : Nat → Prop) : Prop :=
  ∀ (n : Nat) (nd : Node), S n → nodes[n]? = some nd → ∀ u ∈ nd.Uses,
    Included env nodes targets u → S u ∧ ∀ v, MethodOf env nodes u v → S v

/-- The least set that contains the seeds and is closed under the inclusion rule. -/
inductive Selected (env : Env) (nodes : List Node) (targets : List String) : Nat → Prop where
  | seed {i : Nat} : Seed nodes targets i → Selected env nodes targets i
  | use {n u : Nat} {nd : Node} : Selected env nodes targets n → nodes[n]? = some nd →
      u ∈ nd.Uses → Included env nodes targets u → Selected env nodes targets u
  | method {n u v : Nat} {nd : Node} : Selected env nodes targets n → nodes[n]? = some nd →
      u ∈ nd.Uses → Included env nodes targets u → MethodOf env nodes u v →
      Selected env nodes targets v

/-- A graph on which `walk` runs without a panic: ids equal indices, and every `uses`
entry is the index of a node whose position holds an identifier in `table`. -/
def GraphWellFormed (env : Env) (nodes : List Node) : Prop :=
  nodes.map Node.ID = List.range nodes.length ∧
  ∀ n ∈ nodes, ∀ u ∈ n.Uses, (identOf env nodes u).isSome = true

instance (env : Env) (nodes : List Node) : Decidable (GraphWellFormed env nodes) := by
  unfold GraphWellFormed; infer_instance

/-! ## The example graphs of the selection -/

/-- The position of the `k`-th declaration of the example file. -/
def exDeclPos (k : Nat) : token.Position := ⟨"a.go", 10 * k, k, 6⟩

/-- The identifier table of the examples: declaration `k` is named by `names[k - 1]`. -/
def exTable (names : List String) (pos : token.Position) : Option ast.Node :=
  if pos.Filename = "a.go" ∧ pos.Column = 6 ∧ 0 < pos.Line then
    match names[pos.Line.toNat - 1]? with
    | some name => some (.Ident ⟨pos.Offset, name⟩)
    | none => none
  else none

/-- The spec's example: unexported `a` uses exported `X`, `X` uses unexported `y`. -/
def exChain : List Node :=
  [⟨0, Object.zero, [1], []⟩, ⟨1, ⟨"a", ObjectPath.zero, exDeclPos 1⟩, [2], []⟩,
   ⟨2, ⟨"X", ObjectPath.zero, exDeclPos 2⟩, [3], []⟩,
   ⟨3, ⟨"y", ObjectPath.zero, exDeclPos 3⟩, [], []⟩]

/-- The environment of `exChain`: no declaration has a named type. -/
def exChainEnv : Env :=
  { table := exTable ["a", "X", "y"], ObjectOf := fun _ => none, IsUpper := Char.isUpper }

/-- Unexported `a` uses the unexported named type `t`, which has the exported method
`M`; `M` uses nothing. -/
def exMethod : List Node :=
  [⟨0, Object.zero, [1], []⟩, ⟨1, ⟨"a", ObjectPath.zero, exDeclPos 1⟩, [2], []⟩,
   ⟨2, ⟨"t", ObjectPath.zero, exDeclPos 2⟩, [], [3]⟩,
   ⟨3, ⟨"M", ObjectPath.zero, exDeclPos 3⟩, [], []⟩]

/-- The environment of `exMethod`: the object of `t` has the named type with method `M`. -/
def exMethodEnv : Env :=
  { table := exTable ["a", "t", "M"],
    ObjectOf := fun id => if id.Name = "t" then some (.Named [exDeclPos 3]) else some .Other,
    IsUpper := Char.isUpper }

/-! ## The invariants of the depth-first walk -/

/-- The valid node ids that are not yet in `seen`; their number bounds the depth of the
recursion of `walk`. -/
def unseen (k : Nat) (seen : List Nat) : Finset Nat :=
  (Finset.range k).filter (fun i => i ∉ seen)

/-- All inclusion-rule successors of node `n` are in `S`. -/
def ExpandedIn (env : Env) (nodes : List Node) (targets : List String) (S : List Nat)
    (n : Nat) : Prop :=
  ∀ nd : Node, nodes[n]? = some nd → ∀ u ∈ nd.Uses, Included env nodes targets u →
    u ∈ S ∧ ∀ v, MethodOf env nodes u v → v ∈ S

/-- The set `s2` extends `s1` by selected, valid ids whose successors are all in `s2`. -/
def Ext (env : Env) (nodes : List Node) (targets : List String) (s1 s2 : List Nat) : Prop :=
  (∀ x ∈ s1, x ∈ s2) ∧
  ∀ x ∈ s2, x ∉ s1 → x < nodes.length ∧ Selected env nodes targets x ∧
    ExpandedIn env nodes targets s2 x

/-- The contract of a recursive call of `walk` with recursion budget `k`. -/
def RecOK (env : Env) (nodes : List Node) (targets : List String)
    (rec : Nat → List Nat → Except WalkPanic (List Nat)) (k : Nat) : Prop :=
  ∀ (m : Nat) (s : List Nat), m < nodes.length → Selected env nodes targets m →
    (unseen nodes.length s).card < k →
    ∃ s2, rec m s = .ok s2 ∧ Ext env nodes targets s s2 ∧ m ∈ s2

/-- The ids in `added` are new to `s`, valid, and pairwise distinct. -/
def Adds (nodes : List Node) (s added : List Nat) : Prop :=
  added.Nodup ∧ ∀ x ∈ added, x ∉ s ∧ x < nodes.length

/-- The contract of a recursive call of `walk` as to termination: with a recursion
budget `k` above the number of valid ids outside `s` the call returns `s` with new ids
put in front, the walked node among the result. -/
def RecTotal (nodes : List Node) (rec : Nat → List Nat → Except WalkPanic (List Nat))
    (k : Nat) : Prop :=
  ∀ (m : Nat) (s : List Nat), m < nodes.length → (unseen nodes.length s).card < k →
    ∃ added, rec m s = .ok (added ++ s) ∧ Adds nodes s added ∧ m ∈ added ++ s

/-- Every result of `rec1` is a result of `rec2`. -/
def RecLe (rec1 rec2 : Nat → List Nat → Except WalkPanic (List Nat)) : Prop :=
  ∀ (m : Nat) (s r : List Nat), rec1 m s = .ok r → rec2 m s = .ok r

/-- Unexported `a` uses unexported `b`, and `b` uses `a`. -/
def exCycle : List Node :=
  [⟨0, Object.zero, [1], []⟩, ⟨1, ⟨"a", ObjectPath.zero, exDeclPos 1⟩, [2], []⟩,
   ⟨2, ⟨"b", ObjectPath.zero, exDeclPos 2⟩, [1], []⟩]

/-- The environment of `exCycle`. -/
def exCycleEnv : Env :=
  { table := exTable ["a", "b"], ObjectOf := fun _ => some .Other, IsUpper := Char.isUpper }

/-- The set `s2` extends `s1` by selected ids whose successors are all in `s2`. -/
def ExtSel (env : Env) (nodes : List Node) (targets : List String) (s1 s2 : List Nat) :
    Prop :=
  (∀ x ∈ s1, x ∈ s2) ∧
  ∀ x ∈ s2, x ∉ s1 → Selected env nodes targets x ∧ ExpandedIn env nodes targets s2 x

/-- The contract of a recursive call of `walk` that has returned. -/
def RecSel (env : Env) (nodes : List Node) (targets : List String)
    (rec : Nat → List Nat → Except WalkPanic (List Nat)) : Prop :=
  ∀ (m : Nat) (s r : List Nat), rec m s = .ok r → Selected env nodes targets m →
    ExtSel env nodes targets s r ∧ m ∈ r

/-- The named type `T` owns the methods `M1` and `M2`, which no declaration references
(their `uses` entry is the receiver type); the unexported function `f` uses `T`. -/
def exType : List Node :=
  [⟨0, Object.zero, [1, 4], []⟩, ⟨1, ⟨"T", ObjectPath.zero, exDeclPos 1⟩, [], [2, 3]⟩,
   ⟨2, ⟨"M1", ObjectPath.zero, exDeclPos 2⟩, [1], []⟩,
   ⟨3, ⟨"M2", ObjectPath.zero, exDeclPos 3⟩, [1], []⟩,
   ⟨4, ⟨"f", ObjectPath.zero, exDeclPos 4⟩, [1], []⟩]

/-- The graph `exType` with the two methods also recorded as `uses` entries of `T`. -/
def exTypeRefs : List Node :=
  [⟨0, Object.zero, [1, 4], []⟩, ⟨1, ⟨"T", ObjectPath.zero, exDeclPos 1⟩, [2, 3], [2, 3]⟩,
   ⟨2, ⟨"M1", ObjectPath.zero, exDeclPos 2⟩, [1], []⟩,
   ⟨3, ⟨"M2", ObjectPath.zero, exDeclPos 3⟩, [1], []⟩,
   ⟨4, ⟨"f", ObjectPath.zero, exDeclPos 4⟩, [1], []⟩]

/-- The environment of `exType`: the object of `T` has the named type with the methods
`M1` and `M2`. -/
def exTypeEnv : Env :=
  { table := exTable ["T", "M1", "M2", "f"],
    ObjectOf := fun id =>
      if id.Name = "T" then some (.Named [exDeclPos 2, exDeclPos 3]) else some .Other,
    IsUpper := Char.isUpper }

/-- The contract of a recursive call of `walk` as to slice indexing: started at a valid
id, the call does not end in an index-out-of-range panic. -/
def RecInRange (nodes : List Node) (rec : Nat → List Nat → Except WalkPanic (List Nat)) :
    Prop :=
  ∀ (m : Nat) (s : List Nat), m < nodes.length → rec m s ≠ .error .indexOutOfRange

/-- A partial graph in which the declaration at local id 2 carries the stable path
`exPath` and the position `exPos`, the node before it the position alone and the node
after it the path alone. -/
def exDriftBatch : List Node :=
  [⟨0, Object.zero, [1, 2, 3], []⟩, ⟨1, ⟨"T", ObjectPath.zero, exPos⟩, [], []⟩,
   ⟨2, ⟨"T", exPath, exPos⟩, [], []⟩, ⟨3, ⟨"T", exPath, token.Position.zero⟩, [], []⟩]

/-! ## The interface satisfaction matcher (`unused/implements.go`) -/

/-- A `*types.Package`, as far as `sameId` reads it. -/
structure types.Package where
  Path : String
deriving DecidableEq, Repr

/-- A `types.Object`, as far as `sameId` reads it; `Pkg` is `none` for the nil package. -/
structure types.Object where
  Name : String
  Pkg : Option types.Package
deriving DecidableEq, Repr

/-- The type of a method, as `types.Identical` is given it by `implements`. -/
structure types.Signature where
  Params : List String
  Results : List String
deriving DecidableEq, Repr

/-- A `*types.Func`: an object with its type, `Typ` standing for the method `Type`. -/
structure types.Func extends types.Object where
  Typ : types.Signature
deriving DecidableEq, Repr

/-- A `*types.Interface`: its methods in the order of `Method(i)`, and whether its type
set is restricted by type terms or by `comparable` (such an interface is not empty even
without methods). -/
structure types.Interface where
  methods : List types.Func
  restricted : Bool
deriving DecidableEq, Repr

/-- The method `Interface.Empty`. -/
def types.Interface.Empty (T : types.Interface) : Bool :=
  T.methods.isEmpty && !T.restricted

/-- A `*types.Selection`: `Func` is the result of `sel.Obj().(*types.Func)`, `none` when
the selected object is not a function. -/
structure types.Selection where
  Recv : String
  Index : List Nat
  Func : Option types.Func
deriving DecidableEq, Repr

/-- A `*types.MethodSet`, given by its method `Lookup`; `none` is the nil selection. -/
structure types.MethodSet where
  Lookup : Option types.Package → String → Option types.Selection

/-- The argument `V` of `implements`, given by `V.Underlying()`: an interface, or a type
that is not an interface. -/
inductive types.Underlying where
  | Interface (ityp : types.Interface)
  | Other
deriving DecidableEq, Repr

/-- What go/types supplies to the matcher: the Unicode upper-case test behind `Exported`,
and `types.Identical` on the types of methods. -/
structure TypesEnv where
  IsUpper : Char → Bool
  Identical : types.Signature → types.Signature → Bool

/-- The method `Exported` of an object: the first rune of its name is upper case. -/
def types.Object.Exported (tenv : TypesEnv) (obj : types.Object) : Bool :=
  match obj.Name.data with
  | [] => false
  | c :: _ => tenv.IsUpper c

/-- The function `sameId` (lines 18-38).  The comparison `pkg == Obj.Pkg()` of line 34 is
made with one of the two pointers nil, so it holds exactly when both are nil. -/
def sameId (tenv : TypesEnv) (Obj : types.Object) (pkg : Option types.Package)
    (name : String) : Bool :=
  if name ≠ Obj.Name then false
  else if Obj.Exported tenv then true
  else
    match pkg, Obj.Pkg with
    | none, none => true
    | none, some _ => false
    | some _, none => false
    | some p, some q => decide (p.Path = q.Path)

/-- The loop of `lookupMethod` (lines 8-13) from index `i` on. -/
def lookupMethodFrom (tenv : TypesEnv) (pkg : Option types.Package) (name : String) :
    Nat → List types.Func → Option (Nat × types.Func)
  | _, [] => none
  | i, m :: ms =>
    if sameId tenv m.toObject pkg name then some (i, m)
    else lookupMethodFrom tenv pkg name (i + 1) ms

/-- The function `lookupMethod` (lines 6-16); `none` stands for the result `(-1, nil)`. -/
def lookupMethod (tenv : TypesEnv) (T : types.Interface) (pkg : Option types.Package)
    (name : String) : Option (Nat × types.Func) :=
  if name ≠ "_" then lookupMethodFrom tenv pkg name 0 T.methods else none

/-- The loop of lines 48-57 over the methods of `T`, for a `V` whose underlying type is
the interface `ityp`: the boolean returned. -/
def implementsInterface (tenv : TypesEnv) (ityp : types.Interface) : List types.Func → Bool
  | [] => true
  | m :: ms =>
    match lookupMethod tenv ityp m.Pkg m.Name with
    | none => false
    | some (_, Obj) =>
      if !tenv.Identical Obj.Typ m.Typ then false
      else implementsInterface tenv ityp ms

/-- The loop of lines 63-80 over the methods of `T`, for a concrete `V`; `sels` is the
slice collected so far. -/
def implementsConcrete (tenv : TypesEnv) (msV : types.MethodSet) :
    List types.Func → List types.Selection → List types.Selection × Bool
  | [], sels => (sels, true)
  | m :: ms, sels =>
    match msV.Lookup m.Pkg m.Name with
    | none => ([], false)
    | some sel =>
      match sel.Func with
      | none => ([], false)
      | some f =>
        if !tenv.Identical f.Typ m.Typ then ([], false)
        else implementsConcrete tenv msV ms (sels ++ [sel])

/-- The function `implements` (lines 40-82); the nil slice is the empty list. -/
def implements (tenv : TypesEnv) (V : types.Underlying) (T : types.Interface)
    (msV : types.MethodSet) : List types.Selection × Bool :=
  if T.Empty then ([], true)
  else
    match V with
    | .Interface ityp => ([], implementsInterface tenv ityp T.methods)
    | .Other => implementsConcrete tenv msV T.methods []

/-- The environment of the examples: ASCII upper case, and identity of signatures as
equality of their parameter and result types. -/
def exTypesEnv : TypesEnv :=
  { IsUpper := Char.isUpper, Identical := fun a b => decide (a = b) }

/-- The interface with the one method `Read(p []byte) (n int, err error)`. -/
def exReader : types.Interface :=
  { methods := [{ Name := "Read", Pkg := some ⟨"io"⟩,
                  Typ := ⟨["[]byte"], ["int", "error"]⟩ }],
    restricted := false }

/-- The selection of the method `Read` of a concrete type `V` with the signature `sig`. -/
def exReadSel (sig : types.Signature) : types.Selection :=
  { Recv := "V", Index := [0],
    Func := some { Name := "Read", Pkg := some ⟨"example.com/pkg"⟩, Typ := sig } }

/-- The method set of a concrete type `V` whose only method is `Read` with the signature
`sig`. -/
def exMethodSet (sig : types.Signature) : types.MethodSet :=
  { Lookup := fun _ name => if name = "Read" then some (exReadSel sig) else none }

/-- An interface whose only method is named by the blank identifier. -/
def exBlank : types.Interface :=
  { methods := [{ Name := "_", Pkg := some ⟨"example.com/pkg"⟩, Typ := ⟨[], []⟩ }],
    restricted := false }

/-! ## The target flag (`set` in main.go) -/

/-- The function `strings.Split(v, ",")` on the characters of `v`: the comma-free pieces
of `v` in order, one more than `v` has commas. -/
def splitComma : List Char → List (List Char)
  | [] => [[]]
  | c :: cs =>
    if c = ',' then [] :: splitComma cs
    else
      match splitComma cs with
      | [] => [[c]]
      | y :: ys => (c :: y) :: ys

/-- The call `strings.Split(v, ",")`. -/
def Split (v : String) : List String := (splitComma v.data).map String.mk

/-- The function `strings.Join(p, ",")` on characters. -/
def joinComma : List (List Char) → List Char
  | [] => []
  | [y] => y
  | y :: z :: ys => y ++ ',' :: joinComma (z :: ys)

/-- The call `strings.Join(p, ",")`. -/
def Join (p : List String) : String := String.mk (joinComma (p.map String.data))

/-- The comparison `a <= b` of two Go strings on their characters: lexicographic, a
proper initial segment first. -/
def charsLe : List Char → List Char → Bool
  | [], _ => true
  | _ :: _, [] => false
  | a :: as, b :: bs => decide (a < b) || (decide (a = b) && charsLe as bs)

/-- The comparison `a <= b` of two Go strings. -/
def strLe (a b : String) : Bool := charsLe a.data b.data

/-- The call `sort.Strings(p)`: `p` in increasing order. -/
def sortStrings (p : List String) : List String :=
  p.insertionSort (fun a b => strLe a b = true)

/-- The assignment `s[y] = true` on a `set`, a `map[string]bool` that is given by the
list of its keys. -/
def setKey (s : List String) (y : String) : List String :=
  if y ∈ s then s else s ++ [y]

/-- The loop of `set.Set` (lines 73-78) over the components: the set when the loop is
left, and the error returned. -/
def setLoop : List String → List String → List String × Option String
  | [], s => (s, none)
  | y :: ys, s =>
    if y = "" then (s, some "empty string target")
    else setLoop ys (setKey s y)

/-- The method `set.Set` (lines 72-80): the set after the call, and the error. -/
def set.Set (s : List String) (v : String) : List String × Option String :=
  setLoop (Split v) s

/-- The method `set.String` (lines 82-89). -/
def set.String (s : List String) : String := Join (sortStrings s)

/-! ## `Merge` called on the receiver's own node list

In a call `g.Merge(g.nodes)` the parameter `nodes` and the field `g.nodes` start as one
slice over one array, and every batch element shares its `Uses` and `Owns` arrays with
the canonical node at its index.  What the call does then depends on where `append`
leaves its results, which the Go run time decides by the capacities; these are the
parameters `Layout` of the model.  Distinct canonical nodes share no edge array. -/

/-- The memory layout a call `g.Merge(g.nodes)` depends on.  `spare` is
`cap(g.nodes) - len(g.nodes)` at the call.  `movedUses i` (`movedOwns i`) says that at
iteration `i` of the second pass the `Uses` (`Owns`) slice of canonical node `i` has
been moved to another array than the one `nodes[i]` points to; it is asked only when
`g.nodes` itself has been moved off the array of `nodes`. -/
structure Layout where
  spare : Nat
  movedUses : Nat → Bool
  movedOwns : Nat → Bool

/-- The array behind the parameter `nodes` during `g.Merge(g.nodes)`: still the array of
`g.nodes`, with `spare` free elements behind the canonical nodes, or an array that
`g.nodes` has left, holding the nodes it held at that moment. -/
inductive OwnBatch where
  | shared (spare : Nat)
  | detached (nodes : List Node)

/-- The array behind `nodes` after the iteration of the first pass for the element `n`,
run on the graph `g`, with `len` the length of `nodes`: the `append` of line 68, reached
when the identity lookup misses, fills a free element of the shared array or, when there
is none, moves `g.nodes` to a new array and leaves the old one to `nodes`.  (The write
of line 76 goes through `g.nodes`, hence into the array of `nodes` exactly while the
two are shared.) -/
def OwnBatch.step (len : Nat) (g : SerializedGraph) (n : Node) : OwnBatch → OwnBatch
  | .detached nodes => .detached nodes
  | .shared spare =>
    match lookupIdentity g n with
    | some _ => .shared spare
    | none =>
      match spare with
      | 0 => .detached (g.nodes.take len)
      | k + 1 => .shared k

/-- The first pass of `g.Merge(g.nodes)` over the elements `nodes[i]`, which it reads by
their `ID` and `Obj` only, fields that no statement of `Merge` writes; next to the graph
and the table it returns the array behind `nodes`. -/
def pass1Own (len : Nat) (g : SerializedGraph) (remapping : List Nat) (b : OwnBatch) :
    List Node → Except Panic (SerializedGraph × List Nat × OwnBatch)
  | [] => .ok (g, remapping, b)
  | n :: rest =>
    match resolve g remapping n with
    | .error e => .error e
    | .ok (g1, remapping1) => pass1Own len g1 remapping1 (b.step len g n) rest

/-- Iteration `i` of the second pass (lines 88-98) while `nodes` is the array of
`g.nodes`: the element read is canonical node `i` as it stands, and the assignments
`n.Uses[i] = ...`, `n.Owns[i] = ...` of lines 91 and 94 rewrite its edge lists in
place, before the two appends. -/
def applyRemapShared (nodes : List Node) (remapping : List Nat) (i : Nat) :
    Except Panic (List Node) :=
  match nodes[i]? with
  | none => .error .indexOutOfRange
  | some n =>
    match getIdx remapping n.ID with
    | .error e => .error e
    | .ok id =>
      match remapIDs remapping n.Uses with
      | .error e => .error e
      | .ok uses =>
        match remapIDs remapping n.Owns with
        | .error e => .error e
        | .ok owns =>
          match appendUses (nodes.set i { n with Uses := uses, Owns := owns }) id uses with
          | .error e => .error e
          | .ok nodes1 => appendOwns nodes1 id owns

/-- The second pass while `nodes` is the array of `g.nodes`, over the indices of
`nodes`. -/
def pass2Shared (remapping : List Nat) : List Node → List Nat → Except Panic (List Node)
  | nodes, [] => .ok nodes
  | nodes, i :: rest =>
    match applyRemapShared nodes remapping i with
    | .error e => .error e
    | .ok nodes1 => pass2Shared remapping nodes1 rest

/-- Iteration `i` of the second pass when `nodes` is an array that `g.nodes` has left:
`n` is the element `nodes[i]`; the assignments of lines 91 and 94 write into its edge
arrays, which are the first `len(n.Uses)` and `len(n.Owns)` entries of the edge lists of
canonical node `i` unless those have been moved. -/
def applyRemapDetached (lay : Layout) (nodes : List Node) (remapping : List Nat) (i : Nat)
    (n : Node) : Except Panic (List Node) :=
  match getIdx remapping n.ID with
  | .error e => .error e
  | .ok id =>
    match remapIDs remapping n.Uses with
    | .error e => .error e
    | .ok uses =>
      match remapIDs remapping n.Owns with
      | .error e => .error e
      | .ok owns =>
        let nodes0 :=
          match nodes[i]? with
          | none => nodes
          | some c =>
            nodes.set i { c with
              Uses := if lay.movedUses i then c.Uses else uses ++ c.Uses.drop n.Uses.length,
              Owns := if lay.movedOwns i then c.Owns else owns ++ c.Owns.drop n.Owns.length }
        match appendUses nodes0 id uses with
        | .error e => .error e
        | .ok nodes1 => appendOwns nodes1 id owns

/-- The second pass when `nodes` is an array that `g.nodes` has left, from index `i` on;
`batch` holds the elements `nodes[i]`, `nodes[i+1]`, ... -/
def pass2Detached (lay : Layout) (remapping : List Nat) :
    Nat → List Node → List Node → Except Panic (List Node)
  | _, [], nodes => .ok nodes
  | i, n :: rest, nodes =>
    match applyRemapDetached lay nodes remapping i n with
    | .error e => .error e
    | .ok nodes1 => pass2Detached lay remapping (i + 1) rest nodes1

/-- The call `g.Merge(g.nodes)` under the memory layout `lay`: the receiver after the
call and the remapping table, or the panic. -/
def mergeOwn (lay : Layout) (g : SerializedGraph) :
    Except Panic (SerializedGraph × List Nat) :=
  match pass1Own g.nodes.length (seedRoot g) (List.replicate g.nodes.length 0)
      (.shared lay.spare) g.nodes with
  | .error e => .error e
  | .ok (g1, remapping, .shared _) =>
    match pass2Shared remapping g1.nodes (List.range g.nodes.length) with
    | .error e => .error e
    | .ok nodes2 => .ok ({ g1 with nodes := nodes2 }, remapping)
  | .ok (g1, remapping, .detached batch) =>
    match pass2Detached lay remapping 0 batch g1.nodes with
    | .error e => .error e
    | .ok nodes2 => .ok ({ g1 with nodes := nodes2 }, remapping)

/-- No edge entry of a canonical node is the root id 0. -/
def EdgesPos (ns : List Node) : Prop :=
  ∀ (i : Nat) (a : Node), ns[i]? = some a → (∀ u ∈ a.Uses, u ≠ 0) ∧ (∀ u ∈ a.Owns, u ≠ 0)

/-- The layout with `spare` free elements in which no edge slice has been moved. -/
def exLayout (spare : Nat) : Layout :=
  { spare := spare, movedUses := fun _ => false, movedOwns := fun _ => false }

/-- Unexported `a` uses the method `M` of `T`, which uses unexported `y`; the node of the
method has the qualified name `T.M`, and the identifier at its position is `M`. -/
def exQualified : List Node :=
  [⟨0, Object.zero, [1], []⟩, ⟨1, ⟨"a", ObjectPath.zero, exDeclPos 1⟩, [2], []⟩,
   ⟨2, ⟨"T.M", ObjectPath.zero, exDeclPos 2⟩, [3], []⟩,
   ⟨3, ⟨"y", ObjectPath.zero, exDeclPos 3⟩, [], []⟩]

/-- The environment of `exQualified`. -/
def exQualifiedEnv : Env :=
  { table := exTable ["a", "M", "y"], ObjectOf := fun _ => none, IsUpper := Char.isUpper }

end Yoink

namespace Yoink

/-! ## Basic facts about the slice operations -/

theorem setIdx_eq_ok {rm : List Nat} {i v : Nat} {rm1 : List Nat}
    (h : setIdx rm i v = .ok rm1) : i < rm.length ∧ rm1 = rm.set i v := by
  unfold setIdx at h
  split at h
  · rename_i hlt
    exact ⟨hlt, by cases h; rfl⟩
  · cases h

theorem setIdx_of_lt {rm : List Nat} {i v : Nat} (h : i < rm.length) :
    setIdx rm i v = .ok (rm.set i v) := by
  simp [setIdx, h]

theorem getIdx_eq_ok {rm : List Nat} {i v : Nat} :
    getIdx rm i = .ok v ↔ rm[i]? = some v := by
  unfold getIdx
  split
  · rename_i w hw
    simp [hw]
  · rename_i hw
    simp [hw]

theorem appendUses_eq_ok {ns : List Node} {i : Nat} {xs : List Nat} {ns1 : List Node}
    (h : appendUses ns i xs = .ok ns1) :
    ∃ nd, ns[i]? = some nd ∧ ns1 = ns.set i { nd with Uses := nd.Uses ++ xs } := by
  unfold appendUses at h
  split at h
  · rename_i nd hnd
    exact ⟨nd, hnd, by cases h; rfl⟩
  · cases h

theorem appendOwns_eq_ok {ns : List Node} {i : Nat} {xs : List Nat} {ns1 : List Node}
    (h : appendOwns ns i xs = .ok ns1) :
    ∃ nd, ns[i]? = some nd ∧ ns1 = ns.set i { nd with Owns := nd.Owns ++ xs } := by
  unfold appendOwns at h
  split at h
  · rename_i nd hnd
    exact ⟨nd, hnd, by cases h; rfl⟩
  · cases h

theorem appendUses_of_get {ns : List Node} {i : Nat} {xs : List Nat} {nd : Node}
    (h : ns[i]? = some nd) :
    appendUses ns i xs = .ok (ns.set i { nd with Uses := nd.Uses ++ xs }) := by
  simp [appendUses, h]

theorem appendOwns_of_get {ns : List Node} {i : Nat} {xs : List Nat} {nd : Node}
    (h : ns[i]? = some nd) :
    appendOwns ns i xs = .ok (ns.set i { nd with Owns := nd.Owns ++ xs }) := by
  simp [appendOwns, h]

/-! ## The relation `Grows` -/

theorem grows_refl (ns : List Node) : Grows ns ns :=
  ⟨le_refl _, fun _ a h => ⟨a, h, rfl, rfl, List.prefix_refl _, List.prefix_refl _⟩⟩

theorem grows_trans {ns1 ns2 ns3 : List Node} (h12 : Grows ns1 ns2) (h23 : Grows ns2 ns3) :
    Grows ns1 ns3 := by
  refine ⟨le_trans h12.1 h23.1, fun i a ha => ?_⟩
  obtain ⟨b, hb, e1, e2, p1, p2⟩ := h12.2 i a ha
  obtain ⟨c, hc, f1, f2, q1, q2⟩ := h23.2 i b hb
  exact ⟨c, hc, f1.trans e1, f2.trans e2, p1.trans q1, p2.trans q2⟩

theorem grows_append (ns extra : List Node) : Grows ns (ns ++ extra) := by
  refine ⟨by simp, fun i a ha => ⟨a, ?_, rfl, rfl, List.prefix_refl _, List.prefix_refl _⟩⟩
  have hlt : i < ns.length := (List.getElem?_eq_some.mp ha).1
  rw [List.getElem?_append_left hlt]
  exact ha

theorem grows_set_uses {ns : List Node} {i : Nat} {nd : Node} (xs : List Nat)
    (h : ns[i]? = some nd) : Grows ns (ns.set i { nd with Uses := nd.Uses ++ xs }) := by
  refine ⟨by simp, fun j a ha => ?_⟩
  have hlt : i < ns.length := (List.getElem?_eq_some.mp h).1
  by_cases hij : i = j
  · subst hij
    rw [h] at ha
    cases ha
    exact ⟨_, List.getElem?_set_self hlt, rfl, rfl, List.prefix_append _ _, List.prefix_refl _⟩
  · exact ⟨a, by rw [List.getElem?_set_ne hij]; exact ha, rfl, rfl, List.prefix_refl _,
      List.prefix_refl _⟩

theorem grows_set_owns {ns : List Node} {i : Nat} {nd : Node} (xs : List Nat)
    (h : ns[i]? = some nd) : Grows ns (ns.set i { nd with Owns := nd.Owns ++ xs }) := by
  refine ⟨by simp, fun j a ha => ?_⟩
  have hlt : i < ns.length := (List.getElem?_eq_some.mp h).1
  by_cases hij : i = j
  · subst hij
    rw [h] at ha
    cases ha
    exact ⟨_, List.getElem?_set_self hlt, rfl, rfl, List.prefix_refl _, List.prefix_append _ _⟩
  · exact ⟨a, by rw [List.getElem?_set_ne hij]; exact ha, rfl, rfl, List.prefix_refl _,
      List.prefix_refl _⟩

theorem grows_rootObj {ns1 ns2 : List Node} (hg : Grows ns1 ns2) (hne : ns1 ≠ [])
    (h : ∀ a : Node, ns1[0]? = some a → a.Obj = Object.zero) :
    ∀ b : Node, ns2[0]? = some b → b.Obj = Object.zero := by
  intro b hb
  have hpos : 0 < ns1.length := List.length_pos.mpr hne
  obtain ⟨c, hc, _, hobj, _, _⟩ := hg.2 0 ns1[0] (List.getElem?_eq_getElem hpos)
  rw [hb] at hc
  cases hc
  rw [hobj]
  exact h _ (List.getElem?_eq_getElem hpos)

/-! ## One iteration of the first pass -/

theorem allocate_eq_ok {g g1 : SerializedGraph} {rm rm1 : List Nat} {n : Node}
    (h : allocate g rm n = .ok (g1, rm1)) :
    n.ID < rm.length ∧ rm1 = rm.set n.ID g.nodes.length ∧
    g1.nodesByPath = (if n.Obj.Path ≠ ObjectPath.zero then
      mapSet g.nodesByPath n.Obj.Path g.nodes.length else g.nodesByPath) ∧
    g1.nodesByPosition = (if n.Obj.Position.Column ≠ 0 then
      mapSet g.nodesByPosition n.Obj.Position g.nodes.length else g.nodesByPosition) ∧
    ((n.ID ≠ 0 ∧ g1.nodes = g.nodes ++ [freshNode g n]) ∨
     (n.ID = 0 ∧ ∃ nd, (g.nodes ++ [freshNode g n])[0]? = some nd ∧
        g1.nodes = (g.nodes ++ [freshNode g n]).set 0
          { nd with Uses := nd.Uses ++ [g.nodes.length] })) := by
  unfold allocate at h
  simp only at h
  split at h
  · cases h
  · rename_i rm2 hset
    obtain ⟨hlt, hrm⟩ := setIdx_eq_ok hset
    split at h
    · cases h
    · rename_i ns2 hns
      cases h
      refine ⟨hlt, hrm, rfl, rfl, ?_⟩
      by_cases h0 : n.ID = 0
      · right
        rw [if_pos h0] at hns
        obtain ⟨nd, hnd, e⟩ := appendUses_eq_ok hns
        exact ⟨h0, nd, hnd, e⟩
      · left
        rw [if_neg h0] at hns
        cases hns
        exact ⟨h0, rfl⟩

theorem allocate_ok (g : SerializedGraph) {rm : List Nat} {n : Node}
    (hlt : n.ID < rm.length) : ∃ g1, allocate g rm n = .ok (g1, rm.set n.ID g.nodes.length) := by
  unfold allocate
  simp only [setIdx_of_lt hlt]
  by_cases h0 : n.ID = 0
  · have : ∃ nd, (g.nodes ++ [({ ID := g.nodes.length, Obj := n.Obj, Uses := [], Owns := [] } :
        Node)])[0]? = some nd := by
      cases hg : g.nodes with
      | nil => exact ⟨{ ID := 0, Obj := n.Obj, Uses := [], Owns := [] }, by simp⟩
      | cons a tl => exact ⟨a, by simp⟩
    obtain ⟨nd, hnd⟩ := this
    simp only [if_pos h0, appendUses_of_get hnd]
    exact ⟨_, rfl⟩
  · simp only [if_neg h0]
    exact ⟨_, rfl⟩

theorem resolve_eq_ok {g g1 : SerializedGraph} {rm rm1 : List Nat} {n : Node}
    (h : resolve g rm n = .ok (g1, rm1)) :
    ¬ n.Bad ∧ n.ID < rm.length ∧
    ((∃ v, lookupIdentity g n = some v ∧ g1 = g ∧ rm1 = rm.set n.ID v) ∨
     (lookupIdentity g n = none ∧ allocate g rm n = .ok (g1, rm1))) := by
  unfold resolve at h
  split at h
  · cases h
  · rename_i hbad
    refine ⟨hbad, ?_⟩
    unfold lookupIdentity
    split at h
    · rename_i orig hp
      split at h
      · cases h
      · rename_i rm2 hset
        cases h
        obtain ⟨hlt, hrm⟩ := setIdx_eq_ok hset
        exact ⟨hlt, Or.inl ⟨orig, by simp [hp], rfl, hrm⟩⟩
    · rename_i hp
      split at h
      · rename_i orig hq
        split at h
        · rename_i hcol
          split at h
          · cases h
          · rename_i rm2 hset
            cases h
            obtain ⟨hlt, hrm⟩ := setIdx_eq_ok hset
            exact ⟨hlt, Or.inl ⟨orig, by simp [hp, hcol, hq], rfl, hrm⟩⟩
        · rename_i hcol
          exact ⟨(allocate_eq_ok h).1, Or.inr ⟨by simp [hp, hcol], h⟩⟩
      · rename_i hq
        exact ⟨(allocate_eq_ok h).1, Or.inr ⟨by simp [hp, hq], h⟩⟩

theorem resolve_of_hit {g : SerializedGraph} {rm : List Nat} {n : Node} {v : Nat}
    (hbad : ¬ n.Bad) (hlt : n.ID < rm.length) (hv : lookupIdentity g n = some v) :
    resolve g rm n = .ok (g, rm.set n.ID v) := by
  unfold Node.Bad at hbad
  unfold lookupIdentity at hv
  unfold resolve
  rw [if_neg hbad]
  split at hv
  · rename_i orig hp
    cases hv
    simp [hp, setIdx_of_lt hlt]
  · rename_i hp
    split at hv
    · rename_i hcol
      simp [hp, hv, hcol, setIdx_of_lt hlt]
    · cases hv

theorem resolve_of_miss {g : SerializedGraph} {rm : List Nat} {n : Node}
    (hbad : ¬ n.Bad) (hv : lookupIdentity g n = none) :
    resolve g rm n = allocate g rm n := by
  unfold Node.Bad at hbad
  unfold lookupIdentity at hv
  unfold resolve
  rw [if_neg hbad]
  split at hv
  · cases hv
  · rename_i hp
    split at hv
    · rename_i hcol
      simp [hp, hv]
    · rename_i hcol
      split
      · rw [if_neg hcol]
      · rfl

theorem resolve_of_bad {g : SerializedGraph} {rm : List Nat} {n : Node} (hbad : n.Bad) :
    resolve g rm n = .error (.noIdentity n.Obj.Name) := by
  unfold Node.Bad at hbad
  unfold resolve
  rw [if_pos hbad]

/-! ## Node-list invariants under the two kinds of update -/

theorem dense_set_uses {ns : List Node} {i : Nat} {nd : Node} (xs : List Nat)
    (hd : Dense ns) (h : ns[i]? = some nd) :
    Dense (ns.set i { nd with Uses := nd.Uses ++ xs }) := by
  intro j a ha
  rw [List.getElem?_set] at ha
  split at ha
  · rename_i hij
    subst hij
    split at ha
    · cases ha
      exact hd i nd h
    · cases ha
  · exact hd j a ha

theorem dense_set_owns {ns : List Node} {i : Nat} {nd : Node} (xs : List Nat)
    (hd : Dense ns) (h : ns[i]? = some nd) :
    Dense (ns.set i { nd with Owns := nd.Owns ++ xs }) := by
  intro j a ha
  rw [List.getElem?_set] at ha
  split at ha
  · rename_i hij
    subst hij
    split at ha
    · cases ha
      exact hd i nd h
    · cases ha
  · exact hd j a ha

theorem dense_append_fresh {ns : List Node} {x : Node} (hd : Dense ns)
    (hx : x.ID = ns.length) : Dense (ns ++ [x]) := by
  intro j a ha
  rw [List.getElem?_append] at ha
  split at ha
  · exact hd j a ha
  · rename_i hj
    have hj2 : j - ns.length = 0 := by
      by_contra hne
      have : 1 ≤ j - ns.length := Nat.one_le_iff_ne_zero.mpr hne
      rw [List.getElem?_eq_none (by simpa using this)] at ha
      cases ha
    have hjl : j = ns.length := by omega
    rw [hj2] at ha
    simp only [List.getElem?_cons_zero, Option.some.injEq] at ha
    rw [← ha, hx, hjl]

theorem edges_set_uses {ns : List Node} {i : Nat} {nd : Node} {xs : List Nat}
    (he : EdgesInRange ns) (h : ns[i]? = some nd) (hxs : ∀ u ∈ xs, u < ns.length) :
    EdgesInRange (ns.set i { nd with Uses := nd.Uses ++ xs }) := by
  intro j a ha
  rw [List.length_set]
  rw [List.getElem?_set] at ha
  split at ha
  · rename_i hij
    subst hij
    split at ha
    · cases ha
      refine ⟨fun u hu => ?_, (he i nd h).2⟩
      rcases List.mem_append.mp hu with hu | hu
      · exact (he i nd h).1 u hu
      · exact hxs u hu
    · cases ha
  · exact he j a ha

theorem edges_set_owns {ns : List Node} {i : Nat} {nd : Node} {xs : List Nat}
    (he : EdgesInRange ns) (h : ns[i]? = some nd) (hxs : ∀ u ∈ xs, u < ns.length) :
    EdgesInRange (ns.set i { nd with Owns := nd.Owns ++ xs }) := by
  intro j a ha
  rw [List.length_set]
  rw [List.getElem?_set] at ha
  split at ha
  · rename_i hij
    subst hij
    split at ha
    · cases ha
      refine ⟨(he i nd h).1, fun u hu => ?_⟩
      rcases List.mem_append.mp hu with hu | hu
      · exact (he i nd h).2 u hu
      · exact hxs u hu
    · cases ha
  · exact he j a ha

theorem edges_append_fresh {ns : List Node} {x : Node} (he : EdgesInRange ns)
    (hu : x.Uses = []) (ho : x.Owns = []) : EdgesInRange (ns ++ [x]) := by
  intro j a ha
  rw [List.getElem?_append] at ha
  have hlen : (ns ++ [x]).length = ns.length + 1 := by simp
  rw [hlen]
  split at ha
  · obtain ⟨h1, h2⟩ := he j a ha
    exact ⟨fun u hu => by have := h1 u hu; omega, fun u hu => by have := h2 u hu; omega⟩
  · have hax : a = x := by
      have hm : a ∈ [x] := List.mem_iff_getElem?.mpr ⟨_, ha⟩
      simpa using hm
    subst hax
    simp [hu, ho]

/-! ## The first pass keeps the invariant -/

theorem allocate_nodes {g g1 : SerializedGraph} {rm rm1 : List Nat} {n : Node}
    (h : allocate g rm n = .ok (g1, rm1)) :
    g1.nodes.length = g.nodes.length + 1 ∧ Grows g.nodes g1.nodes ∧
    (Dense g.nodes → Dense g1.nodes) ∧ (EdgesInRange g.nodes → EdgesInRange g1.nodes) := by
  obtain ⟨_, _, _, _, hn⟩ := allocate_eq_ok h
  have hfid : (freshNode g n).ID = g.nodes.length := rfl
  rcases hn with ⟨_, hn⟩ | ⟨_, nd, hnd, hn⟩
  · rw [hn]
    exact ⟨by simp, grows_append _ _, fun hd => dense_append_fresh hd hfid,
      fun he => edges_append_fresh he rfl rfl⟩
  · rw [hn]
    refine ⟨by simp, grows_trans (grows_append _ _) (grows_set_uses _ hnd),
      fun hd => dense_set_uses _ (dense_append_fresh hd hfid) hnd,
      fun he => edges_set_uses (edges_append_fresh he rfl rfl) hnd ?_⟩
    intro u hu
    simp only [List.mem_singleton] at hu
    subst hu
    simp

theorem mapSet_eq_some {K : Type} [DecidableEq K] {m : K → Option Nat} {k k1 : K} {v w : Nat}
    (h : mapSet m k v k1 = some w) : (k1 = k ∧ w = v) ∨ m k1 = some w := by
  unfold mapSet at h
  split at h
  · rename_i hk
    cases h
    exact Or.inl ⟨hk, rfl⟩
  · exact Or.inr h

theorem allocate_pass1Inv {g g1 : SerializedGraph} {rm rm1 : List Nat} {n : Node}
    (hI : Pass1Inv g rm) (h : allocate g rm n = .ok (g1, rm1)) : Pass1Inv g1 rm1 := by
  obtain ⟨hlen, hgr, hd, he⟩ := allocate_nodes h
  obtain ⟨_, hrm, hp, hq, _⟩ := allocate_eq_ok h
  have hpos : 0 < g.nodes.length := List.length_pos.mpr hI.nonempty
  refine ⟨⟨hd hI.inv.dense, he hI.inv.edges, ?_, ?_, ?_, ?_,
    grows_rootObj hgr hI.nonempty hI.inv.rootObj⟩, ?_, ?_⟩
  · intro k v hk
    rw [hp] at hk
    split at hk
    · rcases mapSet_eq_some hk with ⟨_, hv⟩ | hk
      · omega
      · have := hI.inv.pathRange k v hk
        omega
    · have := hI.inv.pathRange k v hk
      omega
  · intro k v hk
    rw [hq] at hk
    split at hk
    · rcases mapSet_eq_some hk with ⟨_, hv⟩ | hk
      · omega
      · have := hI.inv.posRange k v hk
        omega
    · have := hI.inv.posRange k v hk
      omega
  · rw [hp]
    split
    · rename_i hne
      unfold mapSet
      rw [if_neg (fun e => hne e.symm)]
      exact hI.inv.pathKey
    · exact hI.inv.pathKey
  · intro k v hk
    rw [hq] at hk
    split at hk
    · rename_i hcol
      rcases mapSet_eq_some hk with ⟨hkk, _⟩ | hk
      · rw [hkk]
        exact hcol
      · exact hI.inv.posKey k v hk
    · exact hI.inv.posKey k v hk
  · intro e
    rw [e] at hlen
    simp at hlen
  · intro v hv
    rw [hrm] at hv
    rcases List.mem_or_eq_of_mem_set hv with hv | hv
    · have := hI.remap v hv
      omega
    · omega

theorem lookupIdentity_range {g : SerializedGraph} {n : Node} {v : Nat} (hI : Inv g)
    (h : lookupIdentity g n = some v) : 0 < v ∧ v < g.nodes.length := by
  unfold lookupIdentity at h
  split at h
  · rename_i orig hp
    cases h
    exact hI.pathRange _ _ hp
  · split at h
    · exact hI.posRange _ _ h
    · cases h

theorem resolve_pass1Inv {g g1 : SerializedGraph} {rm rm1 : List Nat} {n : Node}
    (hI : Pass1Inv g rm) (h : resolve g rm n = .ok (g1, rm1)) : Pass1Inv g1 rm1 := by
  obtain ⟨_, _, hc⟩ := resolve_eq_ok h
  rcases hc with ⟨v, hv, hg, hrm⟩ | ⟨_, ha⟩
  · subst hg
    refine ⟨hI.inv, hI.nonempty, ?_⟩
    intro w hw
    rw [hrm] at hw
    rcases List.mem_or_eq_of_mem_set hw with hw | hw
    · exact hI.remap w hw
    · rw [hw]
      exact (lookupIdentity_range hI.inv hv).2
  · exact allocate_pass1Inv hI ha

theorem pass1_pass1Inv : ∀ (batch : List Node) {g g1 : SerializedGraph} {rm rm1 : List Nat},
    Pass1Inv g rm → pass1 g rm batch = .ok (g1, rm1) → Pass1Inv g1 rm1
  | [], g, g1, rm, rm1, hI, h => by
    simp only [pass1, Except.ok.injEq, Prod.mk.injEq] at h
    obtain ⟨hg, hrm⟩ := h
    subst hg hrm
    exact hI
  | n :: rest, g, g1, rm, rm1, hI, h => by
    simp only [pass1] at h
    split at h
    · cases h
    · rename_i g2 rm2 hres
      exact pass1_pass1Inv rest (resolve_pass1Inv hI hres) h

theorem inv_empty : Inv SerializedGraph.empty := by
  refine ⟨?_, ?_, ?_, ?_, rfl, ?_, ?_⟩
  · intro i a h
    simp [SerializedGraph.empty] at h
  · intro i a h
    simp [SerializedGraph.empty] at h
  · intro k v h
    simp [SerializedGraph.empty] at h
  · intro k v h
    simp [SerializedGraph.empty] at h
  · intro k v h
    simp [SerializedGraph.empty] at h
  · intro a h
    simp [SerializedGraph.empty] at h

theorem seedRoot_pass1Inv {g : SerializedGraph} (hI : Inv g) (k : Nat) :
    Pass1Inv (seedRoot g) (List.replicate k 0) := by
  unfold seedRoot
  split
  · rename_i h0
    have hnil : g.nodes = [] := List.length_eq_zero.mp h0
    refine ⟨⟨?_, ?_, ?_, ?_, hI.pathKey, hI.posKey, ?_⟩, ?_, ?_⟩
    · simp only [hnil, List.nil_append]
      intro i a h
      cases i with
      | zero =>
        simp only [List.getElem?_cons_zero, Option.some.injEq] at h
        rw [← h]
        rfl
      | succ i => simp at h
    · simp only [hnil, List.nil_append]
      intro i a h
      cases i with
      | zero =>
        simp only [List.getElem?_cons_zero, Option.some.injEq] at h
        rw [← h]
        simp [Node.zero]
      | succ i => simp at h
    · intro k v hk
      have := hI.pathRange k v hk
      omega
    · intro k v hk
      have := hI.posRange k v hk
      omega
    · simp only [hnil, List.nil_append, List.getElem?_cons_zero, Option.some.injEq]
      intro a ha
      rw [← ha]
      rfl
    · simp
    · intro v hv
      rw [List.eq_of_mem_replicate hv]
      simp
  · rename_i h0
    refine ⟨hI, fun e => h0 (by simp [e]), ?_⟩
    intro v hv
    rw [List.eq_of_mem_replicate hv]
    omega

/-! ## The second pass -/

theorem remapOf_of_get {rm : List Nat} {u v : Nat} (h : rm[u]? = some v) : remapOf rm u = v := by
  simp [remapOf, List.getD_eq_getElem?_getD, h]

theorem remapOf_lt {rm : List Nat} {k : Nat} (hrm : ∀ v ∈ rm, v < k) (hk : 0 < k) (u : Nat) :
    remapOf rm u < k := by
  unfold remapOf
  rw [List.getD_eq_getElem?_getD]
  cases h : rm[u]? with
  | none => simpa using hk
  | some v => exact hrm v (List.mem_iff_getElem?.mpr ⟨u, h⟩)

theorem remapIDs_eq_ok : ∀ {us vs : List Nat} {rm : List Nat}, remapIDs rm us = .ok vs →
    vs = us.map (remapOf rm) ∧ ∀ u ∈ us, u < rm.length
  | [], vs, rm, h => by
    simp only [remapIDs, Except.ok.injEq] at h
    subst h
    simp
  | u :: us, vs, rm, h => by
    simp only [remapIDs] at h
    split at h
    · cases h
    · rename_i v hv
      split at h
      · cases h
      · rename_i ws hws
        cases h
        obtain ⟨e, hr⟩ := remapIDs_eq_ok hws
        have hu := getIdx_eq_ok.mp hv
        refine ⟨by simp [remapOf_of_get hu, e], ?_⟩
        intro w hw
        rcases List.mem_cons.mp hw with hw | hw
        · rw [hw]
          exact (List.getElem?_eq_some.mp hu).1
        · exact hr w hw

theorem getIdx_of_lt {rm : List Nat} {u : Nat} (h : u < rm.length) :
    getIdx rm u = .ok (remapOf rm u) := by
  obtain ⟨v, hv⟩ : ∃ v, rm[u]? = some v := ⟨rm[u], List.getElem?_eq_getElem h⟩
  rw [remapOf_of_get hv]
  exact getIdx_eq_ok.mpr hv

theorem remapIDs_of_lt : ∀ {us : List Nat} {rm : List Nat}, (∀ u ∈ us, u < rm.length) →
    remapIDs rm us = .ok (us.map (remapOf rm))
  | [], rm, _ => rfl
  | u :: us, rm, h => by
    simp only [remapIDs, getIdx_of_lt (h u (List.mem_cons_self _ _)),
      remapIDs_of_lt (fun w hw => h w (List.mem_cons_of_mem _ hw)), List.map_cons]

/-- The node `c` after one iteration of the second pass that appends to node `id`. -/
theorem applyRemap_eq_ok {ns ns1 : List Node} {rm : List Nat} {n : Node}
    (h : applyRemap ns rm n = .ok ns1) :
    n.ID < rm.length ∧ (∀ u ∈ n.Uses, u < rm.length) ∧ (∀ u ∈ n.Owns, u < rm.length) ∧
    ∃ nd, ns[remapOf rm n.ID]? = some nd ∧
      ns1 = ns.set (remapOf rm n.ID)
        { nd with Uses := nd.Uses ++ n.Uses.map (remapOf rm),
                  Owns := nd.Owns ++ n.Owns.map (remapOf rm) } := by
  unfold applyRemap at h
  split at h
  · cases h
  · rename_i id hid
    split at h
    · cases h
    · rename_i uses huses
      split at h
      · cases h
      · rename_i owns howns
        split at h
        · cases h
        · rename_i ns2 hns2
          have hidx := getIdx_eq_ok.mp hid
          have hid2 : remapOf rm n.ID = id := remapOf_of_get hidx
          obtain ⟨eu, hu⟩ := remapIDs_eq_ok huses
          obtain ⟨eo, ho⟩ := remapIDs_eq_ok howns
          obtain ⟨nd, hnd, e2⟩ := appendUses_eq_ok hns2
          obtain ⟨nd2, hnd2, e3⟩ := appendOwns_eq_ok h
          refine ⟨(List.getElem?_eq_some.mp hidx).1, hu, ho, nd, by rw [hid2]; exact hnd, ?_⟩
          rw [e2, List.getElem?_set_self (List.getElem?_eq_some.mp hnd).1] at hnd2
          cases hnd2
          rw [e3, e2, List.set_set, hid2, eu, eo]

theorem applyRemap_of_get {ns : List Node} {rm : List Nat} {n : Node} {nd : Node}
    (hid : n.ID < rm.length) (hu : ∀ u ∈ n.Uses, u < rm.length)
    (ho : ∀ u ∈ n.Owns, u < rm.length) (hnd : ns[remapOf rm n.ID]? = some nd) :
    applyRemap ns rm n = .ok (ns.set (remapOf rm n.ID)
        { nd with Uses := nd.Uses ++ n.Uses.map (remapOf rm),
                  Owns := nd.Owns ++ n.Owns.map (remapOf rm) }) := by
  unfold applyRemap
  simp only [getIdx_of_lt hid, remapIDs_of_lt hu, remapIDs_of_lt ho, appendUses_of_get hnd]
  rw [appendOwns_of_get (List.getElem?_set_self (List.getElem?_eq_some.mp hnd).1), List.set_set]

theorem addedUses_cons (rm : List Nat) (n : Node) (rest : List Node) (c : Nat) :
    addedUses rm (n :: rest) c =
      (if remapOf rm n.ID = c then n.Uses.map (remapOf rm) else []) ++ addedUses rm rest c := by
  unfold addedUses
  by_cases h : remapOf rm n.ID = c
  · simp [List.filter_cons, h]
  · simp [List.filter_cons, h]

theorem addedOwns_cons (rm : List Nat) (n : Node) (rest : List Node) (c : Nat) :
    addedOwns rm (n :: rest) c =
      (if remapOf rm n.ID = c then n.Owns.map (remapOf rm) else []) ++ addedOwns rm rest c := by
  unfold addedOwns
  by_cases h : remapOf rm n.ID = c
  · simp [List.filter_cons, h]
  · simp [List.filter_cons, h]

/-- The exact effect of the second pass on every canonical node. -/
theorem pass2_spec : ∀ (batch : List Node) {ns ns1 : List Node} {rm : List Nat},
    pass2 rm ns batch = .ok ns1 →
    ns1.length = ns.length ∧ ∀ (c : Nat) (a : Node), ns[c]? = some a →
      ns1[c]? = some { a with Uses := a.Uses ++ addedUses rm batch c,
                              Owns := a.Owns ++ addedOwns rm batch c }
  | [], ns, ns1, rm, h => by
    simp only [pass2, Except.ok.injEq] at h
    subst h
    refine ⟨rfl, fun c a ha => ?_⟩
    simp [addedUses, addedOwns, ha]
  | n :: rest, ns, ns1, rm, h => by
    simp only [pass2] at h
    split at h
    · cases h
    · rename_i ns2 hstep
      obtain ⟨hlen, hrest⟩ := pass2_spec rest h
      obtain ⟨_, _, _, nd, hnd, e⟩ := applyRemap_eq_ok hstep
      refine ⟨by rw [hlen, e, List.length_set], fun c a ha => ?_⟩
      have hlt : remapOf rm n.ID < ns.length := (List.getElem?_eq_some.mp hnd).1
      by_cases hc : remapOf rm n.ID = c
      · rw [hc] at hnd hlt e
        rw [hnd] at ha
        cases ha
        have h2 : ns2[c]? = some { nd with Uses := nd.Uses ++ n.Uses.map (remapOf rm),
                                           Owns := nd.Owns ++ n.Owns.map (remapOf rm) } := by
          rw [e]
          exact List.getElem?_set_self hlt
        rw [hrest c _ h2, addedUses_cons, addedOwns_cons, if_pos hc, if_pos hc]
        simp only [List.append_assoc]
      · have h2 : ns2[c]? = some a := by
          rw [e, List.getElem?_set_ne hc]
          exact ha
        rw [hrest c _ h2, addedUses_cons, addedOwns_cons, if_neg hc, if_neg hc]
        simp only [List.nil_append]

/-- The second pass completes when the batch and the table are in range. -/
theorem pass2_ok : ∀ (batch : List Node) {ns : List Node} {rm : List Nat},
    (∀ n ∈ batch, n.ID < rm.length ∧ (∀ u ∈ n.Uses, u < rm.length) ∧
      (∀ u ∈ n.Owns, u < rm.length)) →
    (∀ v ∈ rm, v < ns.length) → ∃ ns1, pass2 rm ns batch = .ok ns1
  | [], ns, rm, _, _ => ⟨ns, rfl⟩
  | n :: rest, ns, rm, hb, hrm => by
    obtain ⟨hid, hu, ho⟩ := hb n (List.mem_cons_self _ _)
    have hlt : remapOf rm n.ID < ns.length := by
      have hv : rm[n.ID]? = some rm[n.ID] := List.getElem?_eq_getElem hid
      rw [remapOf_of_get hv]
      exact hrm _ (List.mem_iff_getElem?.mpr ⟨_, hv⟩)
    have hnd : ns[remapOf rm n.ID]? = some ns[remapOf rm n.ID] := List.getElem?_eq_getElem hlt
    simp only [pass2, applyRemap_of_get hid hu ho hnd]
    exact pass2_ok rest (fun m hm => hb m (List.mem_cons_of_mem _ hm))
      (fun v hv => by rw [List.length_set]; exact hrm v hv)

theorem mem_addedUses {rm : List Nat} {batch : List Node} {c u : Nat}
    (h : u ∈ addedUses rm batch c) : ∃ w, u = remapOf rm w := by
  unfold addedUses at h
  simp only [List.mem_flatMap, List.mem_map] at h
  obtain ⟨_, _, w, _, hw⟩ := h
  exact ⟨w, hw.symm⟩

theorem mem_addedOwns {rm : List Nat} {batch : List Node} {c u : Nat}
    (h : u ∈ addedOwns rm batch c) : ∃ w, u = remapOf rm w := by
  unfold addedOwns at h
  simp only [List.mem_flatMap, List.mem_map] at h
  obtain ⟨_, _, w, _, hw⟩ := h
  exact ⟨w, hw.symm⟩

/-- Every node after the second pass comes from the node at the same index before it. -/
theorem pass2_get {batch : List Node} {ns ns1 : List Node} {rm : List Nat}
    (h : pass2 rm ns batch = .ok ns1) {c : Nat} {b : Node} (hb : ns1[c]? = some b) :
    ∃ a, ns[c]? = some a ∧ b = { a with Uses := a.Uses ++ addedUses rm batch c,
                                        Owns := a.Owns ++ addedOwns rm batch c } := by
  obtain ⟨hlen, hspec⟩ := pass2_spec batch h
  have hc : c < ns.length := by
    rw [← hlen]
    exact (List.getElem?_eq_some.mp hb).1
  have ha : ns[c]? = some ns[c] := List.getElem?_eq_getElem hc
  refine ⟨ns[c], ha, ?_⟩
  rw [hspec c _ ha] at hb
  cases hb
  rfl

theorem pass2_grows {batch : List Node} {ns ns1 : List Node} {rm : List Nat}
    (h : pass2 rm ns batch = .ok ns1) : Grows ns ns1 := by
  obtain ⟨hlen, hspec⟩ := pass2_spec batch h
  exact ⟨by rw [hlen], fun c a ha => ⟨_, hspec c a ha, rfl, rfl, List.prefix_append _ _,
    List.prefix_append _ _⟩⟩

theorem pass2_dense {batch : List Node} {ns ns1 : List Node} {rm : List Nat}
    (h : pass2 rm ns batch = .ok ns1) (hd : Dense ns) : Dense ns1 := by
  intro c b hb
  obtain ⟨a, ha, e⟩ := pass2_get h hb
  rw [e]
  exact hd c a ha

theorem pass2_edges {batch : List Node} {ns ns1 : List Node} {rm : List Nat}
    (h : pass2 rm ns batch = .ok ns1) (he : EdgesInRange ns) (hne : ns ≠ [])
    (hrm : ∀ v ∈ rm, v < ns.length) : EdgesInRange ns1 := by
  intro c b hb
  obtain ⟨a, ha, e⟩ := pass2_get h hb
  rw [(pass2_spec batch h).1, e]
  have hpos : 0 < ns.length := List.length_pos.mpr hne
  refine ⟨fun u hu => ?_, fun u hu => ?_⟩
  · rcases List.mem_append.mp hu with hu | hu
    · exact (he c a ha).1 u hu
    · obtain ⟨w, hw⟩ := mem_addedUses hu
      rw [hw]
      exact remapOf_lt hrm hpos w
  · rcases List.mem_append.mp hu with hu | hu
    · exact (he c a ha).2 u hu
    · obtain ⟨w, hw⟩ := mem_addedOwns hu
      rw [hw]
      exact remapOf_lt hrm hpos w

/-! ## The whole of `Merge` -/

theorem mergeRemap_eq_ok {g g2 : SerializedGraph} {batch : List Node} {rm : List Nat}
    (h : mergeRemap g batch = .ok (g2, rm)) :
    ∃ g1, pass1 (seedRoot g) (List.replicate batch.length 0) batch = .ok (g1, rm) ∧
      ∃ ns2, pass2 rm g1.nodes batch = .ok ns2 ∧ g2 = { g1 with nodes := ns2 } := by
  unfold mergeRemap at h
  split at h
  · cases h
  · rename_i g1 rm1 h1
    split at h
    · cases h
    · rename_i ns2 h2
      cases h
      exact ⟨g1, h1, ns2, h2, rfl⟩

theorem mergeRemap_of_passes {g g1 : SerializedGraph} {batch : List Node} {rm : List Nat}
    {ns2 : List Node} (h1 : pass1 (seedRoot g) (List.replicate batch.length 0) batch = .ok (g1, rm))
    (h2 : pass2 rm g1.nodes batch = .ok ns2) :
    mergeRemap g batch = .ok ({ g1 with nodes := ns2 }, rm) := by
  unfold mergeRemap
  simp only [h1, h2]

theorem Merge_eq_ok {g g2 : SerializedGraph} {batch : List Node} :
    Merge g batch = .ok g2 ↔ ∃ rm, mergeRemap g batch = .ok (g2, rm) := by
  unfold Merge
  constructor
  · intro h
    split at h
    · cases h
    · rename_i g3 rm hm
      cases h
      exact ⟨rm, hm⟩
  · rintro ⟨rm, hm⟩
    simp only [hm]

theorem resolve_len {g g1 : SerializedGraph} {rm rm1 : List Nat} {n : Node}
    (h : resolve g rm n = .ok (g1, rm1)) : rm1.length = rm.length := by
  obtain ⟨_, _, hc⟩ := resolve_eq_ok h
  rcases hc with ⟨v, _, _, hrm⟩ | ⟨_, ha⟩
  · rw [hrm, List.length_set]
  · rw [(allocate_eq_ok ha).2.1, List.length_set]

theorem resolve_grows {g g1 : SerializedGraph} {rm rm1 : List Nat} {n : Node}
    (h : resolve g rm n = .ok (g1, rm1)) : Grows g.nodes g1.nodes := by
  obtain ⟨_, _, hc⟩ := resolve_eq_ok h
  rcases hc with ⟨v, _, hg, _⟩ | ⟨_, ha⟩
  · rw [hg]
    exact grows_refl _
  · exact (allocate_nodes ha).2.1

theorem pass1_len : ∀ (batch : List Node) {g g1 : SerializedGraph} {rm rm1 : List Nat},
    pass1 g rm batch = .ok (g1, rm1) → rm1.length = rm.length
  | [], g, g1, rm, rm1, h => by
    simp only [pass1, Except.ok.injEq, Prod.mk.injEq] at h
    rw [h.2]
  | n :: rest, g, g1, rm, rm1, h => by
    simp only [pass1] at h
    split at h
    · cases h
    · rename_i g2 rm2 hres
      rw [pass1_len rest h, resolve_len hres]

theorem pass1_grows : ∀ (batch : List Node) {g g1 : SerializedGraph} {rm rm1 : List Nat},
    pass1 g rm batch = .ok (g1, rm1) → Grows g.nodes g1.nodes
  | [], g, g1, rm, rm1, h => by
    simp only [pass1, Except.ok.injEq, Prod.mk.injEq] at h
    rw [h.1]
    exact grows_refl _
  | n :: rest, g, g1, rm, rm1, h => by
    simp only [pass1] at h
    split at h
    · cases h
    · rename_i g2 rm2 hres
      exact grows_trans (resolve_grows hres) (pass1_grows rest h)

theorem seedRoot_grows (g : SerializedGraph) : Grows g.nodes (seedRoot g).nodes := by
  unfold seedRoot
  split
  · exact grows_append _ _
  · exact grows_refl _

theorem seedRoot_ne_nil (g : SerializedGraph) : (seedRoot g).nodes ≠ [] := by
  unfold seedRoot
  split
  · simp
  · rename_i h
    intro e
    exact h (by simp [e])

theorem mergeRemap_grows {g g2 : SerializedGraph} {batch : List Node} {rm : List Nat}
    (h : mergeRemap g batch = .ok (g2, rm)) : Grows g.nodes g2.nodes ∧ g2.nodes ≠ [] := by
  obtain ⟨g1, h1, ns2, h2, e⟩ := mergeRemap_eq_ok h
  have hg : Grows (seedRoot g).nodes g2.nodes := by
    rw [e]
    exact grows_trans (pass1_grows batch h1) (pass2_grows h2)
  refine ⟨grows_trans (seedRoot_grows g) hg, ?_⟩
  intro e2
  have h3 := hg.1
  rw [e2] at h3
  exact seedRoot_ne_nil g (List.length_eq_zero.mp (Nat.le_zero.mp h3))

theorem mergeRemap_inv {g g2 : SerializedGraph} {batch : List Node} {rm : List Nat}
    (hI : Inv g) (h : mergeRemap g batch = .ok (g2, rm)) : Inv g2 := by
  obtain ⟨g1, h1, ns2, h2, e⟩ := mergeRemap_eq_ok h
  have hP := pass1_pass1Inv batch (seedRoot_pass1Inv hI batch.length) h1
  have hlen : ns2.length = g1.nodes.length := (pass2_spec batch h2).1
  rw [e]
  refine ⟨pass2_dense h2 hP.inv.dense, pass2_edges h2 hP.inv.edges hP.nonempty hP.remap,
    ?_, ?_, hP.inv.pathKey, hP.inv.posKey,
    grows_rootObj (pass2_grows h2) hP.nonempty hP.inv.rootObj⟩
  · intro k v hk
    have := hP.inv.pathRange k v hk
    simpa only [hlen] using this
  · intro k v hk
    have := hP.inv.posRange k v hk
    simpa only [hlen] using this

theorem mergeAll_inv : ∀ (batches : List (List Node)) {g g2 : SerializedGraph},
    Inv g → mergeAll g batches = .ok g2 → Inv g2
  | [], g, g2, hI, h => by
    simp only [mergeAll, Except.ok.injEq] at h
    rw [← h]
    exact hI
  | b :: bs, g, g2, hI, h => by
    simp only [mergeAll] at h
    split at h
    · cases h
    · rename_i g1 hm
      obtain ⟨rm, hm2⟩ := Merge_eq_ok.mp hm
      exact mergeAll_inv bs (mergeRemap_inv hI hm2) h

theorem reachable_inv {g : SerializedGraph} (h : Reachable g) : Inv g := by
  obtain ⟨batches, hb⟩ := h
  exact mergeAll_inv batches inv_empty hb

theorem mergeAll_grows : ∀ (batches : List (List Node)) {g g2 : SerializedGraph},
    mergeAll g batches = .ok g2 → Grows g.nodes g2.nodes ∧ (batches ≠ [] → g2.nodes ≠ [])
  | [], g, g2, h => by
    simp only [mergeAll, Except.ok.injEq] at h
    rw [← h]
    exact ⟨grows_refl _, fun hne => absurd rfl hne⟩
  | b :: bs, g, g2, h => by
    simp only [mergeAll] at h
    split at h
    · cases h
    · rename_i g1 hm
      obtain ⟨rm, hm2⟩ := Merge_eq_ok.mp hm
      obtain ⟨hg1, hne1⟩ := mergeRemap_grows hm2
      obtain ⟨hg2, _⟩ := mergeAll_grows bs h
      refine ⟨grows_trans hg1 hg2, fun _ e => ?_⟩
      have h3 := hg2.1
      rw [e] at h3
      exact hne1 (List.length_eq_zero.mp (Nat.le_zero.mp h3))

theorem resolve_total {g : SerializedGraph} {rm : List Nat} {n : Node}
    (hbad : ¬ n.Bad) (hlt : n.ID < rm.length) : ∃ g1 rm1, resolve g rm n = .ok (g1, rm1) := by
  cases hv : lookupIdentity g n with
  | some v => exact ⟨g, _, resolve_of_hit hbad hlt hv⟩
  | none =>
    obtain ⟨g1, h1⟩ := allocate_ok g hlt
    exact ⟨g1, _, by rw [resolve_of_miss hbad hv]; exact h1⟩

theorem pass1_total : ∀ (batch : List Node) (g : SerializedGraph) (rm : List Nat),
    (∀ n ∈ batch, n.ID < rm.length) → (∀ n ∈ batch, ¬ n.Bad) →
    ∃ g1 rm1, pass1 g rm batch = .ok (g1, rm1)
  | [], g, rm, _, _ => ⟨g, rm, rfl⟩
  | n :: rest, g, rm, hid, hbad => by
    obtain ⟨g1, rm1, h1⟩ := resolve_total (g := g) (hbad n (List.mem_cons_self _ _))
      (hid n (List.mem_cons_self _ _))
    simp only [pass1, h1]
    refine pass1_total rest g1 rm1 (fun m hm => ?_) (fun m hm => hbad m (List.mem_cons_of_mem _ hm))
    rw [resolve_len h1]
    exact hid m (List.mem_cons_of_mem _ hm)

theorem pass1_error : ∀ (batch : List Node) (g : SerializedGraph) (rm : List Nat),
    (∀ n ∈ batch, n.ID < rm.length) → (∃ n ∈ batch, n.Bad) →
    ∃ n ∈ batch, n.Bad ∧ pass1 g rm batch = .error (.noIdentity n.Obj.Name)
  | [], _, _, _, hex => by
    obtain ⟨n, hn, _⟩ := hex
    cases hn
  | n :: rest, g, rm, hid, hex => by
    by_cases hb : n.Bad
    · exact ⟨n, List.mem_cons_self _ _, hb, by simp only [pass1, resolve_of_bad hb]⟩
    · obtain ⟨g1, rm1, h1⟩ := resolve_total (g := g) hb (hid n (List.mem_cons_self _ _))
      have hex2 : ∃ m ∈ rest, m.Bad := by
        obtain ⟨m, hm, hmb⟩ := hex
        rcases List.mem_cons.mp hm with e | hm
        · exact absurd (e ▸ hmb) hb
        · exact ⟨m, hm, hmb⟩
      obtain ⟨m, hm, hmb, he⟩ := pass1_error rest g1 rm1 (fun m hm => by
        rw [resolve_len h1]
        exact hid m (List.mem_cons_of_mem _ hm)) hex2
      exact ⟨m, List.mem_cons_of_mem _ hm, hmb, by simp only [pass1, h1, he]⟩

/-- On a graph that satisfies the invariant, a batch in range without a fatal node is
merged to completion. -/
theorem mergeRemap_total {g : SerializedGraph} {batch : List Node} (hI : Inv g)
    (hb : BatchInRange batch) (hbad : ∀ n ∈ batch, ¬ n.Bad) :
    ∃ g2 rm, mergeRemap g batch = .ok (g2, rm) := by
  obtain ⟨g1, rm, h1⟩ := pass1_total batch (seedRoot g) (List.replicate batch.length 0)
    (fun n hn => by simpa using (hb n hn).1) hbad
  have hP := pass1_pass1Inv batch (seedRoot_pass1Inv hI batch.length) h1
  have hlen : rm.length = batch.length := by simpa using pass1_len batch h1
  obtain ⟨ns2, h2⟩ := @pass2_ok batch g1.nodes rm
    (fun n hn => by rw [hlen]; exact hb n hn) hP.remap
  exact ⟨_, rm, mergeRemap_of_passes h1 h2⟩

theorem mergeRemap_error {g : SerializedGraph} {batch : List Node}
    (hb : BatchInRange batch) (hbad : ∃ n ∈ batch, n.Bad) :
    ∃ n ∈ batch, n.Bad ∧ mergeRemap g batch = .error (.noIdentity n.Obj.Name) := by
  obtain ⟨n, hn, hnb, he⟩ := pass1_error batch (seedRoot g) (List.replicate batch.length 0)
    (fun n hn => by simpa using (hb n hn).1) hbad
  exact ⟨n, hn, hnb, by simp only [mergeRemap, he]⟩

/-! ## The tables only gain entries; the table entry of a local id -/

theorem tablesLe_refl (g : SerializedGraph) : TablesLe g g := ⟨fun _ _ h => h, fun _ _ h => h⟩

theorem tablesLe_trans {g1 g2 g3 : SerializedGraph} (h12 : TablesLe g1 g2)
    (h23 : TablesLe g2 g3) : TablesLe g1 g3 :=
  ⟨fun k v h => h23.1 k v (h12.1 k v h), fun k v h => h23.2 k v (h12.2 k v h)⟩

theorem lookupIdentity_eq_none {g : SerializedGraph} {n : Node}
    (h : lookupIdentity g n = none) :
    g.nodesByPath n.Obj.Path = none ∧
      (n.Obj.Position.Column ≠ 0 → g.nodesByPosition n.Obj.Position = none) := by
  unfold lookupIdentity at h
  split at h
  · cases h
  · rename_i hp
    refine ⟨hp, fun hcol => ?_⟩
    rw [if_pos hcol] at h
    exact h

theorem resolve_tablesLe {g g1 : SerializedGraph} {rm rm1 : List Nat} {n : Node}
    (h : resolve g rm n = .ok (g1, rm1)) : TablesLe g g1 := by
  obtain ⟨_, _, hc⟩ := resolve_eq_ok h
  rcases hc with ⟨v, _, hg, _⟩ | ⟨hmiss, ha⟩
  · rw [hg]
    exact tablesLe_refl g
  · obtain ⟨_, _, hp, hq, _⟩ := allocate_eq_ok ha
    obtain ⟨hpn, hqn⟩ := lookupIdentity_eq_none hmiss
    refine ⟨fun k v hk => ?_, fun k v hk => ?_⟩
    · rw [hp]
      split
      · unfold mapSet
        split
        · rename_i hkk
          rw [hkk, hpn] at hk
          cases hk
        · exact hk
      · exact hk
    · rw [hq]
      split
      · rename_i hcol
        unfold mapSet
        split
        · rename_i hkk
          rw [hkk, hqn hcol] at hk
          cases hk
        · exact hk
      · exact hk

theorem pass1_tablesLe : ∀ (batch : List Node) {g g1 : SerializedGraph} {rm rm1 : List Nat},
    pass1 g rm batch = .ok (g1, rm1) → TablesLe g g1
  | [], g, g1, rm, rm1, h => by
    simp only [pass1, Except.ok.injEq, Prod.mk.injEq] at h
    rw [h.1]
    exact tablesLe_refl g1
  | n :: rest, g, g1, rm, rm1, h => by
    simp only [pass1] at h
    split at h
    · cases h
    · rename_i g2 rm2 hres
      exact tablesLe_trans (resolve_tablesLe hres) (pass1_tablesLe rest h)

/-- The entry written by one iteration of the first pass. -/
theorem resolve_remap {g g1 : SerializedGraph} {rm rm1 : List Nat} {n : Node}
    (h : resolve g rm n = .ok (g1, rm1)) :
    rm1 = rm.set n.ID ((lookupIdentity g n).getD g.nodes.length) := by
  obtain ⟨_, _, hc⟩ := resolve_eq_ok h
  rcases hc with ⟨v, hv, _, hrm⟩ | ⟨hmiss, ha⟩
  · rw [hrm, hv]
    rfl
  · rw [(allocate_eq_ok ha).2.1, hmiss]
    rfl

/-- The first pass writes only the entries of the local ids that occur in the batch. -/
theorem pass1_remap_frame : ∀ (batch : List Node) {g g1 : SerializedGraph} {rm rm1 : List Nat},
    pass1 g rm batch = .ok (g1, rm1) → ∀ i : Nat, (∀ n ∈ batch, n.ID ≠ i) → rm1[i]? = rm[i]?
  | [], g, g1, rm, rm1, h, i, _ => by
    simp only [pass1, Except.ok.injEq, Prod.mk.injEq] at h
    rw [h.2]
  | n :: rest, g, g1, rm, rm1, h, i, hi => by
    simp only [pass1] at h
    split at h
    · cases h
    · rename_i g2 rm2 hres
      rw [pass1_remap_frame rest h i (fun m hm => hi m (List.mem_cons_of_mem _ hm)),
        resolve_remap hres, List.getElem?_set_ne (hi n (List.mem_cons_self _ _))]

/-- With pairwise distinct local ids, the table entry of every batch node after the
first pass is the value its own iteration wrote: the identity recorded at that moment,
or else the node count at that moment. -/
theorem pass1_trace : ∀ (batch : List Node) {g g1 : SerializedGraph} {rm rm1 : List Nat},
    Pass1Inv g rm → (batch.map Node.ID).Nodup → pass1 g rm batch = .ok (g1, rm1) →
    ∀ n ∈ batch, ∃ g0 rm0, Pass1Inv g0 rm0 ∧ TablesLe g g0 ∧ TablesLe g0 g1 ∧
      Grows g.nodes g0.nodes ∧ Grows g0.nodes g1.nodes ∧
      rm1[n.ID]? = some ((lookupIdentity g0 n).getD g0.nodes.length)
  | [], _, _, _, _, _, _, _, n, hn => by cases hn
  | m :: rest, g, g1, rm, rm1, hI, hnd, h, n, hn => by
    simp only [pass1] at h
    split at h
    · cases h
    · rename_i g2 rm2 hres
      rw [List.map_cons, List.nodup_cons] at hnd
      rcases List.mem_cons.mp hn with e | hn
      · subst e
        refine ⟨g, rm, hI, tablesLe_refl g,
          tablesLe_trans (resolve_tablesLe hres) (pass1_tablesLe rest h), grows_refl _,
          grows_trans (resolve_grows hres) (pass1_grows rest h), ?_⟩
        rw [pass1_remap_frame rest h n.ID (fun k hk e => hnd.1 (e ▸ List.mem_map_of_mem _ hk)),
          resolve_remap hres]
        exact List.getElem?_set_self (resolve_eq_ok hres).2.1
      · obtain ⟨g0, rm0, hI0, hle1, hle2, hgr1, hgr2, hrm⟩ :=
          pass1_trace rest (resolve_pass1Inv hI hres) hnd.2 h n hn
        exact ⟨g0, rm0, hI0, tablesLe_trans (resolve_tablesLe hres) hle1, hle2,
          grows_trans (resolve_grows hres) hgr1, hgr2, hrm⟩

theorem wellFormed_ids {batch : List Node} (h : WellFormedBatch batch) :
    (batch.map Node.ID).Nodup ∧ ∀ (i : Nat) (n : Node), batch[i]? = some n → n.ID = i := by
  obtain ⟨hids, _, _, _⟩ := h
  refine ⟨by rw [hids]; exact List.nodup_range _, fun i n hn => ?_⟩
  have h1 : (batch.map Node.ID)[i]? = some n.ID := by simp [hn]
  rw [hids] at h1
  have hi : i < batch.length := (List.getElem?_eq_some.mp hn).1
  rw [List.getElem?_range hi] at h1
  cases h1
  rfl

theorem wellFormed_inRange {batch : List Node} (h : WellFormedBatch batch) :
    BatchInRange batch := by
  intro n hn
  obtain ⟨i, hi⟩ := List.mem_iff_getElem?.mp hn
  have hid := (wellFormed_ids h).2 i n hi
  refine ⟨?_, h.2.2.2 n hn⟩
  rw [hid]
  exact (List.getElem?_eq_some.mp hi).1

theorem pass2_inRange : ∀ (batch : List Node) {ns ns1 : List Node} {rm : List Nat},
    pass2 rm ns batch = .ok ns1 →
    ∀ n ∈ batch, n.ID < rm.length ∧ (∀ u ∈ n.Uses, u < rm.length) ∧
      (∀ u ∈ n.Owns, u < rm.length)
  | [], _, _, _, _, n, hn => by cases hn
  | m :: rest, ns, ns1, rm, h, n, hn => by
    simp only [pass2] at h
    split at h
    · cases h
    · rename_i ns2 hstep
      rcases List.mem_cons.mp hn with e | hn
      · obtain ⟨h1, h2, h3, _⟩ := applyRemap_eq_ok hstep
        rw [e]
        exact ⟨h1, h2, h3⟩
      · exact pass2_inRange rest h n hn

theorem seedRoot_tables (g : SerializedGraph) :
    (seedRoot g).nodesByPath = g.nodesByPath ∧
      (seedRoot g).nodesByPosition = g.nodesByPosition := by
  unfold seedRoot
  split
  · exact ⟨rfl, rfl⟩
  · exact ⟨rfl, rfl⟩

theorem lookupIdentity_of_path {g : SerializedGraph} {n : Node} {a : Nat}
    (h : g.nodesByPath n.Obj.Path = some a) : lookupIdentity g n = some a := by
  simp [lookupIdentity, h]

/-! ## The root and its `uses` list -/

theorem rootUses_of_get {g : SerializedGraph} {a : Node} (h : g.nodes[0]? = some a) :
    rootUses g = a.Uses := by
  simp [rootUses, h]

theorem rootUses_seedRoot (g : SerializedGraph) : rootUses (seedRoot g) = rootUses g := by
  unfold seedRoot
  split
  · rename_i h0
    have hnil : g.nodes = [] := List.length_eq_zero.mp h0
    simp [rootUses, hnil, Node.zero]
  · rfl

theorem resolve_root_frame {g g1 : SerializedGraph} {rm rm1 : List Nat} {n : Node}
    (hne : g.nodes ≠ []) (hid : n.ID ≠ 0) (h : resolve g rm n = .ok (g1, rm1)) :
    g1.nodes[0]? = g.nodes[0]? := by
  obtain ⟨_, _, hc⟩ := resolve_eq_ok h
  rcases hc with ⟨v, _, hg, _⟩ | ⟨_, ha⟩
  · rw [hg]
  · obtain ⟨_, _, _, _, hn⟩ := allocate_eq_ok ha
    rcases hn with ⟨_, hn⟩ | ⟨h0, _⟩
    · rw [hn, List.getElem?_append_left (List.length_pos.mpr hne)]
    · exact absurd h0 hid

theorem pass1_root_frame : ∀ (batch : List Node) {g g1 : SerializedGraph} {rm rm1 : List Nat},
    g.nodes ≠ [] → (∀ n ∈ batch, n.ID ≠ 0) → pass1 g rm batch = .ok (g1, rm1) →
    g1.nodes[0]? = g.nodes[0]?
  | [], g, g1, rm, rm1, _, _, h => by
    simp only [pass1, Except.ok.injEq, Prod.mk.injEq] at h
    rw [h.1]
  | n :: rest, g, g1, rm, rm1, hne, hid, h => by
    simp only [pass1] at h
    split at h
    · cases h
    · rename_i g2 rm2 hres
      have hne2 : g2.nodes ≠ [] := by
        intro e
        have h3 := (resolve_grows hres).1
        rw [e] at h3
        exact hne (List.length_eq_zero.mp (Nat.le_zero.mp h3))
      rw [pass1_root_frame rest hne2 (fun m hm => hid m (List.mem_cons_of_mem _ hm)) h,
        resolve_root_frame hne (hid n (List.mem_cons_self _ _)) hres]

theorem addedUses_eq_nil {rm : List Nat} {batch : List Node} {c : Nat}
    (h : ∀ n ∈ batch, remapOf rm n.ID ≠ c) : addedUses rm batch c = [] := by
  unfold addedUses
  have : batch.filter (fun n => decide (remapOf rm n.ID = c)) = [] := by
    rw [List.filter_eq_nil_iff]
    intro n hn
    simpa using h n hn
  rw [this]
  rfl

/-- After the first pass every batch node has a table entry different from 0. -/
theorem pass1_remap_pos {batch : List Node} {g g1 : SerializedGraph} {rm rm1 : List Nat}
    (hI : Pass1Inv g rm) (hnd : (batch.map Node.ID).Nodup)
    (h : pass1 g rm batch = .ok (g1, rm1)) : ∀ n ∈ batch, remapOf rm1 n.ID ≠ 0 := by
  intro n hn
  obtain ⟨g0, rm0, hI0, _, _, _, _, hrm⟩ := pass1_trace batch hI hnd h n hn
  rw [remapOf_of_get hrm]
  cases hv : lookupIdentity g0 n with
  | some v =>
    have := (lookupIdentity_range hI0.inv hv).1
    simp only [Option.getD_some]
    omega
  | none =>
    have := List.length_pos.mpr hI0.nonempty
    simp only [Option.getD_none]
    omega

theorem wellFormed_cons {batch : List Node} (h : WellFormedBatch batch) :
    ∃ r rest, batch = r :: rest ∧ r.ID = 0 ∧ ∀ n ∈ rest, n.ID ≠ 0 := by
  obtain ⟨hnd, hids⟩ := wellFormed_ids h
  cases hb : batch with
  | nil => exact absurd hb h.2.1
  | cons r rest =>
    have hr : r.ID = 0 := hids 0 r (by rw [hb]; simp)
    refine ⟨r, rest, rfl, hr, fun n hn e => ?_⟩
    rw [hb, List.map_cons, List.nodup_cons] at hnd
    exact hnd.1 (by rw [hr, ← e]; exact List.mem_map_of_mem _ hn)

theorem lookupIdentity_congr {g1 g2 : SerializedGraph} (n : Node)
    (hp : g1.nodesByPath = g2.nodesByPath) (hq : g1.nodesByPosition = g2.nodesByPosition) :
    lookupIdentity g1 n = lookupIdentity g2 n := by
  unfold lookupIdentity
  rw [hp, hq]

/-- A `Merge` of a well-formed batch whose root is new: the root gets the id `L`, the node
count after seeding, and exactly this id is appended to the `uses` list of node 0. -/
theorem mergeRemap_fresh_root {g : SerializedGraph} {batch : List Node} (hI : Inv g)
    (hwf : WellFormedBatch batch) (hfr : freshRoot g batch) :
    ∃ g2 rm, mergeRemap g batch = .ok (g2, rm) ∧
      rootUses g2 = rootUses g ++ [(seedRoot g).nodes.length] ∧
      remapOf rm 0 = (seedRoot g).nodes.length ∧
      (seedRoot g).nodes.length < g2.nodes.length ∧
      ∃ r nd, batch[0]? = some r ∧ g2.nodes[(seedRoot g).nodes.length]? = some nd ∧
        nd.Obj = r.Obj := by
  obtain ⟨r, rest, hb, hr0, hrest⟩ := wellFormed_cons hwf
  obtain ⟨g2, rm, hm⟩ := mergeRemap_total hI (wellFormed_inRange hwf) hwf.2.2.1
  obtain ⟨g1, h1full, ns2, h2, e⟩ := mergeRemap_eq_ok hm
  have hnodup := (wellFormed_ids hwf).1
  have hbadr : ¬ r.Bad := hwf.2.2.1 r (by rw [hb]; exact List.mem_cons_self _ _)
  have hP0 := seedRoot_pass1Inv hI batch.length
  have hposb : 0 < batch.length := by rw [hb]; simp
  have hadd : addedUses rm batch 0 = [] :=
    addedUses_eq_nil (pass1_remap_pos hP0 hnodup h1full)
  subst hb
  have hmiss : lookupIdentity (seedRoot g) r = none := by
    rw [lookupIdentity_congr r (seedRoot_tables g).1 (seedRoot_tables g).2]
    exact hfr
  have h1 := h1full
  simp only [pass1] at h1
  split at h1
  · cases h1
  · rename_i ga rma hres
    rw [resolve_of_miss hbadr hmiss] at hres
    have hPa : Pass1Inv ga rma := allocate_pass1Inv hP0 hres
    obtain ⟨_, hrma, _, _, hn⟩ := allocate_eq_ok hres
    have hpos : 0 < (seedRoot g).nodes.length := List.length_pos.mpr hP0.nonempty
    rcases hn with ⟨hne0, _⟩ | ⟨_, nd, hnd, hga⟩
    · exact absurd hr0 hne0
    · rw [List.getElem?_append_left hpos] at hnd
      have hga0 : ga.nodes[0]? =
          some { nd with Uses := nd.Uses ++ [(seedRoot g).nodes.length] } := by
        rw [hga]
        exact List.getElem?_set_self (by simp)
      have hgaL : ga.nodes[(seedRoot g).nodes.length]? = some (freshNode (seedRoot g) r) := by
        rw [hga, List.getElem?_set_ne (by omega)]
        simp
      have hg10 : g1.nodes[0]? = ga.nodes[0]? := pass1_root_frame rest hPa.nonempty hrest h1
      obtain ⟨hlen, hspec⟩ := pass2_spec _ h2
      have h20 := hspec 0 _ (hg10.trans hga0)
      refine ⟨g2, rm, hm, ?_, ?_, ?_, ?_⟩
      · rw [← rootUses_seedRoot g, rootUses_of_get hnd, e]
        simp only [rootUses, h20, hadd, List.append_nil]
      · have h3 := pass1_remap_frame rest h1 0 hrest
        rw [hrma, hr0, List.getElem?_set_self (by simp)] at h3
        exact remapOf_of_get h3
      · have h4 := (pass1_grows rest h1).1
        have h5 : ga.nodes.length = (seedRoot g).nodes.length + 1 := (allocate_nodes hres).1
        rw [e]
        simp only [hlen]
        omega
      · obtain ⟨b, hb, _, hobj, _, _⟩ :=
          (grows_trans (pass1_grows rest h1) (pass2_grows h2)).2 _ _ hgaL
        exact ⟨r, b, by simp, by rw [e]; exact hb, hobj⟩

theorem mergeAllRemap_fst : ∀ (batches : List (List Node)) {g g2 : SerializedGraph}
    {rs : List (List Nat)}, mergeAllRemap g batches = .ok (g2, rs) →
    mergeAll g batches = .ok g2
  | [], g, g2, rs, h => by
    simp only [mergeAllRemap, Except.ok.injEq, Prod.mk.injEq] at h
    simp only [mergeAll, h.1]
  | b :: bs, g, g2, rs, h => by
    simp only [mergeAllRemap] at h
    split at h
    · cases h
    · rename_i g1 r hm
      split at h
      · cases h
      · rename_i g3 rs3 hrest
        cases h
        simp only [mergeAll, Merge, hm, mergeAllRemap_fst bs hrest]

theorem seedRoot_of_ne_nil {g : SerializedGraph} (h : g.nodes ≠ []) : seedRoot g = g := by
  unfold seedRoot
  rw [if_neg (fun e => h (List.length_eq_zero.mp e))]

theorem mergeAllRemap_fanout : ∀ (batches : List (List Node)) (g : SerializedGraph),
    Inv g → (∀ b ∈ batches, WellFormedBatch b) → FreshRoots g batches →
    ∃ g2 rs, mergeAllRemap g batches = .ok (g2, rs) ∧ rs.length = batches.length ∧
      rootUses g2 = rootUses g ++ rs.map (fun rm => remapOf rm 0) ∧
      (∀ id ∈ rs.map (fun rm => remapOf rm 0), (seedRoot g).nodes.length ≤ id) ∧
      (rs.map (fun rm => remapOf rm 0)).Pairwise (fun a b => a < b) ∧
      Grows g.nodes g2.nodes ∧
      ∀ (k : Nat) (b : List Node) (rm : List Nat), batches[k]? = some b → rs[k]? = some rm →
        ∃ r nd, b[0]? = some r ∧ g2.nodes[remapOf rm 0]? = some nd ∧ nd.Obj = r.Obj
  | [], g, _, _, _ => by
    refine ⟨g, [], rfl, rfl, by simp, by simp, by simp, grows_refl _, ?_⟩
    intro k b rm hb
    simp at hb
  | b :: bs, g, hI, hwf, hfr => by
    obtain ⟨hfr1, hfr2⟩ := hfr
    obtain ⟨g1, rm, hm, hroot, hrm0, hL, r, nd, hr, hnd, hobj⟩ :=
      mergeRemap_fresh_root hI (hwf b (List.mem_cons_self _ _)) hfr1
    have hI1 : Inv g1 := mergeRemap_inv hI hm
    have hne1 : g1.nodes ≠ [] := (mergeRemap_grows hm).2
    simp only [Merge, hm] at hfr2
    obtain ⟨g2, rs, hms, hlen, hroot2, hlow, hpw, hgr, hobjs⟩ :=
      mergeAllRemap_fanout bs g1 hI1 (fun c hc => hwf c (List.mem_cons_of_mem _ hc)) hfr2
    rw [seedRoot_of_ne_nil hne1] at hlow
    refine ⟨g2, rm :: rs, by simp only [mergeAllRemap, hm, hms], by simp [hlen], ?_, ?_, ?_,
      grows_trans (mergeRemap_grows hm).1 hgr, ?_⟩
    · rw [hroot2, hroot, List.map_cons, hrm0]
      simp
    · intro id hid
      rw [List.map_cons, List.mem_cons] at hid
      rcases hid with e | hid
      · rw [e, hrm0]
      · have := hlow id hid
        omega
    · rw [List.map_cons, List.pairwise_cons]
      refine ⟨fun id hid => ?_, hpw⟩
      have := hlow id hid
      rw [hrm0]
      omega
    · intro k c rm2 hc hrm2
      cases k with
      | zero =>
        simp only [List.getElem?_cons_zero, Option.some.injEq] at hc hrm2
        subst hc hrm2
        obtain ⟨nd2, hnd2, _, hobj2, _, _⟩ := hgr.2 _ _ hnd
        exact ⟨r, nd2, hr, by rw [hrm0]; exact hnd2, hobj2.trans hobj⟩
      | succ k =>
        simp only [List.getElem?_cons_succ] at hc hrm2
        exact hobjs k c rm2 hc hrm2

/-! ## Merging a root with one declaration -/

theorem seedRoot_length (g : SerializedGraph) :
    (seedRoot g).nodes.length = max 1 g.nodes.length := by
  unfold seedRoot
  split
  · rename_i h0
    simp [h0]
  · rename_i h0
    have : 1 ≤ g.nodes.length := Nat.one_le_iff_ne_zero.mpr h0
    omega

/-- The outcome of `Merge` on an identity-less root followed by one declaration `d`: the
root is allocated the id `L`, the declaration is remapped to its recorded id, or else
allocated `L + 1` and registered. -/
theorem mergeRemap_pair {g : SerializedGraph} {r d : Node} (hI : Inv g)
    (hr0 : r.ID = 0) (hrp : r.Obj.Path = ObjectPath.zero) (hrc : r.Obj.Position.Column = 0)
    (hd1 : d.ID = 1) (hdb : ¬ d.Bad) (hin : BatchInRange [r, d]) :
    ∃ g2, mergeRemap g [r, d] =
        .ok (g2, [max 1 g.nodes.length,
          (lookupIdentity g d).getD (max 1 g.nodes.length + 1)]) ∧ Inv g2 ∧
      (∀ v, lookupIdentity g d = some v →
        g2.nodes.length = max 1 g.nodes.length + 1 ∧ g2.nodesByPath = g.nodesByPath ∧
        g2.nodesByPosition = g.nodesByPosition) ∧
      (lookupIdentity g d = none →
        g2.nodes.length = max 1 g.nodes.length + 2 ∧
        g2.nodesByPath = (if d.Obj.Path ≠ ObjectPath.zero then
          mapSet g.nodesByPath d.Obj.Path (max 1 g.nodes.length + 1) else g.nodesByPath) ∧
        g2.nodesByPosition = (if d.Obj.Position.Column ≠ 0 then
          mapSet g.nodesByPosition d.Obj.Position (max 1 g.nodes.length + 1)
          else g.nodesByPosition)) := by
  have hrb : ¬ r.Bad := fun hb => hb.1 hr0
  have hbad : ∀ n ∈ [r, d], ¬ n.Bad := by
    intro n hn
    simp only [List.mem_cons, List.mem_singleton, List.not_mem_nil, or_false] at hn
    rcases hn with e | e
    · rw [e]; exact hrb
    · rw [e]; exact hdb
  obtain ⟨g2, rm, hm⟩ := mergeRemap_total hI hin hbad
  have hI2 := mergeRemap_inv hI hm
  obtain ⟨g1, h1, ns2, h2, e⟩ := mergeRemap_eq_ok hm
  have hlen2 : ns2.length = g1.nodes.length := (pass2_spec _ h2).1
  have hL := seedRoot_length g
  have hmr : lookupIdentity (seedRoot g) r = none := by
    simp [lookupIdentity, hrp, hrc, (seedRoot_tables g).1, hI.pathKey]
  simp only [pass1, List.length_cons, List.length_nil] at h1
  split at h1
  · cases h1
  · rename_i ga rma hres
    rw [resolve_of_miss hrb hmr] at hres
    obtain ⟨_, hrma, hpa, hqa, _⟩ := allocate_eq_ok hres
    have hlena := (allocate_nodes hres).1
    rw [hrp] at hpa
    rw [hrc] at hqa
    simp only [ne_eq, not_true_eq_false, if_false, (seedRoot_tables g).1,
      (seedRoot_tables g).2] at hpa hqa
    have hld : lookupIdentity ga d = lookupIdentity g d := lookupIdentity_congr d hpa hqa
    split at h1
    · cases h1
    · rename_i gb rmb hres2
      simp only [Except.ok.injEq, Prod.mk.injEq] at h1
      obtain ⟨hgb, hrmb⟩ := h1
      subst hgb hrmb
      have hrmb2 := resolve_remap hres2
      rw [hrma, hr0, hd1, hld, hlena, hL] at hrmb2
      simp only [List.replicate, Nat.zero_add, List.set_cons_zero, List.set_cons_succ] at hrmb2
      subst hrmb2
      refine ⟨g2, hm, hI2, fun v hv => ?_, fun hv => ?_⟩
      · obtain ⟨_, _, hc⟩ := resolve_eq_ok hres2
        rw [hld, hv] at hc
        rcases hc with ⟨w, _, hg, _⟩ | ⟨hno, _⟩
        · rw [e, hg]
          exact ⟨by simp only [hlen2, hg, hlena, hL], hpa, hqa⟩
        · cases hno
      · rw [← hld] at hv
        rw [resolve_of_miss hdb hv] at hres2
        obtain ⟨_, _, hpb, hqb, _⟩ := allocate_eq_ok hres2
        have hlenb := (allocate_nodes hres2).1
        rw [e]
        refine ⟨by simp only [hlen2, hlenb, hlena, hL], ?_, ?_⟩
        · simp only [hpb, hpa, hlena, hL]
        · simp only [hqb, hqa, hlena, hL]

theorem mergeRemap_decl {g : SerializedGraph} {b : List Node} {path : ObjectPath}
    {pos : token.Position} {k : Nat} {P : ObjectPath → Option Nat}
    {Q : token.Position → Option Nat} (hI : Inv g) (hk : g.nodes.length = k)
    (hP : g.nodesByPath = P) (hQ : g.nodesByPosition = Q) (hb : IsDeclBatch b path pos)
    (hid : path ≠ ObjectPath.zero ∨ pos.Column ≠ 0) :
    ∃ g2, mergeRemap g b =
        .ok (g2, [max 1 k, (lookupTables P Q path pos).getD (max 1 k + 1)]) ∧ Inv g2 ∧
      g2.nodes.length = max 1 k + (if (lookupTables P Q path pos).isSome then 1 else 2) ∧
      g2.nodesByPath = (if lookupTables P Q path pos = none ∧ path ≠ ObjectPath.zero then
        mapSet P path (max 1 k + 1) else P) ∧
      g2.nodesByPosition = (if lookupTables P Q path pos = none ∧ pos.Column ≠ 0 then
        mapSet Q pos (max 1 k + 1) else Q) := by
  obtain ⟨r, d, hbe, hr0, hrp, hrc, hd1, hdp, hdq, hin⟩ := hb
  subst hbe hk hP hQ hdp hdq
  have hdb : ¬ d.Bad := by
    intro hb
    rcases hid with h | h
    · exact h hb.2.1
    · exact h hb.2.2
  obtain ⟨g2, hm, hI2, hhit, hmiss⟩ := mergeRemap_pair hI hr0 hrp hrc hd1 hdb hin
  have hl : lookupIdentity g d =
      lookupTables g.nodesByPath g.nodesByPosition d.Obj.Path d.Obj.Position := rfl
  rw [hl] at hm hhit hmiss
  refine ⟨g2, hm, hI2, ?_⟩
  cases hv : lookupTables g.nodesByPath g.nodesByPosition d.Obj.Path d.Obj.Position with
  | some v =>
    obtain ⟨h1, h2, h3⟩ := hhit v hv
    simp [h1, h2, h3]
  | none =>
    obtain ⟨h1, h2, h3⟩ := hmiss hv
    simp [h1, h2, h3]

/-! ## Nodes found again by their own identity -/

theorem selfRegistered_lookup {g : SerializedGraph} (hI : Inv g) (hS : SelfRegistered g)
    {i : Nat} {a : Node} (ha : g.nodes[i]? = some a) (hi : i ≠ 0) :
    lookupIdentity g a = some i := by
  obtain ⟨h1, h2⟩ := hS i a ha hi
  unfold lookupIdentity
  by_cases hp : a.Obj.Path = ObjectPath.zero
  · obtain ⟨hcol, hq⟩ := h2 hp
    rw [hp, hI.pathKey]
    simp only [hcol, ne_eq, not_false_eq_true, if_true]
    exact hq
  · rw [h1 hp]

theorem allocate_get {g g1 : SerializedGraph} {rm rm1 : List Nat} {n : Node}
    (h : allocate g rm n = .ok (g1, rm1)) {i : Nat} {b : Node}
    (hb : g1.nodes[i]? = some b) (hi : i ≠ 0) :
    (i < g.nodes.length ∧ g.nodes[i]? = some b) ∨ (i = g.nodes.length ∧ b = freshNode g n) := by
  obtain ⟨_, _, _, _, hn⟩ := allocate_eq_ok h
  have hget : (g.nodes ++ [freshNode g n])[i]? = some b := by
    rcases hn with ⟨_, hn⟩ | ⟨_, nd, _, hn⟩
    · rw [hn] at hb
      exact hb
    · rw [hn, List.getElem?_set_ne (fun e => hi e.symm)] at hb
      exact hb
  rw [List.getElem?_append] at hget
  split at hget
  · rename_i hlt
    exact Or.inl ⟨hlt, hget⟩
  · rename_i hge
    right
    have hm : b ∈ [freshNode g n] := List.mem_iff_getElem?.mpr ⟨_, hget⟩
    have hlen : i < (g.nodes ++ [freshNode g n]).length := by
      rcases hn with ⟨_, hn⟩ | ⟨_, nd, _, hn⟩
      · rw [← hn]
        exact (List.getElem?_eq_some.mp hb).1
      · have := (List.getElem?_eq_some.mp hb).1
        rw [hn, List.length_set] at this
        exact this
    simp only [List.length_append, List.length_singleton] at hlen
    exact ⟨by omega, by simpa using hm⟩

theorem resolve_selfRegistered {g g1 : SerializedGraph} {rm rm1 : List Nat} {n : Node}
    (hS : SelfRegistered g) (hn : n.Obj.Identified)
    (h : resolve g rm n = .ok (g1, rm1)) : SelfRegistered g1 := by
  obtain ⟨_, _, hc⟩ := resolve_eq_ok h
  rcases hc with ⟨v, _, hg, _⟩ | ⟨hmiss, ha⟩
  · rw [hg]
    exact hS
  · have hle := resolve_tablesLe h
    obtain ⟨_, _, hp, hq, _⟩ := allocate_eq_ok ha
    intro i b hb hi
    rcases allocate_get ha hb hi with ⟨_, hold⟩ | ⟨hiL, hfresh⟩
    · obtain ⟨h1, h2⟩ := hS i b hold hi
      exact ⟨fun hne => hle.1 _ _ (h1 hne), fun he => ⟨(h2 he).1, hle.2 _ _ (h2 he).2⟩⟩
    · subst hfresh
      have hobj : (freshNode g n).Obj = n.Obj := rfl
      rw [hobj, hiL]
      refine ⟨fun hne => ?_, fun he => ?_⟩
      · rw [hp, if_pos hne]
        simp [mapSet]
      · have hcol : n.Obj.Position.Column ≠ 0 := by
          rcases hn with h1 | h1
          · exact absurd he h1
          · exact h1
        refine ⟨hcol, ?_⟩
        rw [hq, if_pos hcol]
        simp [mapSet]

theorem pass1_selfRegistered : ∀ (batch : List Node) {g g1 : SerializedGraph}
    {rm rm1 : List Nat}, SelfRegistered g →
    (∀ n ∈ batch, n.Obj.Identified) → pass1 g rm batch = .ok (g1, rm1) → SelfRegistered g1
  | [], g, g1, rm, rm1, hS, _, h => by
    simp only [pass1, Except.ok.injEq, Prod.mk.injEq] at h
    rw [← h.1]
    exact hS
  | n :: rest, g, g1, rm, rm1, hS, hid, h => by
    simp only [pass1] at h
    split at h
    · cases h
    · rename_i g2 rm2 hres
      exact pass1_selfRegistered rest
        (resolve_selfRegistered hS (hid n (List.mem_cons_self _ _)) hres)
        (fun m hm => hid m (List.mem_cons_of_mem _ hm)) h

theorem mergeRemap_selfRegistered {g g2 : SerializedGraph} {batch : List Node} {rm : List Nat}
    (hS : SelfRegistered g) (hid : ∀ n ∈ batch, n.Obj.Identified)
    (h : mergeRemap g batch = .ok (g2, rm)) : SelfRegistered g2 := by
  obtain ⟨g1, h1, ns2, h2, e⟩ := mergeRemap_eq_ok h
  have hS0 : SelfRegistered (seedRoot g) := by
    unfold seedRoot
    split
    · rename_i h0
      have hnil : g.nodes = [] := List.length_eq_zero.mp h0
      intro i a ha hi
      simp only [hnil, List.nil_append] at ha
      cases i with
      | zero => exact absurd rfl hi
      | succ i => simp at ha
    · exact hS
  have hS1 := pass1_selfRegistered batch hS0 hid h1
  intro i b hb hi
  rw [e] at hb
  obtain ⟨a, ha, hba⟩ := pass2_get h2 hb
  rw [e, hba]
  exact hS1 i a ha hi

/-- A first pass over nodes that are all found by the identity lookup under their own
id changes nothing but the table, in which each of them gets its own id. -/
theorem pass1_all_hit : ∀ (batch : List Node) (g : SerializedGraph) (rm : List Nat),
    (∀ n ∈ batch, ¬ n.Bad ∧ n.ID < rm.length ∧ lookupIdentity g n = some n.ID) →
    ∃ rm1, pass1 g rm batch = .ok (g, rm1) ∧ (∀ n ∈ batch, rm1[n.ID]? = some n.ID) ∧
      ∀ i : Nat, (∀ n ∈ batch, n.ID ≠ i) → rm1[i]? = rm[i]?
  | [], g, rm, _ => ⟨rm, rfl, fun n hn => (by cases hn), fun _ _ => rfl⟩
  | n :: rest, g, rm, h => by
    obtain ⟨hbad, hlt, hv⟩ := h n (List.mem_cons_self _ _)
    have hres : resolve g rm n = .ok (g, rm.set n.ID n.ID) := resolve_of_hit hbad hlt hv
    obtain ⟨rm1, h1, hself, hframe⟩ := pass1_all_hit rest g (rm.set n.ID n.ID)
      (fun m hm => by
        obtain ⟨a, b, c⟩ := h m (List.mem_cons_of_mem _ hm)
        exact ⟨a, by rw [List.length_set]; exact b, c⟩)
    refine ⟨rm1, by simp only [pass1, hres, h1], fun m hm => ?_, fun i hi => ?_⟩
    · rcases List.mem_cons.mp hm with e | hm
      · by_cases hex : ∃ k ∈ rest, k.ID = n.ID
        · obtain ⟨k, hk, hkid⟩ := hex
          rw [e, ← hkid]
          exact hself k hk
        · rw [e, hframe n.ID (fun k hk hkid => hex ⟨k, hk, hkid⟩)]
          exact List.getElem?_set_self hlt
      · exact hself m hm
    · rw [hframe i (fun k hk => hi k (List.mem_cons_of_mem _ hk)),
        List.getElem?_set_ne (hi n (List.mem_cons_self _ _))]

theorem inv_batchInRange {g : SerializedGraph} (hI : Inv g) : BatchInRange g.nodes := by
  intro n hn
  obtain ⟨i, hi⟩ := List.mem_iff_getElem?.mp hn
  refine ⟨?_, hI.edges i n hi⟩
  rw [hI.dense i n hi]
  exact (List.getElem?_eq_some.mp hi).1

/-- Merging the canonical node list of a graph, all of whose non-root nodes are found
again by their identity, back into the graph: node 0 is allocated a copy, every other
node is remapped to itself. -/
theorem mergeRemap_own_nodes {g : SerializedGraph} (hI : Inv g) (hS : SelfRegistered g)
    (hne : g.nodes ≠ []) :
    ∃ g2 rm, mergeRemap g g.nodes = .ok (g2, rm) ∧ g2.nodes.length = g.nodes.length + 1 ∧
      rm[0]? = some g.nodes.length ∧
      ∀ i : Nat, 1 ≤ i → i < g.nodes.length → rm[i]? = some i := by
  have hpos : 0 < g.nodes.length := List.length_pos.mpr hne
  have hseed : seedRoot g = g := seedRoot_of_ne_nil hne
  have hP0 : Pass1Inv g (List.replicate g.nodes.length 0) := by
    have := seedRoot_pass1Inv hI g.nodes.length
    rw [hseed] at this
    exact this
  obtain ⟨a0, tl, hnodes⟩ : ∃ a0 tl, g.nodes = a0 :: tl := List.exists_cons_of_ne_nil hne
  · have ha0 : g.nodes[0]? = some a0 := by rw [hnodes]; simp
    have hid0 : a0.ID = 0 := hI.dense 0 a0 ha0
    have hobj0 : a0.Obj = Object.zero := hI.rootObj a0 ha0
    have hbad0 : ¬ a0.Bad := fun hb => hb.1 hid0
    have hmiss0 : lookupIdentity g a0 = none := by
      simp [lookupIdentity, hobj0, Object.zero, hI.pathKey, token.Position.zero]
    have hlt0 : a0.ID < (List.replicate g.nodes.length 0).length := by
      rw [hid0]
      simpa using hpos
    obtain ⟨ga, halloc⟩ := allocate_ok g hlt0
    obtain ⟨_, _, hpa, hqa, _⟩ := allocate_eq_ok halloc
    have hlena := (allocate_nodes halloc).1
    have hpa2 : ga.nodesByPath = g.nodesByPath := by
      rw [hpa, hobj0]
      simp [Object.zero]
    have hqa2 : ga.nodesByPosition = g.nodesByPosition := by
      rw [hqa, hobj0]
      simp [Object.zero, token.Position.zero]
    have htl : ∀ n ∈ tl, ∃ i, g.nodes[i + 1]? = some n ∧ n.ID = i + 1 := by
      intro n hn
      obtain ⟨i, hi⟩ := List.mem_iff_getElem?.mp hn
      have h1 : g.nodes[i + 1]? = some n := by rw [hnodes]; simpa using hi
      exact ⟨i, h1, hI.dense _ n h1⟩
    have hhit : ∀ n ∈ tl, ¬ n.Bad ∧
        n.ID < ((List.replicate g.nodes.length 0).set a0.ID g.nodes.length).length ∧
        lookupIdentity ga n = some n.ID := by
      intro n hn
      obtain ⟨i, hi, hid⟩ := htl n hn
      have hl := selfRegistered_lookup hI hS hi (Nat.succ_ne_zero i)
      refine ⟨fun hb => ?_, ?_, ?_⟩
      · have := (hS _ n hi (Nat.succ_ne_zero i)).2 hb.2.1
        exact this.1 hb.2.2
      · rw [List.length_set, List.length_replicate, hid]
        exact (List.getElem?_eq_some.mp hi).1
      · rw [lookupIdentity_congr n hpa2 hqa2, hl, hid]
    obtain ⟨rm1, hp1, hself, hframe⟩ := pass1_all_hit tl ga _ hhit
    have hpass1 : pass1 (seedRoot g) (List.replicate g.nodes.length 0) g.nodes =
        .ok (ga, rm1) := by
      rw [hseed, show pass1 g (List.replicate g.nodes.length 0) g.nodes =
        pass1 g (List.replicate g.nodes.length 0) (a0 :: tl) from congrArg _ hnodes]
      simp only [pass1, resolve_of_miss hbad0 hmiss0, halloc, hp1]
    have hP1 := pass1_pass1Inv g.nodes (seedRoot_pass1Inv hI g.nodes.length) hpass1
    have hlen1 : rm1.length = g.nodes.length := by simpa using pass1_len g.nodes hpass1
    obtain ⟨ns2, hp2⟩ := @pass2_ok g.nodes ga.nodes rm1
      (fun n hn => by rw [hlen1]; exact inv_batchInRange hI n hn) hP1.remap
    refine ⟨_, rm1, mergeRemap_of_passes hpass1 hp2, ?_, ?_, ?_⟩
    · simp only [(pass2_spec _ hp2).1, hlena]
    · rw [hframe 0 (fun n hn e => by
        obtain ⟨i, _, hid⟩ := htl n hn
        omega), hid0]
      exact List.getElem?_set_self (by simpa using hpos)
    · intro i h1 h2
      obtain ⟨j, hj⟩ : ∃ j, i = j + 1 := ⟨i - 1, by omega⟩
      subst hj
      obtain ⟨n, hn⟩ : ∃ n, g.nodes[j + 1]? = some n := ⟨_, List.getElem?_eq_getElem h2⟩
      have hid3 : n.ID = j + 1 := hI.dense _ n hn
      have hmem : n ∈ tl := by
        rw [hnodes, List.getElem?_cons_succ] at hn
        exact List.mem_iff_getElem?.mpr ⟨j, hn⟩
      have := hself n hmem
      rw [hid3] at this
      exact this

theorem selfRegistered_empty : SelfRegistered SerializedGraph.empty := by
  intro i a ha
  simp [SerializedGraph.empty] at ha

theorem freshRoot_empty {batch : List Node} (h : batch ≠ []) :
    freshRoot SerializedGraph.empty batch := by
  cases batch with
  | nil => exact absurd rfl h
  | cons r rest =>
    show lookupIdentity SerializedGraph.empty r = none
    simp [lookupIdentity, SerializedGraph.empty]

/-! ## The depth-first walk -/

section Walk

variable {env : Env} {nodes : List Node} {targets : List String}

theorem unseen_mono {k : Nat} {s1 s2 : List Nat} (h : ∀ x ∈ s1, x ∈ s2) :
    (unseen k s2).card ≤ (unseen k s1).card := by
  apply Finset.card_le_card
  intro i hi
  simp only [unseen, Finset.mem_filter] at hi ⊢
  exact ⟨hi.1, fun hc => hi.2 (h i hc)⟩

theorem unseen_cons_lt {k n : Nat} {s : List Nat} (hn : n < k) (hs : n ∉ s) :
    (unseen k (n :: s)).card < (unseen k s).card := by
  apply Finset.card_lt_card
  rw [Finset.ssubset_iff_of_subset]
  · refine ⟨n, ?_, ?_⟩
    · simp only [unseen, Finset.mem_filter, Finset.mem_range]
      exact ⟨hn, hs⟩
    · simp [unseen]
  · intro i hi
    simp only [unseen, Finset.mem_filter] at hi ⊢
    exact ⟨hi.1, fun hc => hi.2 (List.mem_cons_of_mem _ hc)⟩

theorem expandedIn_mono {s1 s2 : List Nat} {n : Nat} (h : ∀ x ∈ s1, x ∈ s2)
    (he : ExpandedIn env nodes targets s1 n) : ExpandedIn env nodes targets s2 n := by
  intro nd hnd u hu hinc
  obtain ⟨h1, h2⟩ := he nd hnd u hu hinc
  exact ⟨h u h1, fun v hv => h v (h2 v hv)⟩

theorem ext_refl (s : List Nat) : Ext env nodes targets s s :=
  ⟨fun _ h => h, fun _ h hn => absurd h hn⟩

theorem ext_trans {s1 s2 s3 : List Nat} (h12 : Ext env nodes targets s1 s2)
    (h23 : Ext env nodes targets s2 s3) : Ext env nodes targets s1 s3 := by
  refine ⟨fun x hx => h23.1 x (h12.1 x hx), fun x hx hn => ?_⟩
  by_cases h2 : x ∈ s2
  · obtain ⟨a, b, c⟩ := h12.2 x h2 hn
    exact ⟨a, b, expandedIn_mono h23.1 c⟩
  · exact h23.2 x hx h2

theorem ids_index {l : List Node} (h : l.map Node.ID = List.range l.length) {i : Nat}
    {n : Node} (hn : l[i]? = some n) : n.ID = i := by
  have h1 : (l.map Node.ID)[i]? = some n.ID := by simp [hn]
  rw [h] at h1
  have hi : i < l.length := (List.getElem?_eq_some.mp hn).1
  rw [List.getElem?_range hi] at h1
  cases h1
  rfl

theorem ids_mem {l : List Node} (h : l.map Node.ID = List.range l.length) {n : Node}
    (hn : n ∈ l) : n.ID < l.length ∧ l[n.ID]? = some n := by
  obtain ⟨i, hi⟩ := List.mem_iff_getElem?.mp hn
  rw [ids_index h hi]
  exact ⟨(List.getElem?_eq_some.mp hi).1, hi⟩

theorem identOf_lt {u : Nat} {id : ast.Ident} (h : identOf env nodes u = some id) :
    u < nodes.length := by
  unfold identOf at h
  split at h
  · cases h
  · rename_i nu hnu
    exact (List.getElem?_eq_some.mp hnu).1

theorem walkUse_of_ident {rec : Nat → List Nat → Except WalkPanic (List Nat)} {u : Nat}
    {id : ast.Ident} (s : List Nat) (h : identOf env nodes u = some id) :
    walkUse env nodes targets rec u s =
      if IsExported env id.Name && !(targets.contains id.Name) then .ok s
      else
        match (match env.ObjectOf id with
          | some (.Named ms) => walkMethods rec nodes ms s
          | _ => .ok s) with
        | .error e => .error e
        | .ok seen1 => rec u seen1 := by
  unfold identOf at h
  unfold walkUse
  cases hnu : nodes[u]? with
  | none =>
    rw [hnu] at h
    cases h
  | some nu =>
    rw [hnu] at h
    simp only at h ⊢
    cases htab : env.table nu.Obj.Position with
    | none =>
      rw [htab] at h
      cases h
    | some a =>
      rw [htab] at h
      cases a with
      | Ident id2 =>
        simp only [Option.some.injEq] at h
        subst h
        rfl
      | Other => cases h

theorem walkMethod_spec {rec : Nat → List Nat → Except WalkPanic (List Nat)} {k : Nat}
    (hrec : RecOK env nodes targets rec k) (mpos : token.Position) :
    ∀ (vs : List Node) (s : List Nat),
      (∀ nv ∈ vs, nv.Obj.Position = mpos →
        nv.ID < nodes.length ∧ Selected env nodes targets nv.ID) →
      (unseen nodes.length s).card < k →
      ∃ s2, walkMethod rec mpos vs s = .ok s2 ∧ Ext env nodes targets s s2 ∧
        ∀ nv ∈ vs, nv.Obj.Position = mpos → nv.ID ∈ s2
  | [], s, _, _ => ⟨s, rfl, ext_refl s, fun nv hnv => (by cases hnv)⟩
  | v :: vs, s, hsel, hk => by
    by_cases hpos : mpos = v.Obj.Position
    · obtain ⟨hlt, hs⟩ := hsel v (List.mem_cons_self _ _) hpos.symm
      obtain ⟨s1, h1, he1, hm1⟩ := hrec v.ID s hlt hs hk
      obtain ⟨s2, h2, he2, hm2⟩ := walkMethod_spec hrec mpos vs s1
        (fun nv hnv => hsel nv (List.mem_cons_of_mem _ hnv))
        (lt_of_le_of_lt (unseen_mono he1.1) hk)
      refine ⟨s2, by simp only [walkMethod, if_pos hpos, h1, h2], ext_trans he1 he2, ?_⟩
      intro nv hnv hp
      rcases List.mem_cons.mp hnv with e | hnv
      · rw [e]
        exact he2.1 _ hm1
      · exact hm2 nv hnv hp
    · obtain ⟨s2, h2, he2, hm2⟩ := walkMethod_spec hrec mpos vs s
        (fun nv hnv => hsel nv (List.mem_cons_of_mem _ hnv)) hk
      refine ⟨s2, by simp only [walkMethod, if_neg hpos, h2], he2, ?_⟩
      intro nv hnv hp
      rcases List.mem_cons.mp hnv with e | hnv
      · rw [e] at hp
        exact absurd hp.symm hpos
      · exact hm2 nv hnv hp

theorem walkMethods_spec {rec : Nat → List Nat → Except WalkPanic (List Nat)} {k : Nat}
    (hrec : RecOK env nodes targets rec k) :
    ∀ (ms : List token.Position) (s : List Nat),
      (∀ m ∈ ms, ∀ nv ∈ nodes, nv.Obj.Position = m →
        nv.ID < nodes.length ∧ Selected env nodes targets nv.ID) →
      (unseen nodes.length s).card < k →
      ∃ s2, walkMethods rec nodes ms s = .ok s2 ∧ Ext env nodes targets s s2 ∧
        ∀ m ∈ ms, ∀ nv ∈ nodes, nv.Obj.Position = m → nv.ID ∈ s2
  | [], s, _, _ => ⟨s, rfl, ext_refl s, fun m hm => (by cases hm)⟩
  | m :: ms, s, hsel, hk => by
    obtain ⟨s1, h1, he1, hm1⟩ := walkMethod_spec hrec m nodes s
      (hsel m (List.mem_cons_self _ _)) hk
    obtain ⟨s2, h2, he2, hm2⟩ := walkMethods_spec hrec ms s1
      (fun m2 hm2 => hsel m2 (List.mem_cons_of_mem _ hm2))
      (lt_of_le_of_lt (unseen_mono he1.1) hk)
    refine ⟨s2, by simp only [walkMethods, h1, h2], ext_trans he1 he2, ?_⟩
    intro m2 hm nv hnv hp
    rcases List.mem_cons.mp hm with e | hm
    · rw [e] at hp
      exact he2.1 _ (hm1 nv hnv hp)
    · exact hm2 m2 hm nv hnv hp

theorem walkUse_spec {rec : Nat → List Nat → Except WalkPanic (List Nat)} {k : Nat}
    (hwf : GraphWellFormed env nodes) (hrec : RecOK env nodes targets rec k) {n : Nat}
    {nd : Node} (hn : nodes[n]? = some nd) (hsel : Selected env nodes targets n) {u : Nat}
    (hu : u ∈ nd.Uses) (s : List Nat) (hk : (unseen nodes.length s).card < k) :
    ∃ s2, walkUse env nodes targets rec u s = .ok s2 ∧ Ext env nodes targets s s2 ∧
      (Included env nodes targets u → u ∈ s2 ∧ ∀ v, MethodOf env nodes u v → v ∈ s2) := by
  have hndm : nd ∈ nodes := List.mem_iff_getElem?.mpr ⟨n, hn⟩
  obtain ⟨id, hid⟩ : ∃ id, identOf env nodes u = some id :=
    Option.isSome_iff_exists.mp (hwf.2 nd hndm u hu)
  rw [walkUse_of_ident s hid]
  by_cases hex : (IsExported env id.Name && !(targets.contains id.Name)) = true
  · rw [if_pos hex]
    refine ⟨s, rfl, ext_refl s, fun hinc => ?_⟩
    obtain ⟨id2, hid2, hor⟩ := hinc
    rw [hid] at hid2
    cases hid2
    simp only [Bool.and_eq_true, Bool.not_eq_true', List.contains_eq_any_beq, List.any_eq_false,
      beq_iff_eq] at hex
    rcases hor with h1 | h1
    · rw [h1] at hex
      exact absurd hex.1 (by simp)
    · exact absurd rfl (hex.2 _ h1)
  · rw [if_neg hex]
    have hinc : Included env nodes targets u := by
      refine ⟨id, hid, ?_⟩
      by_cases h1 : IsExported env id.Name = true
      · right
        by_contra h2
        apply hex
        simp only [Bool.and_eq_true, Bool.not_eq_true', List.contains_eq_any_beq,
          List.any_eq_false, beq_iff_eq]
        exact ⟨h1, fun x hx e => h2 (e ▸ hx)⟩
      · left
        simpa using h1
    have hselu : Selected env nodes targets u := Selected.use hsel hn hu hinc
    have hult : u < nodes.length := identOf_lt hid
    have hmeth : ∃ s1, (match env.ObjectOf id with
          | some (.Named ms) => walkMethods rec nodes ms s
          | _ => .ok s) = .ok s1 ∧ Ext env nodes targets s s1 ∧
        ∀ v, MethodOf env nodes u v → v ∈ s1 := by
      cases hobj : env.ObjectOf id with
      | none =>
        refine ⟨s, rfl, ext_refl s, fun v hv => ?_⟩
        obtain ⟨id2, ms, hid2, hobj2, _⟩ := hv
        rw [hid] at hid2
        cases hid2
        rw [hobj] at hobj2
        cases hobj2
      | some ty =>
        cases ty with
        | Other =>
          refine ⟨s, rfl, ext_refl s, fun v hv => ?_⟩
          obtain ⟨id2, ms, hid2, hobj2, _⟩ := hv
          rw [hid] at hid2
          cases hid2
          rw [hobj] at hobj2
          cases hobj2
        | Named ms =>
          obtain ⟨s1, h1, he1, hm1⟩ := walkMethods_spec hrec ms s
            (fun m hm nv hnv hp => ⟨(ids_mem hwf.1 hnv).1,
              Selected.method hsel hn hu hinc ⟨id, ms, hid, hobj, nv, hnv, hp ▸ hm, rfl⟩⟩) hk
          refine ⟨s1, h1, he1, fun v hv => ?_⟩
          obtain ⟨id2, ms2, hid2, hobj2, nv, hnv, hp, hv⟩ := hv
          rw [hid] at hid2
          cases hid2
          rw [hobj] at hobj2
          cases hobj2
          rw [← hv]
          exact hm1 _ hp nv hnv rfl
    obtain ⟨s1, h1, he1, hm1⟩ := hmeth
    obtain ⟨s2, h2, he2, hu2⟩ := hrec u s1 hult hselu (lt_of_le_of_lt (unseen_mono he1.1) hk)
    refine ⟨s2, by simp only [h1, h2], ext_trans he1 he2, fun _ => ⟨hu2, fun v hv => ?_⟩⟩
    exact he2.1 v (hm1 v hv)

theorem walkUses_spec {rec : Nat → List Nat → Except WalkPanic (List Nat)} {k : Nat}
    (hwf : GraphWellFormed env nodes) (hrec : RecOK env nodes targets rec k) {n : Nat}
    {nd : Node} (hn : nodes[n]? = some nd) (hsel : Selected env nodes targets n) :
    ∀ (us : List Nat) (s : List Nat), (∀ u ∈ us, u ∈ nd.Uses) →
      (unseen nodes.length s).card < k →
      ∃ s2, walkUses env nodes targets rec us s = .ok s2 ∧ Ext env nodes targets s s2 ∧
        ∀ u ∈ us, Included env nodes targets u →
          u ∈ s2 ∧ ∀ v, MethodOf env nodes u v → v ∈ s2
  | [], s, _, _ => ⟨s, rfl, ext_refl s, fun u hu => (by cases hu)⟩
  | u :: us, s, hus, hk => by
    obtain ⟨s1, h1, he1, hd1⟩ := walkUse_spec hwf hrec hn hsel (hus u (List.mem_cons_self _ _))
      s hk
    obtain ⟨s2, h2, he2, hd2⟩ := walkUses_spec hwf hrec hn hsel us s1
      (fun w hw => hus w (List.mem_cons_of_mem _ hw)) (lt_of_le_of_lt (unseen_mono he1.1) hk)
    refine ⟨s2, by simp only [walkUses, h1, h2], ext_trans he1 he2, fun w hw hinc => ?_⟩
    rcases List.mem_cons.mp hw with e | hw
    · subst e
      obtain ⟨a, b⟩ := hd1 hinc
      exact ⟨he2.1 _ a, fun v hv => he2.1 v (b v hv)⟩
    · exact hd2 w hw hinc

/-- The contract of `walk`: with a recursion budget above the number of valid ids not
yet seen, a walk from a selected node returns, and all it adds is selected and has its
successors in the result. -/
theorem walk_spec (hwf : GraphWellFormed env nodes) :
    ∀ fuel : Nat, RecOK env nodes targets (walk env nodes targets fuel) fuel
  | 0 => fun _ _ _ _ hk => absurd hk (Nat.not_lt_zero _)
  | fuel + 1 => by
    intro m s hm hsel hk
    by_cases hms : m ∈ s
    · exact ⟨s, by simp only [walk, if_pos hms], ext_refl s, hms⟩
    · obtain ⟨nd, hnd⟩ : ∃ nd, nodes[m]? = some nd := ⟨_, List.getElem?_eq_getElem hm⟩
      have hk2 : (unseen nodes.length (m :: s)).card < fuel :=
        lt_of_lt_of_le (unseen_cons_lt hm hms) (Nat.lt_succ_iff.mp hk)
      obtain ⟨s2, h2, he2, hd2⟩ := walkUses_spec hwf (walk_spec hwf fuel) hnd hsel nd.Uses
        (m :: s) (fun _ h => h) hk2
      refine ⟨s2, by simp only [walk, if_neg hms, hnd, h2], ⟨?_, ?_⟩,
        he2.1 m (List.mem_cons_self _ _)⟩
      · exact fun x hx => he2.1 x (List.mem_cons_of_mem _ hx)
      · intro x hx hxs
        by_cases hxm : x = m
        · subst hxm
          refine ⟨hm, hsel, fun nd2 hnd2 u hu hinc => ?_⟩
          rw [hnd] at hnd2
          cases hnd2
          exact hd2 u hu hinc
        · exact he2.2 x hx (fun hc => by
            rcases List.mem_cons.mp hc with e | hc
            · exact hxm e
            · exact hxs hc)

theorem walkTargets_spec (hwf : GraphWellFormed env nodes) {fuel : Nat}
    (hfuel : nodes.length < fuel) :
    ∀ (ns : List Node) (s : List Nat), (∀ n ∈ ns, n ∈ nodes) →
      ∃ s2, walkTargets env nodes targets fuel ns s = .ok s2 ∧ Ext env nodes targets s s2 ∧
        ∀ n ∈ ns, n.Obj.Name ∈ targets → n.ID ∈ s2
  | [], s, _ => ⟨s, rfl, ext_refl s, fun n hn => (by cases hn)⟩
  | n :: ns, s, hns => by
    have hk : ∀ s1 : List Nat, (unseen nodes.length s1).card < fuel := by
      intro s1
      refine lt_of_le_of_lt ?_ hfuel
      have := Finset.card_filter_le (Finset.range nodes.length) (fun i => i ∉ s1)
      simpa [unseen] using this
    have hnm : n ∈ nodes := hns n (List.mem_cons_self _ _)
    by_cases ht : n.Obj.Name ∈ targets
    · have hc : targets.contains n.Obj.Name = true := by simpa using ht
      obtain ⟨s1, h1, he1, hm1⟩ := walk_spec hwf fuel n.ID s (ids_mem hwf.1 hnm).1
        (Selected.seed ⟨n, hnm, rfl, ht⟩) (hk s)
      obtain ⟨s2, h2, he2, hm2⟩ := walkTargets_spec hwf hfuel ns s1
        (fun m hm => hns m (List.mem_cons_of_mem _ hm))
      refine ⟨s2, by simp only [walkTargets, hc, if_true, h1, h2], ext_trans he1 he2, ?_⟩
      intro m hm hmt
      rcases List.mem_cons.mp hm with e | hm
      · rw [e]
        exact he2.1 _ hm1
      · exact hm2 m hm hmt
    · have hc : targets.contains n.Obj.Name = false := by simpa using ht
      obtain ⟨s2, h2, he2, hm2⟩ := walkTargets_spec hwf hfuel ns s
        (fun m hm => hns m (List.mem_cons_of_mem _ hm))
      refine ⟨s2, by simp only [walkTargets, hc, Bool.false_eq_true, if_false, h2], he2, ?_⟩
      intro m hm hmt
      rcases List.mem_cons.mp hm with e | hm
      · rw [e] at hmt
        exact absurd hmt ht
      · exact hm2 m hm hmt

/-- The selection returns, and `seen` is exactly the set `Selected`. -/
theorem yoinkSeen_spec (hwf : GraphWellFormed env nodes) {fuel : Nat}
    (hfuel : nodes.length < fuel) :
    ∃ seen, yoinkSeen env nodes targets fuel = .ok seen ∧
      ∀ i, i ∈ seen ↔ Selected env nodes targets i := by
  obtain ⟨seen, h, he, hseeds⟩ := @walkTargets_spec env nodes targets hwf fuel hfuel nodes []
    (fun _ h => h)
  refine ⟨seen, h, fun i => ⟨fun hi => (he.2 i hi (List.not_mem_nil i)).2.1, fun hi => ?_⟩⟩
  induction hi with
  | seed hs =>
    obtain ⟨n, hn, hid, ht⟩ := hs
    rw [← hid]
    exact hseeds n hn ht
  | use _ hnd hu hinc ih =>
    exact ((he.2 _ ih (List.not_mem_nil _)).2.2 _ hnd _ hu hinc).1
  | method _ hnd hu hinc hm ih =>
    exact ((he.2 _ ih (List.not_mem_nil _)).2.2 _ hnd _ hu hinc).2 _ hm

end Walk

theorem selected_closed (env : Env) (nodes : List Node) (targets : List String) :
    Closed env nodes targets (Selected env nodes targets) :=
  fun _ _ hn hnd _ hu hinc =>
    ⟨Selected.use hn hnd hu hinc, fun _ hv => Selected.method hn hnd hu hinc hv⟩

theorem selected_least {env : Env} {nodes : List Node} {targets : List String}
    {S : Nat → Prop} (hseed : ∀ i, Seed nodes targets i → S i)
    (hclosed : Closed env nodes targets S) {i : Nat} (hi : Selected env nodes targets i) :
    S i := by
  induction hi with
  | seed hs => exact hseed _ hs
  | use _ hnd hu hinc ih => exact (hclosed _ _ ih hnd _ hu hinc).1
  | method _ hnd hu hinc hm ih => exact (hclosed _ _ ih hnd _ hu hinc).2 _ hm

theorem selected_cases {env : Env} {nodes : List Node} {targets : List String} {i : Nat}
    (hi : Selected env nodes targets i) :
    Seed nodes targets i ∨ Included env nodes targets i ∨
      ∃ u, Selected env nodes targets u ∧ Included env nodes targets u ∧
        MethodOf env nodes u i := by
  cases hi with
  | seed hs => exact Or.inl hs
  | use _ _ _ hinc => exact Or.inr (Or.inl hinc)
  | method hn hnd hu hinc hm =>
    exact Or.inr (Or.inr ⟨_, Selected.use hn hnd hu hinc, hinc, hm⟩)

/-! ## The walk reads the targets only at the names of the graph -/

theorem contains_congr {T1 T2 : List String} {name : String}
    (h : name ∈ T1 ↔ name ∈ T2) : T1.contains name = T2.contains name := by
  rw [Bool.eq_iff_iff]
  simpa using h

theorem walkUse_congr {env : Env} {nodes : List Node} {T1 T2 : List String}
    (hA : ∀ u id, identOf env nodes u = some id → (id.Name ∈ T1 ↔ id.Name ∈ T2))
    (rec : Nat → List Nat → Except WalkPanic (List Nat)) (u : Nat) (s : List Nat) :
    walkUse env nodes T1 rec u s = walkUse env nodes T2 rec u s := by
  cases hid : identOf env nodes u with
  | some id =>
    rw [walkUse_of_ident s hid, walkUse_of_ident s hid, contains_congr (hA u id hid)]
  | none =>
    unfold identOf at hid
    unfold walkUse
    cases hnu : nodes[u]? with
    | none => rfl
    | some nu =>
      rw [hnu] at hid
      simp only at hid ⊢
      cases htab : env.table nu.Obj.Position with
      | none => rfl
      | some a =>
        rw [htab] at hid
        cases a with
        | Ident id2 => cases hid
        | Other => rfl

theorem walkUses_congr {env : Env} {nodes : List Node} {T1 T2 : List String}
    (hA : ∀ u id, identOf env nodes u = some id → (id.Name ∈ T1 ↔ id.Name ∈ T2))
    (rec : Nat → List Nat → Except WalkPanic (List Nat)) :
    ∀ (us : List Nat) (s : List Nat),
      walkUses env nodes T1 rec us s = walkUses env nodes T2 rec us s
  | [], _ => rfl
  | u :: us, s => by
    simp only [walkUses, walkUse_congr hA rec u s]
    cases walkUse env nodes T2 rec u s with
    | error e => rfl
    | ok s1 => exact walkUses_congr hA rec us s1

theorem walk_congr {env : Env} {nodes : List Node} {T1 T2 : List String}
    (hA : ∀ u id, identOf env nodes u = some id → (id.Name ∈ T1 ↔ id.Name ∈ T2)) :
    ∀ fuel : Nat, walk env nodes T1 fuel = walk env nodes T2 fuel
  | 0 => rfl
  | fuel + 1 => by
    funext n s
    simp only [walk, walk_congr hA fuel]
    split
    · rfl
    · cases nodes[n]? with
      | none => rfl
      | some nd => exact walkUses_congr hA _ nd.Uses (n :: s)

theorem walkTargets_congr {env : Env} {nodes : List Node} {T1 T2 : List String}
    (hA : ∀ u id, identOf env nodes u = some id → (id.Name ∈ T1 ↔ id.Name ∈ T2))
    (fuel : Nat) :
    ∀ (ns : List Node) (s : List Nat), (∀ n ∈ ns, (n.Obj.Name ∈ T1 ↔ n.Obj.Name ∈ T2)) →
      walkTargets env nodes T1 fuel ns s = walkTargets env nodes T2 fuel ns s
  | [], _, _ => rfl
  | n :: ns, s, hN => by
    have ih := fun s1 => walkTargets_congr hA fuel ns s1
      (fun m hm => hN m (List.mem_cons_of_mem _ hm))
    simp only [walkTargets, contains_congr (hN n (List.mem_cons_self _ _)), walk_congr hA fuel]
    split
    · cases walk env nodes T2 fuel n.ID s with
      | error e => rfl
      | ok s1 => exact ih s1
    · exact ih s

theorem walkTargets_no_seed {env : Env} {nodes : List Node} {T : List String} (fuel : Nat) :
    ∀ (ns : List Node) (s : List Nat), (∀ n ∈ ns, n.Obj.Name ∉ T) →
      walkTargets env nodes T fuel ns s = .ok s
  | [], _, _ => rfl
  | n :: ns, s, hN => by
    have hc : T.contains n.Obj.Name = false := by
      simpa using hN n (List.mem_cons_self _ _)
    simp only [walkTargets, hc, Bool.false_eq_true, if_false]
    exact walkTargets_no_seed fuel ns s (fun m hm => hN m (List.mem_cons_of_mem _ hm))

/-! ## Termination of the walk -/

section WalkTotal

variable {env : Env} {nodes : List Node} {targets : List String}

theorem adds_nil (s : List Nat) : Adds nodes s [] :=
  ⟨List.nodup_nil, fun _ h => (by cases h)⟩

theorem adds_append {s a1 a2 : List Nat} (h1 : Adds nodes s a1)
    (h2 : Adds nodes (a1 ++ s) a2) : Adds nodes s (a2 ++ a1) := by
  refine ⟨List.nodup_append.mpr ⟨h2.1, h1.1, ?_⟩, fun x hx => ?_⟩
  · intro x hx2 hx1
    exact (h2.2 x hx2).1 (List.mem_append_left _ hx1)
  · rcases List.mem_append.mp hx with hx | hx
    · exact ⟨fun hs => (h2.2 x hx).1 (List.mem_append_right _ hs), (h2.2 x hx).2⟩
    · exact h1.2 x hx

theorem unseen_append_le {k : Nat} (s added : List Nat) :
    (unseen k (added ++ s)).card ≤ (unseen k s).card :=
  unseen_mono (fun _ h => List.mem_append_right _ h)

theorem walkMethod_total {rec : Nat → List Nat → Except WalkPanic (List Nat)} {k : Nat}
    (hrec : RecTotal nodes rec k) (mpos : token.Position) :
    ∀ (vs : List Node) (s : List Nat), (∀ nv ∈ vs, nv.ID < nodes.length) →
      (unseen nodes.length s).card < k →
      ∃ added, walkMethod rec mpos vs s = .ok (added ++ s) ∧ Adds nodes s added
  | [], s, _, _ => ⟨[], rfl, adds_nil s⟩
  | v :: vs, s, hlt, hk => by
    by_cases hpos : mpos = v.Obj.Position
    · obtain ⟨a1, h1, ha1, _⟩ := hrec v.ID s (hlt v (List.mem_cons_self _ _)) hk
      obtain ⟨a2, h2, ha2⟩ := walkMethod_total hrec mpos vs (a1 ++ s)
        (fun nv hnv => hlt nv (List.mem_cons_of_mem _ hnv))
        (lt_of_le_of_lt (unseen_append_le s a1) hk)
      exact ⟨a2 ++ a1, by simp only [walkMethod, if_pos hpos, h1, h2, List.append_assoc],
        adds_append ha1 ha2⟩
    · obtain ⟨a2, h2, ha2⟩ := walkMethod_total hrec mpos vs s
        (fun nv hnv => hlt nv (List.mem_cons_of_mem _ hnv)) hk
      exact ⟨a2, by simp only [walkMethod, if_neg hpos, h2], ha2⟩

theorem walkMethods_total {rec : Nat → List Nat → Except WalkPanic (List Nat)} {k : Nat}
    (hrec : RecTotal nodes rec k) (hlt : ∀ nv ∈ nodes, nv.ID < nodes.length) :
    ∀ (ms : List token.Position) (s : List Nat), (unseen nodes.length s).card < k →
      ∃ added, walkMethods rec nodes ms s = .ok (added ++ s) ∧ Adds nodes s added
  | [], s, _ => ⟨[], rfl, adds_nil s⟩
  | m :: ms, s, hk => by
    obtain ⟨a1, h1, ha1⟩ := walkMethod_total hrec m nodes s hlt hk
    obtain ⟨a2, h2, ha2⟩ := walkMethods_total hrec hlt ms (a1 ++ s)
      (lt_of_le_of_lt (unseen_append_le s a1) hk)
    exact ⟨a2 ++ a1, by simp only [walkMethods, h1, h2, List.append_assoc],
      adds_append ha1 ha2⟩

theorem walkUse_total {rec : Nat → List Nat → Except WalkPanic (List Nat)} {k : Nat}
    (hrec : RecTotal nodes rec k) (hlt : ∀ nv ∈ nodes, nv.ID < nodes.length) {u : Nat}
    (hu : (identOf env nodes u).isSome = true) (s : List Nat)
    (hk : (unseen nodes.length s).card < k) :
    ∃ added, walkUse env nodes targets rec u s = .ok (added ++ s) ∧ Adds nodes s added := by
  obtain ⟨id, hid⟩ := Option.isSome_iff_exists.mp hu
  rw [walkUse_of_ident s hid]
  split
  · exact ⟨[], rfl, adds_nil s⟩
  · have hmeth : ∃ a1, (match env.ObjectOf id with
          | some (.Named ms) => walkMethods rec nodes ms s
          | _ => .ok s) = .ok (a1 ++ s) ∧ Adds nodes s a1 := by
      cases hobj : env.ObjectOf id with
      | none => exact ⟨[], rfl, adds_nil s⟩
      | some ty =>
        cases ty with
        | Other => exact ⟨[], rfl, adds_nil s⟩
        | Named ms => exact walkMethods_total hrec hlt ms s hk
    obtain ⟨a1, h1, ha1⟩ := hmeth
    obtain ⟨a2, h2, ha2, _⟩ := hrec u (a1 ++ s) (identOf_lt hid)
      (lt_of_le_of_lt (unseen_append_le s a1) hk)
    exact ⟨a2 ++ a1, by simp only [h1, h2, List.append_assoc], adds_append ha1 ha2⟩

theorem walkUses_total {rec : Nat → List Nat → Except WalkPanic (List Nat)} {k : Nat}
    (hrec : RecTotal nodes rec k) (hlt : ∀ nv ∈ nodes, nv.ID < nodes.length) :
    ∀ (us : List Nat) (s : List Nat), (∀ u ∈ us, (identOf env nodes u).isSome = true) →
      (unseen nodes.length s).card < k →
      ∃ added, walkUses env nodes targets rec us s = .ok (added ++ s) ∧ Adds nodes s added
  | [], s, _, _ => ⟨[], rfl, adds_nil s⟩
  | u :: us, s, hus, hk => by
    obtain ⟨a1, h1, ha1⟩ := @walkUse_total env nodes targets rec k hrec hlt u
      (hus u (List.mem_cons_self _ _)) s hk
    obtain ⟨a2, h2, ha2⟩ := walkUses_total hrec hlt us (a1 ++ s)
      (fun w hw => hus w (List.mem_cons_of_mem _ hw))
      (lt_of_le_of_lt (unseen_append_le s a1) hk)
    exact ⟨a2 ++ a1, by simp only [walkUses, h1, h2, List.append_assoc], adds_append ha1 ha2⟩

/-- On a well-formed graph `walk` returns from every valid start node and every `seen`
set, given a recursion budget above the number of valid ids outside `seen`. -/
theorem walk_total (hwf : GraphWellFormed env nodes) :
    ∀ fuel : Nat, RecTotal nodes (walk env nodes targets fuel) fuel
  | 0 => fun _ _ _ hk => absurd hk (Nat.not_lt_zero _)
  | fuel + 1 => by
    intro m s hm hk
    have hlt : ∀ nv ∈ nodes, nv.ID < nodes.length := fun nv hnv => (ids_mem hwf.1 hnv).1
    by_cases hms : m ∈ s
    · exact ⟨[], by simp only [walk, if_pos hms, List.nil_append], adds_nil s, hms⟩
    · obtain ⟨nd, hnd⟩ : ∃ nd, nodes[m]? = some nd := ⟨_, List.getElem?_eq_getElem hm⟩
      have hk2 : (unseen nodes.length (m :: s)).card < fuel :=
        lt_of_lt_of_le (unseen_cons_lt hm hms) (Nat.lt_succ_iff.mp hk)
      obtain ⟨a, h, ha⟩ := @walkUses_total env nodes targets _ _ (walk_total hwf fuel) hlt
        nd.Uses (m :: s) (hwf.2 nd (List.mem_iff_getElem?.mpr ⟨m, hnd⟩)) hk2
      refine ⟨a ++ [m], by simp only [walk, if_neg hms, hnd, h, List.append_assoc,
        List.singleton_append], ?_, by simp⟩
      have h1 : Adds nodes s [m] :=
        ⟨List.nodup_singleton m, fun x hx => by
          rw [List.mem_singleton] at hx
          rw [hx]
          exact ⟨hms, hm⟩⟩
      exact adds_append h1 (by simpa using ha)

/-! ## A larger recursion budget gives the same result -/

theorem walkMethod_le {rec1 rec2 : Nat → List Nat → Except WalkPanic (List Nat)}
    (hle : RecLe rec1 rec2) (mpos : token.Position) :
    ∀ (vs : List Node) (s r : List Nat), walkMethod rec1 mpos vs s = .ok r →
      walkMethod rec2 mpos vs s = .ok r
  | [], s, r, h => h
  | v :: vs, s, r, h => by
    simp only [walkMethod] at h ⊢
    split
    · rename_i hpos
      rw [if_pos hpos] at h
      cases h1 : rec1 v.ID s with
      | error e =>
        rw [h1] at h
        cases h
      | ok s1 =>
        rw [h1] at h
        rw [hle _ _ _ h1]
        exact walkMethod_le hle mpos vs s1 r h
    · rename_i hpos
      rw [if_neg hpos] at h
      exact walkMethod_le hle mpos vs s r h

theorem walkMethods_le {rec1 rec2 : Nat → List Nat → Except WalkPanic (List Nat)}
    (hle : RecLe rec1 rec2) (nodes : List Node) :
    ∀ (ms : List token.Position) (s r : List Nat), walkMethods rec1 nodes ms s = .ok r →
      walkMethods rec2 nodes ms s = .ok r
  | [], s, r, h => h
  | m :: ms, s, r, h => by
    simp only [walkMethods] at h ⊢
    cases h1 : walkMethod rec1 m nodes s with
    | error e =>
      rw [h1] at h
      cases h
    | ok s1 =>
      rw [h1] at h
      rw [walkMethod_le hle m nodes s s1 h1]
      exact walkMethods_le hle nodes ms s1 r h

theorem walkUse_le {rec1 rec2 : Nat → List Nat → Except WalkPanic (List Nat)}
    (hle : RecLe rec1 rec2) (u : Nat) (s r : List Nat)
    (h : walkUse env nodes targets rec1 u s = .ok r) :
    walkUse env nodes targets rec2 u s = .ok r := by
  cases hid : identOf env nodes u with
  | none =>
    have hsame : walkUse env nodes targets rec2 u s = walkUse env nodes targets rec1 u s := by
      unfold identOf at hid
      unfold walkUse
      cases hnu : nodes[u]? with
      | none => rfl
      | some nu =>
        rw [hnu] at hid
        simp only at hid ⊢
        cases htab : env.table nu.Obj.Position with
        | none => rfl
        | some a =>
          rw [htab] at hid
          cases a with
          | Ident id2 => cases hid
          | Other => rfl
    rw [hsame]
    exact h
  | some id =>
    rw [walkUse_of_ident s hid] at h ⊢
    split
    · rename_i hex
      rw [if_pos hex] at h
      exact h
    · rename_i hex
      rw [if_neg hex] at h
      cases hobj : env.ObjectOf id with
      | none =>
        rw [hobj] at h
        exact hle _ _ _ h
      | some ty =>
        rw [hobj] at h
        cases ty with
        | Other => exact hle _ _ _ h
        | Named ms =>
          simp only at h ⊢
          cases h1 : walkMethods rec1 nodes ms s with
          | error e =>
            rw [h1] at h
            cases h
          | ok s1 =>
            rw [h1] at h
            rw [walkMethods_le hle nodes ms s s1 h1]
            exact hle _ _ _ h

theorem walkUses_le {rec1 rec2 : Nat → List Nat → Except WalkPanic (List Nat)}
    (hle : RecLe rec1 rec2) :
    ∀ (us : List Nat) (s r : List Nat), walkUses env nodes targets rec1 us s = .ok r →
      walkUses env nodes targets rec2 us s = .ok r
  | [], s, r, h => h
  | u :: us, s, r, h => by
    simp only [walkUses] at h ⊢
    cases h1 : walkUse env nodes targets rec1 u s with
    | error e =>
      rw [h1] at h
      cases h
    | ok s1 =>
      rw [h1] at h
      rw [walkUse_le hle u s s1 h1]
      exact walkUses_le hle us s1 r h

theorem walk_fuel_succ :
    ∀ fuel : Nat, RecLe (walk env nodes targets fuel) (walk env nodes targets (fuel + 1))
  | 0 => fun _ _ _ h => by cases h
  | fuel + 1 => by
    intro m s r h
    rw [walk] at h ⊢
    split
    · rename_i hms
      rw [if_pos hms] at h
      exact h
    · rename_i hms
      rw [if_neg hms] at h
      cases hnd : nodes[m]? with
      | none =>
        rw [hnd] at h
        cases h
      | some nd =>
        rw [hnd] at h
        exact walkUses_le (walk_fuel_succ fuel) nd.Uses (m :: s) r h

theorem walk_fuel_le {fuel1 fuel2 : Nat} (h : fuel1 ≤ fuel2) :
    RecLe (walk env nodes targets fuel1) (walk env nodes targets fuel2) := by
  induction fuel2 with
  | zero =>
    have : fuel1 = 0 := Nat.le_zero.mp h
    subst this
    exact fun _ _ _ h => h
  | succ k ih =>
    rcases Nat.lt_or_ge fuel1 (k + 1) with hlt | hge
    · exact fun m s r hr => walk_fuel_succ k m s r (ih (Nat.lt_succ_iff.mp hlt) m s r hr)
    · have : fuel1 = k + 1 := Nat.le_antisymm h hge
      subst this
      exact fun _ _ _ h => h

end WalkTotal

/-! ## What a completed walk has marked, on any graph -/

section WalkSel

variable {env : Env} {nodes : List Node} {targets : List String}

theorem extSel_refl (s : List Nat) : ExtSel env nodes targets s s :=
  ⟨fun _ h => h, fun _ h hn => absurd h hn⟩

theorem extSel_trans {s1 s2 s3 : List Nat} (h12 : ExtSel env nodes targets s1 s2)
    (h23 : ExtSel env nodes targets s2 s3) : ExtSel env nodes targets s1 s3 := by
  refine ⟨fun x hx => h23.1 x (h12.1 x hx), fun x hx hn => ?_⟩
  by_cases h2 : x ∈ s2
  · obtain ⟨a, b⟩ := h12.2 x h2 hn
    exact ⟨a, expandedIn_mono h23.1 b⟩
  · exact h23.2 x hx h2

theorem walkUse_of_no_ident {rec : Nat → List Nat → Except WalkPanic (List Nat)} {u : Nat}
    (s : List Nat) (hid : identOf env nodes u = none) :
    ∃ e, walkUse env nodes targets rec u s = .error e := by
  unfold identOf at hid
  unfold walkUse
  cases hnu : nodes[u]? with
  | none => exact ⟨_, rfl⟩
  | some nu =>
    rw [hnu] at hid
    simp only at hid ⊢
    cases htab : env.table nu.Obj.Position with
    | none => exact ⟨_, rfl⟩
    | some a =>
      rw [htab] at hid
      cases a with
      | Ident id2 => cases hid
      | Other => exact ⟨_, rfl⟩

theorem walkMethod_sel {rec : Nat → List Nat → Except WalkPanic (List Nat)}
    (hrec : RecSel env nodes targets rec) (mpos : token.Position) :
    ∀ (vs : List Node) (s r : List Nat), walkMethod rec mpos vs s = .ok r →
      (∀ nv ∈ vs, nv.Obj.Position = mpos → Selected env nodes targets nv.ID) →
      ExtSel env nodes targets s r ∧ ∀ nv ∈ vs, nv.Obj.Position = mpos → nv.ID ∈ r
  | [], s, r, h, _ => by
    simp only [walkMethod, Except.ok.injEq] at h
    subst h
    exact ⟨extSel_refl s, fun nv hnv => (by cases hnv)⟩
  | v :: vs, s, r, h, hsel => by
    simp only [walkMethod] at h
    by_cases hpos : mpos = v.Obj.Position
    · rw [if_pos hpos] at h
      cases h1 : rec v.ID s with
      | error e =>
        rw [h1] at h
        cases h
      | ok s1 =>
        rw [h1] at h
        obtain ⟨he1, hm1⟩ := hrec _ _ _ h1 (hsel v (List.mem_cons_self _ _) hpos.symm)
        obtain ⟨he2, hm2⟩ := walkMethod_sel hrec mpos vs s1 r h
          (fun nv hnv => hsel nv (List.mem_cons_of_mem _ hnv))
        refine ⟨extSel_trans he1 he2, fun nv hnv hp => ?_⟩
        rcases List.mem_cons.mp hnv with e | hnv
        · rw [e]
          exact he2.1 _ hm1
        · exact hm2 nv hnv hp
    · rw [if_neg hpos] at h
      obtain ⟨he2, hm2⟩ := walkMethod_sel hrec mpos vs s r h
        (fun nv hnv => hsel nv (List.mem_cons_of_mem _ hnv))
      refine ⟨he2, fun nv hnv hp => ?_⟩
      rcases List.mem_cons.mp hnv with e | hnv
      · rw [e] at hp
        exact absurd hp.symm hpos
      · exact hm2 nv hnv hp

theorem walkMethods_sel {rec : Nat → List Nat → Except WalkPanic (List Nat)}
    (hrec : RecSel env nodes targets rec) :
    ∀ (ms : List token.Position) (s r : List Nat), walkMethods rec nodes ms s = .ok r →
      (∀ m ∈ ms, ∀ nv ∈ nodes, nv.Obj.Position = m → Selected env nodes targets nv.ID) →
      ExtSel env nodes targets s r ∧
        ∀ m ∈ ms, ∀ nv ∈ nodes, nv.Obj.Position = m → nv.ID ∈ r
  | [], s, r, h, _ => by
    simp only [walkMethods, Except.ok.injEq] at h
    subst h
    exact ⟨extSel_refl s, fun m hm => (by cases hm)⟩
  | m :: ms, s, r, h, hsel => by
    simp only [walkMethods] at h
    cases h1 : walkMethod rec m nodes s with
    | error e =>
      rw [h1] at h
      cases h
    | ok s1 =>
      rw [h1] at h
      obtain ⟨he1, hm1⟩ := walkMethod_sel hrec m nodes s s1 h1 (hsel m (List.mem_cons_self _ _))
      obtain ⟨he2, hm2⟩ := walkMethods_sel hrec ms s1 r h
        (fun m2 hm2 => hsel m2 (List.mem_cons_of_mem _ hm2))
      refine ⟨extSel_trans he1 he2, fun m2 hm nv hnv hp => ?_⟩
      rcases List.mem_cons.mp hm with e | hm
      · rw [e] at hp
        exact he2.1 _ (hm1 nv hnv hp)
      · exact hm2 m2 hm nv hnv hp

theorem included_iff {u : Nat} {id : ast.Ident} (hid : identOf env nodes u = some id) :
    Included env nodes targets u ↔
      ¬ (IsExported env id.Name && !(targets.contains id.Name)) = true := by
  constructor
  · rintro ⟨id2, hid2, hor⟩ hex
    rw [hid] at hid2
    cases hid2
    simp only [Bool.and_eq_true, Bool.not_eq_true', List.contains_eq_any_beq, List.any_eq_false,
      beq_iff_eq] at hex
    rcases hor with h1 | h1
    · rw [h1] at hex
      exact absurd hex.1 (by simp)
    · exact absurd rfl (hex.2 _ h1)
  · intro hex
    refine ⟨id, hid, ?_⟩
    by_cases h1 : IsExported env id.Name = true
    · right
      by_contra h2
      apply hex
      simp only [Bool.and_eq_true, Bool.not_eq_true', List.contains_eq_any_beq,
        List.any_eq_false, beq_iff_eq]
      exact ⟨h1, fun x hx e => h2 (e ▸ hx)⟩
    · left
      simpa using h1

theorem walkUse_sel {rec : Nat → List Nat → Except WalkPanic (List Nat)}
    (hrec : RecSel env nodes targets rec) {n : Nat} {nd : Node} (hn : nodes[n]? = some nd)
    (hsel : Selected env nodes targets n) {u : Nat} (hu : u ∈ nd.Uses) (s r : List Nat)
    (h : walkUse env nodes targets rec u s = .ok r) :
    ExtSel env nodes targets s r ∧
      (Included env nodes targets u → u ∈ r ∧ ∀ v, MethodOf env nodes u v → v ∈ r) := by
  cases hid : identOf env nodes u with
  | none =>
    obtain ⟨e, he⟩ := @walkUse_of_no_ident env nodes targets rec u s hid
    rw [he] at h
    cases h
  | some id =>
    rw [walkUse_of_ident s hid] at h
    by_cases hex : (IsExported env id.Name && !(targets.contains id.Name)) = true
    · rw [if_pos hex] at h
      simp only [Except.ok.injEq] at h
      subst h
      exact ⟨extSel_refl s, fun hinc => absurd hex ((included_iff hid).mp hinc)⟩
    · rw [if_neg hex] at h
      have hinc : Included env nodes targets u := (included_iff hid).mpr hex
      have hselu : Selected env nodes targets u := Selected.use hsel hn hu hinc
      have hmeth : ∀ s1, (match env.ObjectOf id with
            | some (.Named ms) => walkMethods rec nodes ms s
            | _ => .ok s) = .ok s1 →
          ExtSel env nodes targets s s1 ∧ ∀ v, MethodOf env nodes u v → v ∈ s1 := by
        intro s1 h1
        cases hobj : env.ObjectOf id with
        | none =>
          rw [hobj] at h1
          simp only [Except.ok.injEq] at h1
          subst h1
          refine ⟨extSel_refl s, fun v hv => ?_⟩
          obtain ⟨id2, ms, hid2, hobj2, _⟩ := hv
          rw [hid] at hid2
          cases hid2
          rw [hobj] at hobj2
          cases hobj2
        | some ty =>
          rw [hobj] at h1
          cases ty with
          | Other =>
            simp only [Except.ok.injEq] at h1
            subst h1
            refine ⟨extSel_refl s, fun v hv => ?_⟩
            obtain ⟨id2, ms, hid2, hobj2, _⟩ := hv
            rw [hid] at hid2
            cases hid2
            rw [hobj] at hobj2
            cases hobj2
          | Named ms =>
            obtain ⟨he1, hm1⟩ := walkMethods_sel hrec ms s s1 h1
              (fun m hm nv hnv hp =>
                Selected.method hsel hn hu hinc ⟨id, ms, hid, hobj, nv, hnv, hp ▸ hm, rfl⟩)
            refine ⟨he1, fun v hv => ?_⟩
            obtain ⟨id2, ms2, hid2, hobj2, nv, hnv, hp, hv⟩ := hv
            rw [hid] at hid2
            cases hid2
            rw [hobj] at hobj2
            cases hobj2
            rw [← hv]
            exact hm1 _ hp nv hnv rfl
      cases h1 : (match env.ObjectOf id with
            | some (.Named ms) => walkMethods rec nodes ms s
            | _ => .ok s) with
      | error e =>
        rw [h1] at h
        cases h
      | ok s1 =>
        rw [h1] at h
        obtain ⟨he1, hm1⟩ := hmeth s1 h1
        obtain ⟨he2, hu2⟩ := hrec _ _ _ h hselu
        exact ⟨extSel_trans he1 he2, fun _ => ⟨hu2, fun v hv => he2.1 v (hm1 v hv)⟩⟩

theorem walkUses_sel {rec : Nat → List Nat → Except WalkPanic (List Nat)}
    (hrec : RecSel env nodes targets rec) {n : Nat} {nd : Node} (hn : nodes[n]? = some nd)
    (hsel : Selected env nodes targets n) :
    ∀ (us : List Nat) (s r : List Nat), (∀ u ∈ us, u ∈ nd.Uses) →
      walkUses env nodes targets rec us s = .ok r →
      ExtSel env nodes targets s r ∧
        ∀ u ∈ us, Included env nodes targets u →
          u ∈ r ∧ ∀ v, MethodOf env nodes u v → v ∈ r
  | [], s, r, _, h => by
    simp only [walkUses, Except.ok.injEq] at h
    subst h
    exact ⟨extSel_refl s, fun u hu => (by cases hu)⟩
  | u :: us, s, r, hus, h => by
    simp only [walkUses] at h
    cases h1 : walkUse env nodes targets rec u s with
    | error e =>
      rw [h1] at h
      cases h
    | ok s1 =>
      rw [h1] at h
      obtain ⟨he1, hd1⟩ := walkUse_sel hrec hn hsel (hus u (List.mem_cons_self _ _)) s s1 h1
      obtain ⟨he2, hd2⟩ := walkUses_sel hrec hn hsel us s1 r
        (fun w hw => hus w (List.mem_cons_of_mem _ hw)) h
      refine ⟨extSel_trans he1 he2, fun w hw hinc => ?_⟩
      rcases List.mem_cons.mp hw with e | hw
      · subst e
        obtain ⟨a, b⟩ := hd1 hinc
        exact ⟨he2.1 _ a, fun v hv => he2.1 v (b v hv)⟩
      · exact hd2 w hw hinc

/-- Whatever the graph: a walk from a selected node that has returned has added only
selected nodes, each with all its successors in the result. -/
theorem walk_sel : ∀ fuel : Nat, RecSel env nodes targets (walk env nodes targets fuel)
  | 0 => fun _ _ _ h _ => by cases h
  | fuel + 1 => by
    intro m s r h hsel
    rw [walk] at h
    by_cases hms : m ∈ s
    · rw [if_pos hms] at h
      simp only [Except.ok.injEq] at h
      subst h
      exact ⟨extSel_refl s, hms⟩
    · rw [if_neg hms] at h
      cases hnd : nodes[m]? with
      | none =>
        rw [hnd] at h
        cases h
      | some nd =>
        rw [hnd] at h
        obtain ⟨he2, hd2⟩ := walkUses_sel (walk_sel fuel) hnd hsel nd.Uses (m :: s) r
          (fun _ h => h) h
        refine ⟨⟨fun x hx => he2.1 x (List.mem_cons_of_mem _ hx), fun x hx hxs => ?_⟩,
          he2.1 m (List.mem_cons_self _ _)⟩
        by_cases hxm : x = m
        · subst hxm
          refine ⟨hsel, fun nd2 hnd2 u hu hinc => ?_⟩
          rw [hnd] at hnd2
          cases hnd2
          exact hd2 u hu hinc
        · exact he2.2 x hx (fun hc => by
            rcases List.mem_cons.mp hc with e | hc
            · exact hxm e
            · exact hxs hc)

theorem walkTargets_sel (fuel : Nat) :
    ∀ (ns : List Node) (s r : List Nat), (∀ n ∈ ns, n ∈ nodes) →
      walkTargets env nodes targets fuel ns s = .ok r →
      ExtSel env nodes targets s r ∧ ∀ n ∈ ns, n.Obj.Name ∈ targets → n.ID ∈ r
  | [], s, r, _, h => by
    simp only [walkTargets, Except.ok.injEq] at h
    subst h
    exact ⟨extSel_refl s, fun n hn => (by cases hn)⟩
  | n :: ns, s, r, hns, h => by
    simp only [walkTargets] at h
    have hnm : n ∈ nodes := hns n (List.mem_cons_self _ _)
    by_cases ht : n.Obj.Name ∈ targets
    · have hc : targets.contains n.Obj.Name = true := by simpa using ht
      rw [if_pos hc] at h
      cases h1 : walk env nodes targets fuel n.ID s with
      | error e =>
        rw [h1] at h
        cases h
      | ok s1 =>
        rw [h1] at h
        obtain ⟨he1, hm1⟩ := walk_sel fuel _ _ _ h1 (Selected.seed ⟨n, hnm, rfl, ht⟩)
        obtain ⟨he2, hm2⟩ := walkTargets_sel fuel ns s1 r
          (fun m hm => hns m (List.mem_cons_of_mem _ hm)) h
        refine ⟨extSel_trans he1 he2, fun m hm hmt => ?_⟩
        rcases List.mem_cons.mp hm with e | hm
        · rw [e]
          exact he2.1 _ hm1
        · exact hm2 m hm hmt
    · have hc : ¬ targets.contains n.Obj.Name = true := by simpa using ht
      rw [if_neg hc] at h
      obtain ⟨he2, hm2⟩ := walkTargets_sel fuel ns s r
        (fun m hm => hns m (List.mem_cons_of_mem _ hm)) h
      refine ⟨he2, fun m hm hmt => ?_⟩
      rcases List.mem_cons.mp hm with e | hm
      · rw [e] at hmt
        exact absurd hmt ht
      · exact hm2 m hm hmt

/-- Whatever the graph and the recursion budget: when the selection returns, `seen` is
exactly the set `Selected`. -/
theorem yoinkSeen_sel {fuel : Nat} {seen : List Nat}
    (h : yoinkSeen env nodes targets fuel = .ok seen) :
    ∀ i, i ∈ seen ↔ Selected env nodes targets i := by
  obtain ⟨he, hseeds⟩ := walkTargets_sel fuel nodes [] seen (fun _ h => h) h
  refine fun i => ⟨fun hi => (he.2 i hi (List.not_mem_nil i)).1, fun hi => ?_⟩
  induction hi with
  | seed hs =>
    obtain ⟨n, hn, hid, ht⟩ := hs
    rw [← hid]
    exact hseeds n hn ht
  | use _ hnd hu hinc ih =>
    exact ((he.2 _ ih (List.not_mem_nil _)).2 _ hnd _ hu hinc).1
  | method _ hnd hu hinc hm ih =>
    exact ((he.2 _ ih (List.not_mem_nil _)).2 _ hnd _ hu hinc).2 _ hm

theorem selected_mono {T1 T2 : List String} (hT : ∀ t ∈ T1, t ∈ T2) {i : Nat}
    (h : Selected env nodes T1 i) : Selected env nodes T2 i := by
  have hinc : ∀ u, Included env nodes T1 u → Included env nodes T2 u := by
    rintro u ⟨id, hid, hor⟩
    exact ⟨id, hid, hor.imp_right (hT _)⟩
  induction h with
  | seed hs =>
    obtain ⟨n, hn, hid, ht⟩ := hs
    exact Selected.seed ⟨n, hn, hid, hT _ ht⟩
  | use _ hnd hu hi ih => exact Selected.use ih hnd hu (hinc _ hi)
  | method _ hnd hu hi hm ih => exact Selected.method ih hnd hu (hinc _ hi) hm

end WalkSel

/-! ## The slice lookups of `walk` on a canonical graph -/

section WalkInRange

variable {env : Env} {nodes : List Node} {targets : List String}

theorem dense_id_lt (hd : Dense nodes) {v : Node} (hv : v ∈ nodes) : v.ID < nodes.length := by
  obtain ⟨i, hi, e⟩ := List.mem_iff_getElem.mp hv
  have h1 : nodes[i]? = some v := by rw [List.getElem?_eq_getElem hi, e]
  rw [hd i v h1]
  exact hi

theorem walkMethod_inRange {rec : Nat → List Nat → Except WalkPanic (List Nat)}
    (hrec : RecInRange nodes rec) (mpos : token.Position) :
    ∀ (vs : List Node) (s : List Nat), (∀ v ∈ vs, v.ID < nodes.length) →
      walkMethod rec mpos vs s ≠ .error .indexOutOfRange
  | [], s, _ => by simp [walkMethod]
  | v :: vs, s, hvs => by
    have hrest : ∀ w ∈ vs, w.ID < nodes.length := fun w hw => hvs w (List.mem_cons_of_mem _ hw)
    simp only [walkMethod]
    by_cases hp : mpos = v.Obj.Position
    · rw [if_pos hp]
      cases h1 : rec v.ID s with
      | error e =>
        intro h
        simp only [Except.error.injEq] at h
        rw [h] at h1
        exact hrec v.ID s (hvs v (List.mem_cons_self _ _)) h1
      | ok s1 => exact walkMethod_inRange hrec mpos vs s1 hrest
    · rw [if_neg hp]
      exact walkMethod_inRange hrec mpos vs s hrest

theorem walkMethods_inRange {rec : Nat → List Nat → Except WalkPanic (List Nat)}
    (hrec : RecInRange nodes rec) (hd : Dense nodes) :
    ∀ (ms : List token.Position) (s : List Nat),
      walkMethods rec nodes ms s ≠ .error .indexOutOfRange
  | [], s => by simp [walkMethods]
  | m :: ms, s => by
    simp only [walkMethods]
    cases h1 : walkMethod rec m nodes s with
    | error e =>
      intro h
      simp only [Except.error.injEq] at h
      rw [h] at h1
      exact walkMethod_inRange hrec m nodes s (fun v hv => dense_id_lt hd hv) h1
    | ok s1 => exact walkMethods_inRange hrec hd ms s1

theorem walkUse_inRange {rec : Nat → List Nat → Except WalkPanic (List Nat)}
    (hrec : RecInRange nodes rec) (hd : Dense nodes) {u : Nat} (hu : u < nodes.length)
    (s : List Nat) : walkUse env nodes targets rec u s ≠ .error .indexOutOfRange := by
  unfold walkUse
  rw [List.getElem?_eq_getElem hu]
  simp only
  cases ht : env.table nodes[u].Obj.Position with
  | none => simp
  | some an =>
    cases an with
    | Other => simp
    | Ident id =>
      simp only
      by_cases hex : (IsExported env id.Name && !(targets.contains id.Name)) = true
      · rw [if_pos hex]
        simp
      · rw [if_neg hex]
        cases h1 : (match env.ObjectOf id with
            | some (.Named ms) => walkMethods rec nodes ms s
            | _ => .ok s) with
        | error e =>
          intro h
          simp only [Except.error.injEq] at h
          rw [h] at h1
          cases hobj : env.ObjectOf id with
          | none =>
            rw [hobj] at h1
            cases h1
          | some ty =>
            rw [hobj] at h1
            cases ty with
            | Other => cases h1
            | Named ms => exact walkMethods_inRange hrec hd ms s h1
        | ok s1 => exact hrec u s1 hu

theorem walkUses_inRange {rec : Nat → List Nat → Except WalkPanic (List Nat)}
    (hrec : RecInRange nodes rec) (hd : Dense nodes) :
    ∀ (us : List Nat) (s : List Nat), (∀ u ∈ us, u < nodes.length) →
      walkUses env nodes targets rec us s ≠ .error .indexOutOfRange
  | [], s, _ => by simp [walkUses]
  | u :: us, s, hus => by
    simp only [walkUses]
    cases h1 : walkUse env nodes targets rec u s with
    | error e =>
      intro h
      simp only [Except.error.injEq] at h
      rw [h] at h1
      exact walkUse_inRange hrec hd (hus u (List.mem_cons_self _ _)) s h1
    | ok s1 =>
      exact walkUses_inRange hrec hd us s1 (fun w hw => hus w (List.mem_cons_of_mem _ hw))

/-- On a graph with dense ids and edge entries in range no lookup `nodes[n]`, `nodes[u]`
of `walk` is out of range. -/
theorem walk_inRange (hd : Dense nodes) (he : EdgesInRange nodes) :
    ∀ fuel : Nat, RecInRange nodes (walk env nodes targets fuel)
  | 0 => fun _ _ _ h => by cases h
  | fuel + 1 => by
    intro m s hm
    rw [walk]
    by_cases hms : m ∈ s
    · rw [if_pos hms]
      simp
    · rw [if_neg hms]
      have hnd : nodes[m]? = some nodes[m] := List.getElem?_eq_getElem hm
      rw [hnd]
      exact walkUses_inRange (walk_inRange hd he fuel) hd _ _ (he m _ hnd).1

theorem walkTargets_inRange (hd : Dense nodes) (he : EdgesInRange nodes) (fuel : Nat) :
    ∀ (ns : List Node) (s : List Nat), (∀ n ∈ ns, n ∈ nodes) →
      walkTargets env nodes targets fuel ns s ≠ .error .indexOutOfRange
  | [], s, _ => by simp [walkTargets]
  | n :: ns, s, hns => by
    have hrest : ∀ m ∈ ns, m ∈ nodes := fun m hm => hns m (List.mem_cons_of_mem _ hm)
    simp only [walkTargets]
    by_cases hc : targets.contains n.Obj.Name = true
    · rw [if_pos hc]
      cases h1 : walk env nodes targets fuel n.ID s with
      | error e =>
        intro h
        simp only [Except.error.injEq] at h
        rw [h] at h1
        exact walk_inRange hd he fuel n.ID s (dense_id_lt hd (hns n (List.mem_cons_self _ _))) h1
      | ok s1 => exact walkTargets_inRange hd he fuel ns s1 hrest
    · rw [if_neg hc]
      exact walkTargets_inRange hd he fuel ns s hrest

end WalkInRange

theorem mergeAll_inRange : ∀ (batches : List (List Node)) (g : SerializedGraph),
    Inv g → (∀ b ∈ batches, BatchInRange b) → mergeAll g batches ≠ .error .indexOutOfRange
  | [], g, _, _ => by simp [mergeAll]
  | b :: bs, g, hI, hb => by
    simp only [mergeAll]
    by_cases hbad : ∃ n ∈ b, n.Bad
    · obtain ⟨n, _, _, he⟩ := mergeRemap_error (g := g) (hb b (List.mem_cons_self _ _)) hbad
      simp [Merge, he]
    · obtain ⟨g2, rm, h2⟩ := mergeRemap_total hI (hb b (List.mem_cons_self _ _))
        (fun n hn hnb => hbad ⟨n, hn, hnb⟩)
      have hm : Merge g b = .ok g2 := by simp only [Merge, h2]
      rw [hm]
      exact mergeAll_inRange bs g2 (mergeRemap_inv hI h2)
        (fun c hc => hb c (List.mem_cons_of_mem _ hc))

/-! ## Merging a batch a second time -/

/-- After its own iteration of the first pass an identified node is found by the
identity lookup, with the id the iteration wrote into the table. -/
theorem resolve_registers {g g1 : SerializedGraph} {rm rm1 : List Nat} {n : Node}
    (h : resolve g rm n = .ok (g1, rm1)) (hid : n.Obj.Identified) :
    lookupIdentity g1 n = some ((lookupIdentity g n).getD g.nodes.length) := by
  obtain ⟨_, _, hc⟩ := resolve_eq_ok h
  rcases hc with ⟨v, hv, hg, _⟩ | ⟨hmiss, ha⟩
  · rw [hg, hv]
    rfl
  · obtain ⟨_, _, hp, hq, _⟩ := allocate_eq_ok ha
    obtain ⟨hpn, hqn⟩ := lookupIdentity_eq_none hmiss
    rw [hmiss]
    unfold lookupIdentity
    rw [hp, hq]
    by_cases h1 : n.Obj.Path ≠ ObjectPath.zero
    · simp [mapSet, h1]
    · have hcol : n.Obj.Position.Column ≠ 0 := by
        rcases hid with h2 | h2
        · exact absurd h2 h1
        · exact h2
      simp [mapSet, h1, hcol, hpn]

/-- An identity found in the tables is found in all later tables, except that a path
recorded in between takes precedence over the position. -/
theorem lookupIdentity_tablesLe {g g1 : SerializedGraph} {n : Node} {v : Nat}
    (hle : TablesLe g g1) (h : lookupIdentity g n = some v) :
    lookupIdentity g1 n = some v ∨
      (n.Obj.Position.Column ≠ 0 ∧ g1.nodesByPosition n.Obj.Position = some v ∧
        ∃ w, g1.nodesByPath n.Obj.Path = some w ∧ lookupIdentity g1 n = some w) := by
  cases hp : g.nodesByPath n.Obj.Path with
  | some a =>
    have h2 := lookupIdentity_of_path hp
    rw [h] at h2
    cases h2
    exact Or.inl (lookupIdentity_of_path (hle.1 _ _ hp))
  | none =>
    unfold lookupIdentity at h
    rw [hp] at h
    simp only at h
    by_cases hcol : n.Obj.Position.Column ≠ 0
    · rw [if_pos hcol] at h
      have hq := hle.2 _ _ h
      cases hp1 : g1.nodesByPath n.Obj.Path with
      | some w => exact Or.inr ⟨hcol, hq, w, rfl, lookupIdentity_of_path hp1⟩
      | none =>
        left
        unfold lookupIdentity
        rw [hp1]
        simp only
        rw [if_pos hcol]
        exact hq
    · rw [if_neg hcol] at h
      cases h

/-- With pairwise distinct local ids: the table entry of an identified batch node after
the first pass is an id under which the node is found right after its own iteration. -/
theorem pass1_registered : ∀ (batch : List Node) {g g1 : SerializedGraph} {rm rm1 : List Nat},
    (batch.map Node.ID).Nodup → pass1 g rm batch = .ok (g1, rm1) →
    ∀ n ∈ batch, n.Obj.Identified →
      ∃ g0 v, TablesLe g0 g1 ∧ rm1[n.ID]? = some v ∧ lookupIdentity g0 n = some v
  | [], _, _, _, _, _, _, n, hn, _ => by cases hn
  | m :: rest, g, g1, rm, rm1, hnd, h, n, hn, hid => by
    simp only [pass1] at h
    split at h
    · cases h
    · rename_i g2 rm2 hres
      rw [List.map_cons, List.nodup_cons] at hnd
      rcases List.mem_cons.mp hn with e | hn
      · rw [e] at hid ⊢
        refine ⟨g2, _, pass1_tablesLe rest h, ?_, resolve_registers hres hid⟩
        rw [pass1_remap_frame rest h m.ID (fun k hk e => hnd.1 (e ▸ List.mem_map_of_mem _ hk)),
          resolve_remap hres]
        exact List.getElem?_set_self (resolve_eq_ok hres).2.1
      · exact pass1_registered rest hnd.2 h n hn hid

/-- A first pass all of whose nodes are found in the tables leaves the graph as it is and
writes the recorded ids. -/
theorem pass1_hits : ∀ (batch : List Node) (g : SerializedGraph) (rm : List Nat),
    (∀ n ∈ batch, ¬ n.Bad ∧ n.ID < rm.length ∧ (lookupIdentity g n).isSome = true) →
    (batch.map Node.ID).Nodup →
    ∃ rm1, pass1 g rm batch = .ok (g, rm1) ∧ ∀ n ∈ batch, rm1[n.ID]? = lookupIdentity g n
  | [], g, rm, _, _ => ⟨rm, rfl, fun n hn => (by cases hn)⟩
  | m :: rest, g, rm, h, hnd => by
    obtain ⟨hbad, hlt, hsome⟩ := h m (List.mem_cons_self _ _)
    obtain ⟨v, hv⟩ := Option.isSome_iff_exists.mp hsome
    have hres : resolve g rm m = .ok (g, rm.set m.ID v) := resolve_of_hit hbad hlt hv
    rw [List.map_cons, List.nodup_cons] at hnd
    obtain ⟨rm1, h1, hr⟩ := pass1_hits rest g (rm.set m.ID v) (fun k hk => by
        obtain ⟨a, b, c⟩ := h k (List.mem_cons_of_mem _ hk)
        exact ⟨a, by rw [List.length_set]; exact b, c⟩) hnd.2
    refine ⟨rm1, by simp only [pass1, hres, h1], fun n hn => ?_⟩
    rcases List.mem_cons.mp hn with e | hn
    · rw [e, pass1_remap_frame rest h1 m.ID
        (fun k hk e => hnd.1 (e ▸ List.mem_map_of_mem _ hk)), hv]
      exact List.getElem?_set_self hlt
    · exact hr n hn

theorem identified_of_not_bad {n : Node} (hb : ¬ n.Bad) (h0 : n.ID ≠ 0) :
    n.Obj.Identified := by
  unfold Node.Bad at hb
  unfold Object.Identified
  by_contra hc
  push_neg at hc
  exact hb ⟨h0, hc.1, hc.2⟩

theorem lookupIdentity_unidentified {g : SerializedGraph} (hI : Inv g) {n : Node}
    (h : ¬ n.Obj.Identified) : lookupIdentity g n = none := by
  unfold Object.Identified at h
  push_neg at h
  unfold lookupIdentity
  rw [h.1, hI.pathKey]
  simp [h.2]

/-- The first pass over a well-formed batch all of whose identified nodes are found in
the tables: the tables stay as they are, every identified node gets the id found for it,
and the only node allocated is the copy of an identity-less batch root. -/
theorem pass1_again {g : SerializedGraph} {r : Node} {rest : List Node} (hI : Inv g)
    (hwf : WellFormedBatch (r :: rest)) (hr0 : r.ID = 0) (hrest : ∀ n ∈ rest, n.ID ≠ 0)
    (hfound : ∀ n ∈ r :: rest, n.Obj.Identified → (lookupIdentity g n).isSome = true)
    (rm : List Nat) (hrm : rm.length = (r :: rest).length) :
    ∃ gb rm2, pass1 g rm (r :: rest) = .ok (gb, rm2) ∧
      gb.nodesByPath = g.nodesByPath ∧ gb.nodesByPosition = g.nodesByPosition ∧
      (∀ n ∈ r :: rest, n.Obj.Identified → rm2[n.ID]? = lookupIdentity g n) ∧
      (r.Obj.Identified → gb.nodes.length = g.nodes.length) ∧
      (¬ r.Obj.Identified →
        gb.nodes.length = g.nodes.length + 1 ∧ rm2[0]? = some g.nodes.length) := by
  have hnd := (wellFormed_ids hwf).1
  have hin := wellFormed_inRange hwf
  have hbad := hwf.2.2.1
  have hidr : ∀ n ∈ rest, n.Obj.Identified := fun n hn =>
    identified_of_not_bad (hbad n (List.mem_cons_of_mem _ hn)) (hrest n hn)
  by_cases hrid : r.Obj.Identified
  · obtain ⟨rm2, h1, hr⟩ := pass1_hits (r :: rest) g rm (fun n hn =>
      ⟨hbad n hn, by rw [hrm]; exact (hin n hn).1, hfound n hn (by
        rcases List.mem_cons.mp hn with e | hn2
        · rw [e]
          exact hrid
        · exact hidr n hn2)⟩) hnd
    exact ⟨g, rm2, h1, rfl, rfl, fun n hn _ => hr n hn, fun _ => rfl,
      fun h => absurd hrid h⟩
  · have hmiss := lookupIdentity_unidentified hI hrid
    have hlt : r.ID < rm.length := by
      rw [hrm]
      exact (hin r (List.mem_cons_self _ _)).1
    obtain ⟨gb, hal⟩ := allocate_ok g hlt
    obtain ⟨_, _, hp, hq, _⟩ := allocate_eq_ok hal
    have hrid2 := hrid
    unfold Object.Identified at hrid2
    push_neg at hrid2
    have hp2 : gb.nodesByPath = g.nodesByPath := by
      rw [hp, if_neg (not_not.mpr hrid2.1)]
    have hq2 : gb.nodesByPosition = g.nodesByPosition := by
      rw [hq, if_neg (not_not.mpr hrid2.2)]
    rw [List.map_cons, List.nodup_cons] at hnd
    obtain ⟨rm2, h1, hr⟩ := pass1_hits rest gb (rm.set r.ID g.nodes.length) (fun n hn =>
      ⟨hbad n (List.mem_cons_of_mem _ hn),
        by rw [List.length_set, hrm]; exact (hin n (List.mem_cons_of_mem _ hn)).1,
        by rw [lookupIdentity_congr n hp2 hq2]
           exact hfound n (List.mem_cons_of_mem _ hn) (hidr n hn)⟩) hnd.2
    refine ⟨gb, rm2, ?_, hp2, hq2, fun n hn hid => ?_, fun h => absurd h hrid,
      fun _ => ⟨(allocate_nodes hal).1, ?_⟩⟩
    · simp only [pass1, resolve_of_miss (hbad r (List.mem_cons_self _ _)) hmiss, hal, h1]
    · rcases List.mem_cons.mp hn with e | hn2
      · rw [e] at hid
        exact absurd hid hrid
      · rw [hr n hn2, lookupIdentity_congr n hp2 hq2]
    · rw [pass1_remap_frame rest h1 0 hrest]
      rw [hr0] at hlt ⊢
      exact List.getElem?_set_self hlt

/-- Merging a well-formed batch a second time, right after its first merge. -/
theorem mergeRemap_again {g g1 : SerializedGraph} {batch : List Node} {rm1 : List Nat}
    (hI : Inv g) (hwf : WellFormedBatch batch) (h1 : mergeRemap g batch = .ok (g1, rm1)) :
    ∃ g2 rm2, mergeRemap g1 batch = .ok (g2, rm2) ∧
      (∀ n ∈ batch, n.Obj.Identified → ∃ w, rm2[n.ID]? = some w ∧
        lookupIdentity g1 n = some w ∧
        (rm1[n.ID]? = some w ∨
          (n.Obj.Path ≠ ObjectPath.zero ∧ n.Obj.Position.Column ≠ 0 ∧
            g1.nodesByPath n.Obj.Path = some w ∧
            rm1[n.ID]? = g1.nodesByPosition n.Obj.Position))) ∧
      (∀ r, batch[0]? = some r → r.Obj.Identified → g2.nodes.length = g1.nodes.length) ∧
      (∀ r, batch[0]? = some r → ¬ r.Obj.Identified →
        g2.nodes.length = g1.nodes.length + 1 ∧ rm2[0]? = some g1.nodes.length) := by
  have hI1 := mergeRemap_inv hI h1
  have hne1 := (mergeRemap_grows h1).2
  obtain ⟨ga, hp1, ns2, hp2, e⟩ := mergeRemap_eq_ok h1
  have hnodup := (wellFormed_ids hwf).1
  have hreg : ∀ n ∈ batch, n.Obj.Identified → ∃ w, lookupIdentity g1 n = some w ∧
      (rm1[n.ID]? = some w ∨
        (n.Obj.Path ≠ ObjectPath.zero ∧ n.Obj.Position.Column ≠ 0 ∧
          g1.nodesByPath n.Obj.Path = some w ∧
          rm1[n.ID]? = g1.nodesByPosition n.Obj.Position)) := by
    intro n hn hid
    obtain ⟨g0, v, hle, hrm, hv⟩ := pass1_registered batch hnodup hp1 n hn hid
    have hle1 : TablesLe g0 g1 := by
      rw [e]
      exact hle
    rcases lookupIdentity_tablesLe hle1 hv with h2 | ⟨hcol, hq, w, hpw, hlw⟩
    · exact ⟨v, h2, Or.inl hrm⟩
    · refine ⟨w, hlw, Or.inr ⟨fun hz => ?_, hcol, hpw, by rw [hrm, hq]⟩⟩
      rw [hz, hI1.pathKey] at hpw
      cases hpw
  obtain ⟨r, rest, hb, hr0, hrest⟩ := wellFormed_cons hwf
  subst hb
  obtain ⟨gb, rm2, hq1, _, _, hent, hlen0, hlen1⟩ := pass1_again hI1 hwf hr0 hrest
    (fun n hn hid => by
      obtain ⟨w, hw, _⟩ := hreg n hn hid
      rw [hw]
      rfl)
    (List.replicate (r :: rest).length 0) (by simp)
  have hP : Pass1Inv gb rm2 := pass1_pass1Inv _ (seedRoot_pass1Inv hI1 _)
    (by rw [seedRoot_of_ne_nil hne1]; exact hq1)
  obtain ⟨ns3, hq2⟩ := @pass2_ok (r :: rest) gb.nodes rm2
    (fun n hn => by
      have hl : rm2.length = (r :: rest).length := by
        rw [pass1_len _ hq1, List.length_replicate]
      rw [hl]
      exact wellFormed_inRange hwf n hn)
    hP.remap
  have hm2 : mergeRemap g1 (r :: rest) = .ok ({ gb with nodes := ns3 }, rm2) :=
    mergeRemap_of_passes (by rw [seedRoot_of_ne_nil hne1]; exact hq1) hq2
  have hlen3 := (pass2_spec _ hq2).1
  refine ⟨_, rm2, hm2, fun n hn hid => ?_, fun r2 hr2 hid2 => ?_, fun r2 hr2 hid2 => ?_⟩
  · obtain ⟨w, hw, hor⟩ := hreg n hn hid
    exact ⟨w, by rw [hent n hn hid, hw], hw, hor⟩
  · simp only [List.getElem?_cons_zero, Option.some.injEq] at hr2
    rw [← hr2] at hid2
    simp only [hlen3]
    exact hlen0 hid2
  · simp only [List.getElem?_cons_zero, Option.some.injEq] at hr2
    rw [← hr2] at hid2
    simp only [hlen3]
    exact hlen1 hid2

theorem mergeRemap_tablesLe {g g2 : SerializedGraph} {batch : List Node} {rm : List Nat}
    (h : mergeRemap g batch = .ok (g2, rm)) : TablesLe g g2 := by
  obtain ⟨ga, hp1, ns2, _, e⟩ := mergeRemap_eq_ok h
  have h1 := pass1_tablesLe batch hp1
  rw [e]
  refine ⟨fun k v hk => h1.1 k v ?_, fun k v hk => h1.2 k v ?_⟩
  · rw [(seedRoot_tables g).1]
    exact hk
  · rw [(seedRoot_tables g).2]
    exact hk

theorem mergeAll_tablesLe : ∀ (batches : List (List Node)) {g g2 : SerializedGraph},
    mergeAll g batches = .ok g2 → TablesLe g g2
  | [], g, g2, h => by
    simp only [mergeAll, Except.ok.injEq] at h
    rw [h]
    exact tablesLe_refl g2
  | b :: bs, g, g2, h => by
    simp only [mergeAll] at h
    split at h
    · cases h
    · rename_i g1 hm
      obtain ⟨rm, hm2⟩ := Merge_eq_ok.mp hm
      exact tablesLe_trans (mergeRemap_tablesLe hm2) (mergeAll_tablesLe bs h)

/-! ## The interface satisfaction matcher -/

theorem sameId_eq_true {tenv : TypesEnv} {Obj : types.Object} {pkg : Option types.Package}
    {name : String} :
    sameId tenv Obj pkg name = true ↔
      name = Obj.Name ∧ (Obj.Exported tenv = true ∨
        (pkg = none ∧ Obj.Pkg = none) ∨
        ∃ p q, pkg = some p ∧ Obj.Pkg = some q ∧ p.Path = q.Path) := by
  unfold sameId
  by_cases hn : name = Obj.Name
  · rw [if_neg (not_not.mpr hn)]
    by_cases he : Obj.Exported tenv = true
    · rw [if_pos he]
      simp [hn, he]
    · rw [if_neg he]
      cases pkg with
      | none =>
        cases hq : Obj.Pkg with
        | none => simp [hn]
        | some q => simp [hn, he]
      | some p =>
        cases hq : Obj.Pkg with
        | none => simp [hn, he]
        | some q => simp [hn, he]
  · rw [if_pos hn]
    simp [hn]

theorem lookupMethodFrom_snd (tenv : TypesEnv) (pkg : Option types.Package) (name : String) :
    ∀ (i : Nat) (ms : List types.Func),
      (lookupMethodFrom tenv pkg name i ms).map Prod.snd =
        ms.find? (fun v => sameId tenv v.toObject pkg name)
  | _, [] => rfl
  | i, m :: ms => by
    simp only [lookupMethodFrom, List.find?_cons]
    cases h : sameId tenv m.toObject pkg name
    · simpa using lookupMethodFrom_snd tenv pkg name (i + 1) ms
    · simp

theorem lookupMethod_snd (tenv : TypesEnv) (T : types.Interface) (pkg : Option types.Package)
    (name : String) :
    (lookupMethod tenv T pkg name).map Prod.snd =
      if name ≠ "_" then T.methods.find? (fun v => sameId tenv v.toObject pkg name)
      else none := by
  unfold lookupMethod
  by_cases h : name ≠ "_"
  · rw [if_pos h, if_pos h]
    exact lookupMethodFrom_snd tenv pkg name 0 T.methods
  · rw [if_neg h, if_neg h]
    rfl

theorem implementsInterface_iff (tenv : TypesEnv) (ityp : types.Interface) :
    ∀ ms : List types.Func, implementsInterface tenv ityp ms = true ↔
      ∀ m ∈ ms, m.Name ≠ "_" ∧
        ∃ v, ityp.methods.find? (fun v => sameId tenv v.toObject m.Pkg m.Name) = some v ∧
          tenv.Identical v.Typ m.Typ = true
  | [] => by simp [implementsInterface]
  | m :: ms => by
    have hs := lookupMethod_snd tenv ityp m.Pkg m.Name
    have ih := implementsInterface_iff tenv ityp ms
    simp only [implementsInterface, List.forall_mem_cons]
    cases hl : lookupMethod tenv ityp m.Pkg m.Name with
    | none =>
      rw [hl] at hs
      simp only [Option.map_none'] at hs
      refine ⟨fun h => (by cases h), fun h => ?_⟩
      obtain ⟨⟨hne, v, hv, _⟩, _⟩ := h
      rw [if_pos hne, hv] at hs
      cases hs
    | some r =>
      obtain ⟨i, Obj⟩ := r
      rw [hl] at hs
      simp only [Option.map_some'] at hs
      have hne : m.Name ≠ "_" := by
        intro hc
        rw [if_neg (not_not.mpr hc)] at hs
        cases hs
      rw [if_pos hne] at hs
      simp only
      cases hi : tenv.Identical Obj.Typ m.Typ with
      | false =>
        simp only [Bool.not_false, if_true]
        refine ⟨fun h => (by cases h), fun h => ?_⟩
        obtain ⟨⟨_, v, hv, hvi⟩, _⟩ := h
        rw [← hs] at hv
        cases hv
        rw [hi] at hvi
        cases hvi
      | true =>
        simp only [Bool.not_true, Bool.false_eq_true, if_false]
        rw [ih]
        exact ⟨fun h => ⟨⟨hne, Obj, hs.symm, hi⟩, h⟩, fun h => h.2⟩

theorem exported_congr (tenv : TypesEnv) {a b : types.Object} (h : a.Name = b.Name) :
    a.Exported tenv = b.Exported tenv := by
  unfold types.Object.Exported
  rw [h]

theorem sameId_trans {tenv : TypesEnv} {a b : types.Object} {pkg : Option types.Package}
    {name : String} (ha : sameId tenv a pkg name = true) (hb : sameId tenv b pkg name = true) :
    sameId tenv a b.Pkg b.Name = true := by
  obtain ⟨hna, hca⟩ := sameId_eq_true.mp ha
  obtain ⟨hnb, hcb⟩ := sameId_eq_true.mp hb
  have hab : a.Name = b.Name := by rw [← hna, ← hnb]
  refine sameId_eq_true.mpr ⟨hab.symm, ?_⟩
  by_cases hea : a.Exported tenv = true
  · exact Or.inl hea
  · have heb : ¬ b.Exported tenv = true := by
      rw [← exported_congr tenv hab]
      exact hea
    have hpa := hca.resolve_left hea
    have hpb := hcb.resolve_left heb
    right
    rcases hpa with ⟨h1, h2⟩ | ⟨p, q, h1, h2, h3⟩
    · rcases hpb with ⟨_, h4⟩ | ⟨p2, q2, h4, _, _⟩
      · exact Or.inl ⟨h4, h2⟩
      · rw [h1] at h4
        cases h4
    · rcases hpb with ⟨h4, _⟩ | ⟨p2, q2, h4, h5, h6⟩
      · rw [h1] at h4
        cases h4
      · rw [h1] at h4
        cases h4
        exact Or.inr ⟨q2, q, h5, h2, by rw [← h6, h3]⟩

theorem find_sameId_unique {tenv : TypesEnv} {pkg : Option types.Package} {name : String} :
    ∀ {ms : List types.Func},
      ms.Pairwise (fun a b => sameId tenv a.toObject b.Pkg b.Name = false) →
      ∀ {v : types.Func}, v ∈ ms → sameId tenv v.toObject pkg name = true →
        ms.find? (fun w => sameId tenv w.toObject pkg name) = some v
  | [], _, v, hv, _ => by cases hv
  | a :: rest, hu, v, hv, hs => by
    rw [List.pairwise_cons] at hu
    rw [List.find?_cons]
    rcases List.mem_cons.mp hv with e | hv2
    · rw [← e, hs]
    · cases ha : sameId tenv a.toObject pkg name with
      | true =>
        have h1 := sameId_trans ha hs
        rw [hu.1 v hv2] at h1
        cases h1
      | false => exact find_sameId_unique hu.2 hv2 hs

theorem implementsConcrete_spec (tenv : TypesEnv) (msV : types.MethodSet) :
    ∀ (ms : List types.Func) (sels : List types.Selection),
      ((implementsConcrete tenv msV ms sels).2 = true ↔
        ∀ m ∈ ms, ∃ sel f, msV.Lookup m.Pkg m.Name = some sel ∧ sel.Func = some f ∧
          tenv.Identical f.Typ m.Typ = true) ∧
      ((implementsConcrete tenv msV ms sels).2 = true →
        (implementsConcrete tenv msV ms sels).1.map some =
          sels.map some ++ ms.map (fun m => msV.Lookup m.Pkg m.Name)) ∧
      ((implementsConcrete tenv msV ms sels).2 = false →
        (implementsConcrete tenv msV ms sels).1 = [])
  | [], sels => by simp [implementsConcrete]
  | m :: ms, sels => by
    obtain ⟨ih1, ih2, ih3⟩ := implementsConcrete_spec tenv msV ms
      (sels ++ (msV.Lookup m.Pkg m.Name).toList)
    simp only [implementsConcrete, List.forall_mem_cons, List.map_cons]
    cases hl : msV.Lookup m.Pkg m.Name with
    | none => simp
    | some sel =>
      rw [hl] at ih1 ih2 ih3
      simp only [Option.toList_some] at ih1 ih2 ih3
      dsimp only
      cases hf : sel.Func with
      | none =>
        refine ⟨⟨fun h => (by cases h), fun h => ?_⟩, fun h => (by cases h), fun _ => rfl⟩
        obtain ⟨⟨sel2, f, h1, h2, _⟩, _⟩ := h
        cases h1
        rw [hf] at h2
        cases h2
      | some f =>
        dsimp only
        cases hi : tenv.Identical f.Typ m.Typ with
        | false =>
          simp only [Bool.not_false, if_true]
          refine ⟨⟨fun h => (by cases h), fun h => ?_⟩, fun h => (by cases h),
            fun _ => (by first | rfl | trivial)⟩
          obtain ⟨⟨sel2, f2, h1, h2, h3⟩, _⟩ := h
          cases h1
          rw [hf] at h2
          cases h2
          rw [hi] at h3
          cases h3
        | true =>
          simp only [Bool.not_true, Bool.false_eq_true, if_false]
          refine ⟨?_, fun h => ?_, ih3⟩
          · rw [ih1]
            exact ⟨fun h => ⟨⟨sel, f, rfl, hf, hi⟩, h⟩, fun h => h.2⟩
          · rw [ih2 h]
            simp

theorem implements_of_not_empty {tenv : TypesEnv} {T : types.Interface}
    (hT : T.Empty = false) (V : types.Underlying) (msV : types.MethodSet) :
    implements tenv V T msV =
      match V with
      | .Interface ityp => ([], implementsInterface tenv ityp T.methods)
      | .Other => implementsConcrete tenv msV T.methods [] := by
  unfold implements
  rw [hT]
  rfl

/-! ## The target flag -/

theorem splitComma_ne_nil : ∀ l : List Char, splitComma l ≠ []
  | [] => by simp [splitComma]
  | c :: cs => by
    unfold splitComma
    split
    · simp
    · split <;> simp

theorem splitComma_cons_of_ne {c : Char} (hc : c ≠ ',') (cs : List Char) :
    ∃ y ys, splitComma cs = y :: ys ∧ splitComma (c :: cs) = (c :: y) :: ys := by
  cases h : splitComma cs with
  | nil => exact absurd h (splitComma_ne_nil cs)
  | cons y ys => exact ⟨y, ys, rfl, by simp only [splitComma, if_neg hc, h]⟩

theorem splitComma_of_not_mem : ∀ {l : List Char}, ',' ∉ l → splitComma l = [l]
  | [], _ => rfl
  | c :: cs, h => by
    simp only [List.mem_cons, not_or] at h
    have hc : c ≠ ',' := fun e => h.1 e.symm
    simp only [splitComma, if_neg hc, splitComma_of_not_mem h.2]

theorem splitComma_append_comma : ∀ {y : List Char} (rest : List Char), ',' ∉ y →
    splitComma (y ++ ',' :: rest) = y :: splitComma rest
  | [], rest, _ => by simp [splitComma]
  | c :: cs, rest, h => by
    simp only [List.mem_cons, not_or] at h
    have hc : c ≠ ',' := fun e => h.1 e.symm
    have ih := splitComma_append_comma rest h.2
    obtain ⟨y, ys, h1, h2⟩ := splitComma_cons_of_ne hc (cs ++ ',' :: rest)
    rw [List.cons_append, h2]
    rw [ih] at h1
    cases h1
    rfl

theorem splitComma_joinComma : ∀ {p : List (List Char)}, p ≠ [] → (∀ y ∈ p, ',' ∉ y) →
    splitComma (joinComma p) = p
  | [], h, _ => absurd rfl h
  | [y], _, hp => by
    simp only [joinComma]
    exact splitComma_of_not_mem (hp y (List.mem_singleton_self _))
  | y :: z :: ys, _, hp => by
    simp only [joinComma]
    rw [splitComma_append_comma _ (hp y (List.mem_cons_self _ _)),
      splitComma_joinComma (by simp) (fun w hw => hp w (List.mem_cons_of_mem _ hw))]

theorem mem_iff_head_or_tail {α : Type} (x : α) :
    ∀ l : List α, x ∈ l ↔ l.head? = some x ∨ x ∈ l.tail
  | [] => by simp
  | y :: ys => by
    rw [List.mem_cons, List.head?_cons, List.tail_cons, Option.some.injEq]
    exact or_congr_left eq_comm

theorem splitComma_head (l : List Char) :
    (splitComma l).head? = some [] ↔ l = [] ∨ [','] <+: l := by
  cases l with
  | nil => simp [splitComma]
  | cons c cs =>
    by_cases hc : c = ','
    · simp [splitComma, hc]
    · obtain ⟨y, ys, _, h2⟩ := splitComma_cons_of_ne hc cs
      rw [h2]
      simp [Ne.symm hc]

theorem splitComma_tail : ∀ l : List Char,
    [] ∈ (splitComma l).tail ↔ [','] <:+ l ∨ [',', ','] <:+: l
  | [] => by simp [splitComma]
  | c :: cs => by
    have ih := splitComma_tail cs
    rw [List.suffix_cons_iff, List.infix_cons_iff, List.cons_prefix_cons]
    by_cases hc : c = ','
    · subst hc
      have hs : splitComma (',' :: cs) = [] :: splitComma cs := by simp [splitComma]
      have e1 : [','] = ',' :: cs ↔ cs = [] := by
        constructor
        · intro h
          simpa using h.symm
        · intro h
          rw [h]
      rw [hs, List.tail_cons, mem_iff_head_or_tail, splitComma_head, ih, e1]
      simp only [true_and]
      tauto
    · obtain ⟨y, ys, h1, h2⟩ := splitComma_cons_of_ne hc cs
      rw [h2, List.tail_cons]
      rw [h1, List.tail_cons] at ih
      rw [ih]
      simp [Ne.symm hc]

/-- A piece of `strings.Split(v, ",")` is empty exactly when `v` is empty, begins or ends
with a comma, or has two adjacent commas. -/
theorem nil_mem_splitComma (l : List Char) :
    [] ∈ splitComma l ↔ l = [] ∨ [','] <+: l ∨ [','] <:+ l ∨ [',', ','] <:+: l := by
  rw [mem_iff_head_or_tail, splitComma_head, splitComma_tail, or_assoc]

theorem charsLe_total : ∀ a b : List Char, charsLe a b = true ∨ charsLe b a = true
  | [], _ => Or.inl (by simp [charsLe])
  | _ :: _, [] => Or.inr (by simp [charsLe])
  | a :: as, b :: bs => by
    simp only [charsLe, Bool.or_eq_true, Bool.and_eq_true, decide_eq_true_eq]
    rcases lt_trichotomy a b with h | h | h
    · exact Or.inl (Or.inl h)
    · rcases charsLe_total as bs with h2 | h2
      · exact Or.inl (Or.inr ⟨h, h2⟩)
      · exact Or.inr (Or.inr ⟨h.symm, h2⟩)
    · exact Or.inr (Or.inl h)

theorem charsLe_trans : ∀ a b c : List Char, charsLe a b = true → charsLe b c = true →
    charsLe a c = true
  | [], _, _, _, _ => by simp [charsLe]
  | _ :: _, [], _, h, _ => by simp [charsLe] at h
  | _ :: _, _ :: _, [], _, h => by simp [charsLe] at h
  | a :: as, b :: bs, c :: cs, h1, h2 => by
    simp only [charsLe, Bool.or_eq_true, Bool.and_eq_true, decide_eq_true_eq] at h1 h2 ⊢
    rcases h1 with h1 | ⟨e1, h1⟩
    · rcases h2 with h2 | ⟨e2, _⟩
      · exact Or.inl (lt_trans h1 h2)
      · exact Or.inl (e2 ▸ h1)
    · rcases h2 with h2 | ⟨e2, h2⟩
      · exact Or.inl (e1 ▸ h2)
      · exact Or.inr ⟨e1.trans e2, charsLe_trans as bs cs h1 h2⟩

theorem charsLe_antisymm : ∀ a b : List Char, charsLe a b = true → charsLe b a = true → a = b
  | [], [], _, _ => rfl
  | [], _ :: _, _, h => by simp [charsLe] at h
  | _ :: _, [], h, _ => by simp [charsLe] at h
  | a :: as, b :: bs, h1, h2 => by
    simp only [charsLe, Bool.or_eq_true, Bool.and_eq_true, decide_eq_true_eq] at h1 h2
    rcases h1 with h1 | ⟨e1, h1⟩
    · rcases h2 with h2 | ⟨e2, _⟩
      · exact absurd h2 (lt_asymm h1)
      · exact absurd h1 (e2 ▸ lt_irrefl a)
    · rcases h2 with h2 | ⟨_, h2⟩
      · exact absurd h2 (e1 ▸ lt_irrefl b)
      · rw [e1, charsLe_antisymm as bs h1 h2]

theorem mk_eq_empty {l : List Char} : String.mk l = "" ↔ l = [] := by
  constructor
  · intro h
    exact congrArg String.data h
  · intro h
    rw [h]

theorem empty_mem_Split (v : String) :
    "" ∈ Split v ↔
      v = "" ∨ [','] <+: v.data ∨ [','] <:+ v.data ∨ [',', ','] <:+: v.data := by
  have h1 : "" ∈ Split v ↔ [] ∈ splitComma v.data := by
    unfold Split
    rw [List.mem_map]
    constructor
    · rintro ⟨a, ha, e⟩
      rw [mk_eq_empty.mp e] at ha
      exact ha
    · intro h
      exact ⟨[], h, rfl⟩
  have h2 : v.data = [] ↔ v = "" := by
    constructor
    · intro h
      exact String.ext h
    · intro h
      rw [h]
  rw [h1, nil_mem_splitComma, h2]

theorem Split_Join {p : List String} (hne : p ≠ []) (hp : ∀ y ∈ p, ',' ∉ y.data) :
    Split (Join p) = p := by
  have h1 : splitComma (joinComma (p.map String.data)) = p.map String.data :=
    splitComma_joinComma (by simpa using hne) (by simpa using hp)
  have h2 : (String.mk ∘ String.data) = id := by
    funext s
    rfl
  unfold Split Join
  show (splitComma (joinComma (p.map String.data))).map String.mk = p
  rw [h1, List.map_map, h2, List.map_id]

theorem mem_setKey {s : List String} {y z : String} : z ∈ setKey s y ↔ z ∈ s ∨ z = y := by
  unfold setKey
  by_cases h : y ∈ s
  · rw [if_pos h]
    refine ⟨Or.inl, fun h1 => ?_⟩
    rcases h1 with h1 | h1
    · exact h1
    · rw [h1]
      exact h
  · rw [if_neg h]
    simp

theorem setLoop_spec : ∀ (ys s : List String),
    ((∃ e, (setLoop ys s).2 = some e) ↔ "" ∈ ys) ∧
    ((setLoop ys s).2 = none → ∀ z, z ∈ (setLoop ys s).1 ↔ z ∈ s ∨ z ∈ ys)
  | [], s => by simp [setLoop]
  | y :: ys, s => by
    simp only [setLoop]
    by_cases hy : y = ""
    · rw [if_pos hy]
      simp [hy]
    · rw [if_neg hy]
      obtain ⟨h1, h2⟩ := setLoop_spec ys (setKey s y)
      refine ⟨?_, fun hn z => ?_⟩
      · rw [h1, List.mem_cons]
        exact ⟨Or.inr, fun h => h.resolve_left (fun e => hy e.symm)⟩
      · rw [h2 hn z, mem_setKey, List.mem_cons, or_assoc]

theorem setLoop_nodup : ∀ (p s : List String), (s ++ p).Nodup → "" ∉ p →
    setLoop p s = (s ++ p, none)
  | [], s, _, _ => by simp [setLoop]
  | y :: ys, s, hnd, hne => by
    have hy : y ≠ "" := by
      intro e
      rw [e] at hne
      exact hne (List.mem_cons_self _ _)
    have hys : y ∉ s := fun h =>
      (List.nodup_append.mp hnd).2.2 h (List.mem_cons_self _ _)
    simp only [setLoop, if_neg hy, setKey, if_neg hys]
    rw [setLoop_nodup ys (s ++ [y]) (by simpa using hnd)
      (fun h => hne (List.mem_cons_of_mem _ h))]
    simp

theorem sortStrings_sorted (s : List String) :
    (sortStrings s).Sorted (fun a b => strLe a b = true) := by
  haveI : IsTotal String (fun a b => strLe a b = true) :=
    ⟨fun a b => charsLe_total a.data b.data⟩
  haveI : IsTrans String (fun a b => strLe a b = true) :=
    ⟨fun a b c => charsLe_trans a.data b.data c.data⟩
  exact List.sorted_insertionSort _ s

/-! ## `Merge` on the receiver's own node list -/

theorem getIdx_of_ge {rm : List Nat} {u : Nat} (h : rm.length ≤ u) :
    getIdx rm u = .error .indexOutOfRange := by
  unfold getIdx
  rw [List.getElem?_eq_none h]

theorem getIdx_error {rm : List Nat} {u : Nat} {e : Panic} (h : getIdx rm u = .error e) :
    e = .indexOutOfRange := by
  unfold getIdx at h
  split at h
  · cases h
  · cases h
    rfl

theorem remapIDs_error : ∀ {us : List Nat} {rm : List Nat} {u : Nat}, u ∈ us →
    rm.length ≤ u → remapIDs rm us = .error .indexOutOfRange
  | [], _, _, hu, _ => by cases hu
  | v :: vs, rm, u, hu, hge => by
    simp only [remapIDs]
    cases hv : getIdx rm v with
    | error e => rw [getIdx_error hv]
    | ok w =>
      rcases List.mem_cons.mp hu with e | hu2
      · rw [← e, getIdx_of_ge hge] at hv
        cases hv
      · simp only [remapIDs_error hu2 hge]

theorem set_of_get {ns : List Node} {i : Nat} {c : Node} (h : ns[i]? = some c) :
    ns.set i c = ns := by
  apply List.ext_getElem?
  intro j
  rw [List.getElem?_set]
  by_cases hij : i = j
  · rw [if_pos hij, if_pos (List.getElem?_eq_some.mp h).1, ← hij, h]
  · rw [if_neg hij]

theorem pass1Own_error : ∀ (batch : List Node) (len : Nat) (g : SerializedGraph)
    (rm : List Nat) (b : OwnBatch) {e : Panic}, pass1 g rm batch = .error e →
    pass1Own len g rm b batch = .error e
  | [], _, _, _, _, _, h => by cases h
  | n :: rest, len, g, rm, b, e, h => by
    simp only [pass1] at h
    simp only [pass1Own]
    cases hr : resolve g rm n with
    | error e2 =>
      rw [hr] at h
      simp only [Except.error.injEq] at h ⊢
      exact h
    | ok r =>
      obtain ⟨g1, rm1⟩ := r
      rw [hr] at h
      simp only at h ⊢
      exact pass1Own_error rest len g1 rm1 _ h

/-- A first pass all of whose elements are found in the tables leaves the array behind
`nodes` where it is. -/
theorem pass1Own_hits : ∀ (batch : List Node) (len : Nat) (g : SerializedGraph)
    (rm : List Nat) (b : OwnBatch),
    (∀ n ∈ batch, ¬ n.Bad ∧ n.ID < rm.length ∧ (lookupIdentity g n).isSome = true) →
    ∃ rm1, pass1 g rm batch = .ok (g, rm1) ∧ pass1Own len g rm b batch = .ok (g, rm1, b)
  | [], _, g, rm, b, _ => ⟨rm, rfl, rfl⟩
  | n :: rest, len, g, rm, b, h => by
    obtain ⟨hbad, hlt, hsome⟩ := h n (List.mem_cons_self _ _)
    obtain ⟨v, hv⟩ := Option.isSome_iff_exists.mp hsome
    have hres : resolve g rm n = .ok (g, rm.set n.ID v) := resolve_of_hit hbad hlt hv
    have hstep : b.step len g n = b := by
      cases b with
      | detached ns => rfl
      | shared k => simp only [OwnBatch.step, hv]
    obtain ⟨rm1, h1, h2⟩ := pass1Own_hits rest len g (rm.set n.ID v) b (fun k hk => by
      obtain ⟨a, c, d⟩ := h k (List.mem_cons_of_mem _ hk)
      exact ⟨a, by rw [List.length_set]; exact c, d⟩)
    exact ⟨rm1, by simp only [pass1, hres, h1], by simp only [pass1Own, hres, hstep, h2]⟩

/-- When the rewrite in place changes nothing and the canonical edge lists extend those
of the elements of `nodes`, the second pass over the array that `g.nodes` has left is
the second pass over a batch of the same value. -/
theorem pass2Detached_eq (lay : Layout) (rm : List Nat) :
    ∀ (bs : List Node) (i : Nat) (ns : List Node),
      (∀ n ∈ bs, remapIDs rm n.Uses = .ok n.Uses ∧ remapIDs rm n.Owns = .ok n.Owns) →
      (∀ (k : Nat) (n : Node), bs[k]? = some n →
        ∃ c, ns[i + k]? = some c ∧ n.Uses <+: c.Uses ∧ n.Owns <+: c.Owns) →
      pass2Detached lay rm i bs ns = pass2 rm ns bs
  | [], _, _, _, _ => rfl
  | n :: rest, i, ns, hfix, hpre => by
    obtain ⟨hu, ho⟩ := hfix n (List.mem_cons_self _ _)
    obtain ⟨c, hc, hcu, hco⟩ := hpre 0 n (by simp)
    rw [Nat.add_zero] at hc
    have hstep : applyRemapDetached lay ns rm i n = applyRemap ns rm n := by
      unfold applyRemapDetached applyRemap
      rw [hu, ho, hc]
      have e1 : (if lay.movedUses i = true then c.Uses
          else n.Uses ++ c.Uses.drop n.Uses.length) = c.Uses := by
        split
        · rfl
        · exact List.prefix_iff_eq_append.mp hcu
      have e2 : (if lay.movedOwns i = true then c.Owns
          else n.Owns ++ c.Owns.drop n.Owns.length) = c.Owns := by
        split
        · rfl
        · exact List.prefix_iff_eq_append.mp hco
      simp only [e1, e2]
      rw [set_of_get hc]
    simp only [pass2Detached, pass2, hstep]
    cases h1 : applyRemap ns rm n with
    | error e => rfl
    | ok ns1 =>
      have hgr : Grows ns ns1 := @pass2_grows [n] ns ns1 rm (by simp only [pass2, h1])
      refine pass2Detached_eq lay rm rest (i + 1) ns1
        (fun m hm => hfix m (List.mem_cons_of_mem _ hm)) (fun k m hk => ?_)
      obtain ⟨c2, hc2, hcu2, hco2⟩ := hpre (k + 1) m (by simpa using hk)
      obtain ⟨c3, hc3, _, _, hu3, ho3⟩ := hgr.2 _ _ hc2
      refine ⟨c3, ?_, hcu2.trans hu3, hco2.trans ho3⟩
      rw [← hc3]
      congr 1
      omega

theorem edgesPos_set {ns : List Node} {i : Nat} {b : Node} (hp : EdgesPos ns)
    (hu : ∀ u ∈ b.Uses, u ≠ 0) (ho : ∀ u ∈ b.Owns, u ≠ 0) : EdgesPos (ns.set i b) := by
  intro j a ha
  rw [List.getElem?_set] at ha
  by_cases hij : i = j
  · rw [if_pos hij] at ha
    split at ha
    · cases ha
      exact ⟨hu, ho⟩
    · cases ha
  · rw [if_neg hij] at ha
    exact hp j a ha

theorem edgesPos_append_fresh {ns : List Node} {x : Node} (hp : EdgesPos ns)
    (hu : x.Uses = []) (ho : x.Owns = []) : EdgesPos (ns ++ [x]) := by
  intro j a ha
  by_cases hj : j < ns.length
  · rw [List.getElem?_append_left hj] at ha
    exact hp j a ha
  · rw [List.getElem?_append_right (Nat.le_of_not_lt hj)] at ha
    have hx : a = x := by
      cases hk : j - ns.length with
      | zero =>
        rw [hk] at ha
        simpa using ha.symm
      | succ k =>
        rw [hk] at ha
        simp at ha
    rw [hx, hu, ho]
    exact ⟨fun u h => (by cases h), fun u h => (by cases h)⟩

theorem resolve_edgesPos {g g1 : SerializedGraph} {rm rm1 : List Nat} {n : Node}
    (hp : EdgesPos g.nodes) (hne : g.nodes ≠ []) (h : resolve g rm n = .ok (g1, rm1)) :
    EdgesPos g1.nodes := by
  obtain ⟨_, _, hc⟩ := resolve_eq_ok h
  rcases hc with ⟨v, _, hg, _⟩ | ⟨_, ha⟩
  · rw [hg]
    exact hp
  · obtain ⟨_, _, _, _, hn⟩ := allocate_eq_ok ha
    have hfresh : EdgesPos (g.nodes ++ [freshNode g n]) := edgesPos_append_fresh hp rfl rfl
    rcases hn with ⟨_, e⟩ | ⟨_, nd, hnd, e⟩
    · rw [e]
      exact hfresh
    · rw [e]
      refine edgesPos_set hfresh (fun u hu => ?_) (hfresh 0 nd hnd).2
      rcases List.mem_append.mp hu with h1 | h1
      · exact (hfresh 0 nd hnd).1 u h1
      · rw [List.mem_singleton.mp h1]
        exact Nat.ne_of_gt (List.length_pos.mpr hne)

theorem pass1_edgesPos : ∀ (batch : List Node) {g g1 : SerializedGraph} {rm rm1 : List Nat},
    EdgesPos g.nodes → g.nodes ≠ [] → pass1 g rm batch = .ok (g1, rm1) → EdgesPos g1.nodes
  | [], g, g1, rm, rm1, hp, _, h => by
    simp only [pass1, Except.ok.injEq, Prod.mk.injEq] at h
    rw [← h.1]
    exact hp
  | n :: rest, g, g1, rm, rm1, hp, hne, h => by
    simp only [pass1] at h
    split at h
    · cases h
    · rename_i g2 rm2 hres
      refine pass1_edgesPos rest (resolve_edgesPos hp hne hres) (fun e => ?_) h
      have hlen := (resolve_grows hres).1
      rw [e] at hlen
      exact hne (List.length_eq_zero.mp (Nat.le_zero.mp hlen))

theorem pass2_edgesPos : ∀ (batch : List Node) {ns ns1 : List Node} {rm : List Nat},
    EdgesPos ns →
    (∀ n ∈ batch, (∀ u ∈ n.Uses, remapOf rm u ≠ 0) ∧ (∀ u ∈ n.Owns, remapOf rm u ≠ 0)) →
    pass2 rm ns batch = .ok ns1 → EdgesPos ns1
  | [], ns, ns1, rm, hp, _, h => by
    simp only [pass2, Except.ok.injEq] at h
    rw [← h]
    exact hp
  | n :: rest, ns, ns1, rm, hp, hb, h => by
    simp only [pass2] at h
    split at h
    · cases h
    · rename_i ns2 hstep
      obtain ⟨_, _, _, nd, hnd, e⟩ := applyRemap_eq_ok hstep
      obtain ⟨hbu, hbo⟩ := hb n (List.mem_cons_self _ _)
      refine pass2_edgesPos rest ?_ (fun m hm => hb m (List.mem_cons_of_mem _ hm)) h
      rw [e]
      refine edgesPos_set hp (fun u hu => ?_) (fun u hu => ?_)
      · rcases List.mem_append.mp hu with h1 | h1
        · exact (hp _ nd hnd).1 u h1
        · obtain ⟨w, hw, e2⟩ := List.mem_map.mp h1
          rw [← e2]
          exact hbu w hw
      · rcases List.mem_append.mp hu with h1 | h1
        · exact (hp _ nd hnd).2 u h1
        · obtain ⟨w, hw, e2⟩ := List.mem_map.mp h1
          rw [← e2]
          exact hbo w hw

/-- After the merge of a well-formed batch into the fresh graph no edge entry is 0. -/
theorem mergeRemap_edgesPos {g2 : SerializedGraph} {batch : List Node} {rm : List Nat}
    (hwf : WellFormedBatch batch)
    (h : mergeRemap SerializedGraph.empty batch = .ok (g2, rm)) : EdgesPos g2.nodes := by
  obtain ⟨ga, hp1, ns2, hp2, e⟩ := mergeRemap_eq_ok h
  have hP0 := seedRoot_pass1Inv inv_empty batch.length
  have hpos0 : EdgesPos (seedRoot SerializedGraph.empty).nodes := by
    intro i a ha
    have : a = Node.zero := by
      cases i with
      | zero =>
        have h0 : (seedRoot SerializedGraph.empty).nodes[0]? = some Node.zero := rfl
        rw [h0] at ha
        cases ha
        rfl
      | succ k =>
        have h0 : (seedRoot SerializedGraph.empty).nodes[k + 1]? = none := rfl
        rw [h0] at ha
        cases ha
    rw [this]
    exact ⟨fun u hu => (by cases hu), fun u hu => (by cases hu)⟩
  have hposa := pass1_edgesPos batch hpos0 hP0.nonempty hp1
  have hrm := pass1_remap_pos hP0 (wellFormed_ids hwf).1 hp1
  have hent : ∀ u, u < batch.length → remapOf rm u ≠ 0 := by
    intro u hu
    have hget : batch[u]? = some batch[u] := List.getElem?_eq_getElem hu
    have hid := (wellFormed_ids hwf).2 u _ hget
    have := hrm _ (List.mem_iff_getElem?.mpr ⟨u, hget⟩)
    rw [hid] at this
    exact this
  rw [e]
  exact pass2_edgesPos batch hposa
    (fun n hn => ⟨fun u hu => hent u ((hwf.2.2.2 n hn).1 u hu),
      fun u hu => hent u ((hwf.2.2.2 n hn).2 u hu)⟩) hp2

/-- The call `g.Merge(g.nodes)` on a canonical graph all of whose non-root nodes are
found by their identity and none of whose edge entries is 0: with a free element behind
the node slice the second pass reads back the root edge that the first pass has written
and panics on the new id; without one the call does what `Merge` does on a batch of the
same value. -/
theorem mergeOwn_own_nodes {g : SerializedGraph} (hI : Inv g) (hS : SelfRegistered g)
    (hne : g.nodes ≠ []) (hep : EdgesPos g.nodes) (lay : Layout) :
    (0 < lay.spare → mergeOwn lay g = .error .indexOutOfRange) ∧
    (lay.spare = 0 → mergeOwn lay g = mergeRemap g g.nodes) := by
  have hpos : 0 < g.nodes.length := List.length_pos.mpr hne
  have hseed : seedRoot g = g := seedRoot_of_ne_nil hne
  obtain ⟨a0, tl, hnodes⟩ : ∃ a0 tl, g.nodes = a0 :: tl := List.exists_cons_of_ne_nil hne
  have ha0 : g.nodes[0]? = some a0 := by rw [hnodes]; simp
  have hid0 : a0.ID = 0 := hI.dense 0 a0 ha0
  have hobj0 : a0.Obj = Object.zero := hI.rootObj a0 ha0
  have hbad0 : ¬ a0.Bad := fun hb => hb.1 hid0
  have hmiss0 : lookupIdentity g a0 = none := by
    simp [lookupIdentity, hobj0, Object.zero, hI.pathKey, token.Position.zero]
  have hlt0 : a0.ID < (List.replicate g.nodes.length 0).length := by
    rw [hid0]
    simpa using hpos
  obtain ⟨ga, halloc⟩ := allocate_ok g hlt0
  obtain ⟨_, _, hpa, hqa, hnd⟩ := allocate_eq_ok halloc
  have hlena := (allocate_nodes halloc).1
  have hgra := (allocate_nodes halloc).2.1
  have hpa2 : ga.nodesByPath = g.nodesByPath := by
    rw [hpa, hobj0]
    simp [Object.zero]
  have hqa2 : ga.nodesByPosition = g.nodesByPosition := by
    rw [hqa, hobj0]
    simp [Object.zero, token.Position.zero]
  have htl : ∀ n ∈ tl, ∃ i, g.nodes[i + 1]? = some n ∧ n.ID = i + 1 := by
    intro n hn
    obtain ⟨i, hi⟩ := List.mem_iff_getElem?.mp hn
    have h1 : g.nodes[i + 1]? = some n := by rw [hnodes]; simpa using hi
    exact ⟨i, h1, hI.dense _ n h1⟩
  have hhit : ∀ n ∈ tl, ¬ n.Bad ∧
      n.ID < ((List.replicate g.nodes.length 0).set a0.ID g.nodes.length).length ∧
      lookupIdentity ga n = some n.ID := by
    intro n hn
    obtain ⟨i, hi, hid⟩ := htl n hn
    have hl := selfRegistered_lookup hI hS hi (Nat.succ_ne_zero i)
    refine ⟨fun hb => ?_, ?_, ?_⟩
    · have := (hS _ n hi (Nat.succ_ne_zero i)).2 hb.2.1
      exact this.1 hb.2.2
    · rw [List.length_set, List.length_replicate, hid]
      exact (List.getElem?_eq_some.mp hi).1
    · rw [lookupIdentity_congr n hpa2 hqa2, hl, hid]
  obtain ⟨rm1, hp1, hself, hframe⟩ := pass1_all_hit tl ga _ hhit
  have hown : ∀ b : OwnBatch, pass1Own g.nodes.length ga
      ((List.replicate g.nodes.length 0).set a0.ID g.nodes.length) b tl =
      .ok (ga, rm1, b) := by
    intro b
    obtain ⟨rm2, h1, h2⟩ := pass1Own_hits tl g.nodes.length ga _ b (fun n hn => by
      obtain ⟨x, y, z⟩ := hhit n hn
      exact ⟨x, y, by rw [z]; rfl⟩)
    rw [hp1] at h1
    simp only [Except.ok.injEq, Prod.mk.injEq, true_and] at h1
    rw [h1]
    exact h2
  have hpass1 : pass1 (seedRoot g) (List.replicate g.nodes.length 0) g.nodes =
      .ok (ga, rm1) := by
    rw [hseed, show pass1 g (List.replicate g.nodes.length 0) g.nodes =
      pass1 g (List.replicate g.nodes.length 0) (a0 :: tl) from congrArg _ hnodes]
    simp only [pass1, resolve_of_miss hbad0 hmiss0, halloc, hp1]
  have hlen1 : rm1.length = g.nodes.length := by simpa using pass1_len g.nodes hpass1
  have hrm0 : rm1[0]? = some g.nodes.length := by
    rw [hframe 0 (fun n hn e => by
      obtain ⟨i, _, hid⟩ := htl n hn
      omega), hid0]
    exact List.getElem?_set_self (by simpa using hpos)
  have hrmi : ∀ i : Nat, 1 ≤ i → i < g.nodes.length → rm1[i]? = some i := by
    intro i h1 h2
    obtain ⟨j, hj⟩ : ∃ j, i = j + 1 := ⟨i - 1, by omega⟩
    subst hj
    obtain ⟨n, hn⟩ : ∃ n, g.nodes[j + 1]? = some n := ⟨_, List.getElem?_eq_getElem h2⟩
    have hid3 : n.ID = j + 1 := hI.dense _ n hn
    have hmem : n ∈ tl := by
      rw [hnodes, List.getElem?_cons_succ] at hn
      exact List.mem_iff_getElem?.mpr ⟨j, hn⟩
    have := hself n hmem
    rw [hid3] at this
    exact this
  have hstart : ∀ s : Nat, pass1Own g.nodes.length (seedRoot g)
      (List.replicate g.nodes.length 0) (.shared s) g.nodes =
      .ok (ga, rm1, (OwnBatch.shared s).step g.nodes.length g a0) := by
    intro s
    rw [hseed, show pass1Own g.nodes.length g (List.replicate g.nodes.length 0) (.shared s)
      g.nodes = pass1Own g.nodes.length g (List.replicate g.nodes.length 0) (.shared s)
      (a0 :: tl) from congrArg _ hnodes]
    simp only [pass1Own, resolve_of_miss hbad0 hmiss0, halloc, hown]
  refine ⟨fun hs => ?_, fun hs => ?_⟩
  · obtain ⟨k, hk⟩ : ∃ k, lay.spare = k + 1 := ⟨lay.spare - 1, by omega⟩
    obtain ⟨m, hm⟩ : ∃ m, g.nodes.length = m + 1 := ⟨g.nodes.length - 1, by omega⟩
    have hb : (OwnBatch.shared lay.spare).step g.nodes.length g a0 = .shared k := by
      simp only [OwnBatch.step, hmiss0, hk]
    have hga0 : ∃ a1, ga.nodes[0]? = some a1 ∧ a1.ID = 0 ∧ g.nodes.length ∈ a1.Uses := by
      rcases hnd with ⟨hne0, _⟩ | ⟨_, nd, hnd0, e⟩
      · exact absurd hid0 hne0
      · rw [List.getElem?_append_left hpos, ha0] at hnd0
        have hnda : nd = a0 := (Option.some.inj hnd0).symm
        have hlt : 0 < (g.nodes ++ [freshNode g a0]).length := by
          rw [List.length_append]
          omega
        refine ⟨{ nd with Uses := nd.Uses ++ [g.nodes.length] }, ?_, ?_, ?_⟩
        · rw [e]
          exact List.getElem?_set_self hlt
        · show nd.ID = 0
          rw [hnda]
          exact hid0
        · show g.nodes.length ∈ nd.Uses ++ [g.nodes.length]
          exact List.mem_append_right _ (List.mem_singleton_self _)
    obtain ⟨a1, ha1, hid1, hmem1⟩ := hga0
    have hstep : applyRemapShared ga.nodes rm1 0 = .error .indexOutOfRange := by
      unfold applyRemapShared
      rw [ha1]
      simp only [hid1, getIdx_eq_ok.mpr hrm0,
        remapIDs_error hmem1 (Nat.le_of_eq hlen1)]
    unfold mergeOwn
    rw [hstart, hb]
    simp only [hm, List.range_succ_eq_map, pass2Shared, hstep]
  · have hb : (OwnBatch.shared lay.spare).step g.nodes.length g a0 = .detached g.nodes := by
      simp only [OwnBatch.step, hmiss0, hs, List.take_length]
    have hfix : ∀ n ∈ g.nodes,
        remapIDs rm1 n.Uses = .ok n.Uses ∧ remapIDs rm1 n.Owns = .ok n.Owns := by
      intro n hn
      obtain ⟨i, hi⟩ := List.mem_iff_getElem?.mp hn
      have key : ∀ us : List Nat, (∀ u ∈ us, u < g.nodes.length) → (∀ u ∈ us, u ≠ 0) →
          remapIDs rm1 us = .ok us := by
        intro us h1 h2
        rw [remapIDs_of_lt (fun u hu => by rw [hlen1]; exact h1 u hu)]
        congr 1
        conv_rhs => rw [← List.map_id us]
        apply List.map_congr_left
        intro u hu
        exact remapOf_of_get (hrmi u (Nat.one_le_iff_ne_zero.mpr (h2 u hu)) (h1 u hu))
      exact ⟨key _ (hI.edges i n hi).1 (hep i n hi).1,
        key _ (hI.edges i n hi).2 (hep i n hi).2⟩
    have heq := pass2Detached_eq lay rm1 g.nodes 0 ga.nodes hfix (fun k n hk => by
      obtain ⟨c, hc, _, _, hu, ho⟩ := hgra.2 k n hk
      exact ⟨c, by rw [Nat.zero_add]; exact hc, hu, ho⟩)
    unfold mergeOwn mergeRemap
    rw [hstart, hb, hpass1]
    simp only [heq]

/-- What the selection does guarantee on a well-formed graph: every node in `seen` is a
seed (its name is a target), or is unexported or named by a target, or is a method node
of the named type of a node in `seen` that is unexported or named by a target; a method
node is taken whatever its own visibility. -/
theorem yoinkSeen_cases {env : Env} {nodes : List Node} {targets : List String} {fuel : Nat}
    (hwf : GraphWellFormed env nodes) (hfuel : nodes.length < fuel) :
    ∃ seen, yoinkSeen env nodes targets fuel = .ok seen ∧
      ∀ i ∈ seen, Seed nodes targets i ∨ Included env nodes targets i ∨
        ∃ u ∈ seen, Included env nodes targets u ∧ MethodOf env nodes u i := by
  obtain ⟨seen, h, hiff⟩ := @yoinkSeen_spec env nodes targets hwf fuel hfuel
  refine ⟨seen, h, fun i hi => ?_⟩
  rcases selected_cases ((hiff i).mp hi) with h1 | h1 | ⟨u, hu, hinc, hm⟩
  · exact Or.inl h1
  · exact Or.inr (Or.inl h1)
  · exact Or.inr (Or.inr ⟨u, (hiff u).mpr hu, hinc, hm⟩)

/-- The interface-to-interface case of `implements` on arbitrary method lists: `ok` holds
if and only if every method `m` of `T` is named other than `_` and the first method of
`V` with the same identifier identity as `m` exists and has a type identical to the type
of `m`; when the methods of `V` are pairwise different identifiers, "the first method"
is "a method".  No bindings are returned. -/
theorem implements_interface_first (tenv : TypesEnv) (T ityp : types.Interface)
    (msV : types.MethodSet) (hT : T.Empty = false) :
    ((implements tenv (.Interface ityp) T msV).2 = true ↔
      ∀ m ∈ T.methods, m.Name ≠ "_" ∧
        ∃ v, ityp.methods.find? (fun v => sameId tenv v.toObject m.Pkg m.Name) = some v ∧
          tenv.Identical v.Typ m.Typ = true) ∧
    (ityp.methods.Pairwise (fun a b => sameId tenv a.toObject b.Pkg b.Name = false) →
      ((implements tenv (.Interface ityp) T msV).2 = true ↔
        ∀ m ∈ T.methods, m.Name ≠ "_" ∧
          ∃ v ∈ ityp.methods, sameId tenv v.toObject m.Pkg m.Name = true ∧
            tenv.Identical v.Typ m.Typ = true)) ∧
    (implements tenv (.Interface ityp) T msV).1 = [] := by
  rw [implements_of_not_empty hT]
  have h1 := implementsInterface_iff tenv ityp T.methods
  refine ⟨h1, fun hu => ?_, rfl⟩
  refine h1.trans ⟨fun h m hm => ?_, fun h m hm => ?_⟩
  · obtain ⟨hne, v, hv, hi⟩ := h m hm
    have hp := List.find?_some hv
    exact ⟨hne, v, List.mem_of_find?_eq_some hv, hp, hi⟩
  · obtain ⟨hne, v, hv, hs, hi⟩ := h m hm
    exact ⟨hne, v, find_sameId_unique hu hv hs, hi⟩

/-- The guard of line 7 of `lookupMethod`: a method named by the blank identifier is
never found, also where `sameId` holds for it. -/
theorem lookupMethod_blank :
    lookupMethod exTypesEnv exBlank (some ⟨"example.com/pkg"⟩) "_" = none ∧
    (∀ m ∈ exBlank.methods, sameId exTypesEnv m.toObject (some ⟨"example.com/pkg"⟩) "_" = true) ∧
    implements exTypesEnv (.Interface exBlank) exBlank (exMethodSet ⟨[], []⟩) = ([], false) :=
  ⟨by decide, by decide, by decide⟩

end Yoink

namespace Yoink

/-! # The claims -/

/-- C1, as amended (dedup depends on the merge order): three two-node partial graphs
for one declaration are merged into a fresh graph, `bp` carrying only the stable path
`p`, `bq` only the genuine-column position `q`, `bpq` both; the lists below are the
remapping tables of the three calls, entry 1 being the id of the declaration node.  In
the two orders that merge `bpq` first, all three declaration nodes are remapped to the
one canonical id 2 and the graph ends with 5 nodes (root, three root copies, one
declaration node).  In the other four orders the declaration ends with two canonical
nodes and the graph with 6 nodes. -/
theorem merge_dedup_orders (p : ObjectPath) (q q0 : token.Position)
    (hp : p ≠ ObjectPath.zero) (hq : q.Column ≠ 0) (hq0 : q0.Column = 0)
    (bp bq bpq : List Node) (h1 : IsDeclBatch bp p q0)
    (h2 : IsDeclBatch bq ObjectPath.zero q) (h3 : IsDeclBatch bpq p q) :
    (∃ g, mergeAllRemap SerializedGraph.empty [bpq, bp, bq] =
        .ok (g, [[1, 2], [3, 2], [4, 2]]) ∧ g.nodes.length = 5) ∧
    (∃ g, mergeAllRemap SerializedGraph.empty [bpq, bq, bp] =
        .ok (g, [[1, 2], [3, 2], [4, 2]]) ∧ g.nodes.length = 5) ∧
    (∃ g, mergeAllRemap SerializedGraph.empty [bp, bq, bpq] =
        .ok (g, [[1, 2], [3, 4], [5, 2]]) ∧ g.nodes.length = 6) ∧
    (∃ g, mergeAllRemap SerializedGraph.empty [bp, bpq, bq] =
        .ok (g, [[1, 2], [3, 2], [4, 5]]) ∧ g.nodes.length = 6) ∧
    (∃ g, mergeAllRemap SerializedGraph.empty [bq, bp, bpq] =
        .ok (g, [[1, 2], [3, 4], [5, 4]]) ∧ g.nodes.length = 6) ∧
    (∃ g, mergeAllRemap SerializedGraph.empty [bq, bpq, bp] =
        .ok (g, [[1, 2], [3, 2], [4, 5]]) ∧ g.nodes.length = 6) := by
  have hzp : ¬ ObjectPath.zero = p := fun e => hp e.symm
  refine ⟨?_, ?_, ?_, ?_, ?_, ?_⟩
  · obtain ⟨ga, hma, hIa, hka, hPa, hQa⟩ :=
      mergeRemap_decl inv_empty (rfl : SerializedGraph.empty.nodes.length = 0)
        (rfl : SerializedGraph.empty.nodesByPath = fun _ => none)
        (rfl : SerializedGraph.empty.nodesByPosition = fun _ => none) h3 (Or.inl hp)
    simp [lookupTables, mapSet, hp, hq, hq0, hzp, SerializedGraph.empty] at hma hka hPa hQa
    change mergeRemap SerializedGraph.empty bpq = _ at hma
    obtain ⟨gb, hmb, hIb, hkb, hPb, hQb⟩ := mergeRemap_decl hIa hka hPa hQa h1 (Or.inl hp)
    simp [lookupTables, mapSet, hp, hq, hq0, hzp] at hmb hkb hPb hQb
    obtain ⟨gc, hmc, hIc, hkc, hPc, hQc⟩ := mergeRemap_decl hIb hkb hPb hQb h2 (Or.inr hq)
    simp [lookupTables, mapSet, hp, hq, hq0, hzp] at hmc hkc hPc hQc
    exact ⟨gc, by simp only [mergeAllRemap, hma, hmb, hmc], hkc⟩
  · obtain ⟨ga, hma, hIa, hka, hPa, hQa⟩ :=
      mergeRemap_decl inv_empty (rfl : SerializedGraph.empty.nodes.length = 0)
        (rfl : SerializedGraph.empty.nodesByPath = fun _ => none)
        (rfl : SerializedGraph.empty.nodesByPosition = fun _ => none) h3 (Or.inl hp)
    simp [lookupTables, mapSet, hp, hq, hq0, hzp, SerializedGraph.empty] at hma hka hPa hQa
    change mergeRemap SerializedGraph.empty bpq = _ at hma
    obtain ⟨gb, hmb, hIb, hkb, hPb, hQb⟩ := mergeRemap_decl hIa hka hPa hQa h2 (Or.inr hq)
    simp [lookupTables, mapSet, hp, hq, hq0, hzp] at hmb hkb hPb hQb
    obtain ⟨gc, hmc, hIc, hkc, hPc, hQc⟩ := mergeRemap_decl hIb hkb hPb hQb h1 (Or.inl hp)
    simp [lookupTables, mapSet, hp, hq, hq0, hzp] at hmc hkc hPc hQc
    exact ⟨gc, by simp only [mergeAllRemap, hma, hmb, hmc], hkc⟩
  · obtain ⟨ga, hma, hIa, hka, hPa, hQa⟩ :=
      mergeRemap_decl inv_empty (rfl : SerializedGraph.empty.nodes.length = 0)
        (rfl : SerializedGraph.empty.nodesByPath = fun _ => none)
        (rfl : SerializedGraph.empty.nodesByPosition = fun _ => none) h1 (Or.inl hp)
    simp [lookupTables, mapSet, hp, hq, hq0, hzp, SerializedGraph.empty] at hma hka hPa hQa
    change mergeRemap SerializedGraph.empty bp = _ at hma
    obtain ⟨gb, hmb, hIb, hkb, hPb, hQb⟩ := mergeRemap_decl hIa hka hPa hQa h2 (Or.inr hq)
    simp [lookupTables, mapSet, hp, hq, hq0, hzp] at hmb hkb hPb hQb
    obtain ⟨gc, hmc, hIc, hkc, hPc, hQc⟩ := mergeRemap_decl hIb hkb hPb hQb h3 (Or.inl hp)
    simp [lookupTables, mapSet, hp, hq, hq0, hzp] at hmc hkc hPc hQc
    exact ⟨gc, by simp only [mergeAllRemap, hma, hmb, hmc], hkc⟩
  · obtain ⟨ga, hma, hIa, hka, hPa, hQa⟩ :=
      mergeRemap_decl inv_empty (rfl : SerializedGraph.empty.nodes.length = 0)
        (rfl : SerializedGraph.empty.nodesByPath = fun _ => none)
        (rfl : SerializedGraph.empty.nodesByPosition = fun _ => none) h1 (Or.inl hp)
    simp [lookupTables, mapSet, hp, hq, hq0, hzp, SerializedGraph.empty] at hma hka hPa hQa
    change mergeRemap SerializedGraph.empty bp = _ at hma
    obtain ⟨gb, hmb, hIb, hkb, hPb, hQb⟩ := mergeRemap_decl hIa hka hPa hQa h3 (Or.inl hp)
    simp [lookupTables, mapSet, hp, hq, hq0, hzp] at hmb hkb hPb hQb
    obtain ⟨gc, hmc, hIc, hkc, hPc, hQc⟩ := mergeRemap_decl hIb hkb hPb hQb h2 (Or.inr hq)
    simp [lookupTables, mapSet, hp, hq, hq0, hzp] at hmc hkc hPc hQc
    exact ⟨gc, by simp only [mergeAllRemap, hma, hmb, hmc], hkc⟩
  · obtain ⟨ga, hma, hIa, hka, hPa, hQa⟩ :=
      mergeRemap_decl inv_empty (rfl : SerializedGraph.empty.nodes.length = 0)
        (rfl : SerializedGraph.empty.nodesByPath = fun _ => none)
        (rfl : SerializedGraph.empty.nodesByPosition = fun _ => none) h2 (Or.inr hq)
    simp [lookupTables, mapSet, hp, hq, hq0, hzp, SerializedGraph.empty] at hma hka hPa hQa
    change mergeRemap SerializedGraph.empty bq = _ at hma
    obtain ⟨gb, hmb, hIb, hkb, hPb, hQb⟩ := mergeRemap_decl hIa hka hPa hQa h1 (Or.inl hp)
    simp [lookupTables, mapSet, hp, hq, hq0, hzp] at hmb hkb hPb hQb
    obtain ⟨gc, hmc, hIc, hkc, hPc, hQc⟩ := mergeRemap_decl hIb hkb hPb hQb h3 (Or.inl hp)
    simp [lookupTables, mapSet, hp, hq, hq0, hzp] at hmc hkc hPc hQc
    exact ⟨gc, by simp only [mergeAllRemap, hma, hmb, hmc], hkc⟩
  · obtain ⟨ga, hma, hIa, hka, hPa, hQa⟩ :=
      mergeRemap_decl inv_empty (rfl : SerializedGraph.empty.nodes.length = 0)
        (rfl : SerializedGraph.empty.nodesByPath = fun _ => none)
        (rfl : SerializedGraph.empty.nodesByPosition = fun _ => none) h2 (Or.inr hq)
    simp [lookupTables, mapSet, hp, hq, hq0, hzp, SerializedGraph.empty] at hma hka hPa hQa
    change mergeRemap SerializedGraph.empty bq = _ at hma
    obtain ⟨gb, hmb, hIb, hkb, hPb, hQb⟩ := mergeRemap_decl hIa hka hPa hQa h3 (Or.inl hp)
    simp [lookupTables, mapSet, hp, hq, hq0, hzp] at hmb hkb hPb hQb
    obtain ⟨gc, hmc, hIc, hkc, hPc, hQc⟩ := mergeRemap_decl hIb hkb hPb hQb h1 (Or.inl hp)
    simp [lookupTables, mapSet, hp, hq, hq0, hzp] at hmc hkc hPc hQc
    exact ⟨gc, by simp only [mergeAllRemap, hma, hmb, hmc], hkc⟩

/-- Witness for C1 as amended: the three example batches for the declaration `T`. -/
theorem merge_dedup_orders_witness :
    IsDeclBatch exPathBatch exPath token.Position.zero ∧
    IsDeclBatch exPosBatch ObjectPath.zero exPos ∧ IsDeclBatch exBatch exPath exPos ∧
    ∃ g, mergeAllRemap SerializedGraph.empty [exBatch, exPathBatch, exPosBatch] =
      .ok (g, [[1, 2], [3, 2], [4, 2]]) ∧ g.nodes.length = 5 :=
  have h1 : IsDeclBatch exPathBatch exPath token.Position.zero :=
    ⟨_, _, rfl, rfl, rfl, rfl, rfl, rfl, rfl, by decide⟩
  have h2 : IsDeclBatch exPosBatch ObjectPath.zero exPos :=
    ⟨_, _, rfl, rfl, rfl, rfl, rfl, rfl, rfl, by decide⟩
  have h3 : IsDeclBatch exBatch exPath exPos :=
    ⟨_, _, rfl, rfl, rfl, rfl, rfl, rfl, rfl, by decide⟩
  ⟨h1, h2, h3, (merge_dedup_orders exPath exPos token.Position.zero (by decide) (by decide)
    rfl exPathBatch exPosBatch exBatch h1 h2 h3).1⟩

/-- Counterexample to C1 as stated: merged in the order path-only, position-only, both,
the three declaration nodes (local id 1) are remapped to the canonical ids 2, 4 and 2,
and the graph ends with two nodes for the declaration (6 nodes in all). -/
theorem merge_dedup_order_counterexample :
    ∃ g rs, mergeAllRemap SerializedGraph.empty [exPathBatch, exPosBatch, exBatch] =
        .ok (g, rs) ∧ rs.map (fun rm => rm.getD 1 0) = [2, 4, 2] ∧ g.nodes.length = 6 ∧
      (g.nodes.filter (fun n => decide (n.Obj.Name = "T"))).length = 2 :=
  ⟨_, _, rfl, rfl, rfl, rfl⟩

/-- C2, as amended (merging the canonical output back in): a well-formed partial graph
is merged into a fresh graph, which completes, and the node list of that graph is then
handed to `Merge` of the same graph.  Under every memory layout the call does not
complete with the node count unchanged: if it completes, there is exactly one node more.
If the batch root is identity-less, the call aborts with the no-identity panic (the
canonical copy of that root has id 1 and no identity).  If the batch root carries a
stable path or a genuine column, the first pass appends one node, a copy of canonical
node 0, and remaps every other canonical node to itself; when the node slice has a free
element behind it, the second pass then reads back the root edge that the first pass
has written and the call aborts with an index-out-of-range panic, and when it has none
the call completes. -/
theorem merge_own_output (batch : List Node) (hwf : WellFormedBatch batch) :
    ∃ g1, Merge SerializedGraph.empty batch = .ok g1 ∧
      (∀ lay g2 rm, mergeOwn lay g1 = .ok (g2, rm) →
        g2.nodes.length = g1.nodes.length + 1) ∧
      ((∀ r, batch[0]? = some r → ¬ r.Obj.Identified) →
        ∀ lay, ∃ name, mergeOwn lay g1 = .error (.noIdentity name)) ∧
      ((∀ r, batch[0]? = some r → r.Obj.Identified) →
        (∀ lay : Layout, 0 < lay.spare → mergeOwn lay g1 = .error .indexOutOfRange) ∧
        (∀ lay : Layout, lay.spare = 0 → ∃ g2 rm, mergeOwn lay g1 = .ok (g2, rm) ∧
          g2.nodes.length = g1.nodes.length + 1 ∧ rm[0]? = some g1.nodes.length ∧
          ∀ i : Nat, 1 ≤ i → i < g1.nodes.length → rm[i]? = some i)) := by
  obtain ⟨g1, rm1, hm1, _, _, _, r, nd, hr, hnd, hobj⟩ :=
    mergeRemap_fresh_root inv_empty hwf (freshRoot_empty hwf.2.1)
  have hI1 : Inv g1 := mergeRemap_inv inv_empty hm1
  have hne1 : g1.nodes ≠ [] := (mergeRemap_grows hm1).2
  have hep1 : EdgesPos g1.nodes := mergeRemap_edgesPos hwf hm1
  have hbare : (∀ r, batch[0]? = some r → ¬ r.Obj.Identified) →
      ∀ lay, ∃ name, mergeOwn lay g1 = .error (.noIdentity name) := by
    intro hroot lay
    have hL : (seedRoot SerializedGraph.empty).nodes.length = 1 := rfl
    rw [hL] at hnd
    have hbad : nd.Bad := by
      have hnid := hroot r hr
      rw [← hobj] at hnid
      refine ⟨by rw [hI1.dense 1 nd hnd]; exact Nat.one_ne_zero, ?_, ?_⟩
      · by_contra h
        exact hnid (Or.inl h)
      · by_contra h
        exact hnid (Or.inr h)
    obtain ⟨n, _, _, he⟩ := pass1_error g1.nodes (seedRoot g1)
      (List.replicate g1.nodes.length 0)
      (fun m hm => by rw [List.length_replicate]; exact (inv_batchInRange hI1 m hm).1)
      ⟨nd, List.mem_iff_getElem?.mpr ⟨1, hnd⟩, hbad⟩
    refine ⟨n.Obj.Name, ?_⟩
    unfold mergeOwn
    rw [pass1Own_error g1.nodes _ _ _ _ he]
  have hrooted : (∀ r, batch[0]? = some r → r.Obj.Identified) →
      (∀ lay : Layout, 0 < lay.spare → mergeOwn lay g1 = .error .indexOutOfRange) ∧
      (∀ lay : Layout, lay.spare = 0 → ∃ g2 rm, mergeOwn lay g1 = .ok (g2, rm) ∧
        g2.nodes.length = g1.nodes.length + 1 ∧ rm[0]? = some g1.nodes.length ∧
        ∀ i : Nat, 1 ≤ i → i < g1.nodes.length → rm[i]? = some i) := by
    intro hroot
    have hid : ∀ n ∈ batch, n.Obj.Identified := by
      intro n hn
      obtain ⟨i, hi⟩ := List.mem_iff_getElem?.mp hn
      have hni := (wellFormed_ids hwf).2 i n hi
      by_cases h0 : i = 0
      · subst h0
        exact hroot n hi
      · exact identified_of_not_bad (hwf.2.2.1 n hn) (by rw [hni]; exact h0)
    have hS1 := mergeRemap_selfRegistered selfRegistered_empty hid hm1
    refine ⟨fun lay hs => (mergeOwn_own_nodes hI1 hS1 hne1 hep1 lay).1 hs, fun lay hs => ?_⟩
    obtain ⟨g2, rm, hm2, h1, h2, h3⟩ := mergeRemap_own_nodes hI1 hS1 hne1
    exact ⟨g2, rm, by rw [(mergeOwn_own_nodes hI1 hS1 hne1 hep1 lay).2 hs, hm2], h1, h2, h3⟩
  refine ⟨g1, by simp only [Merge, hm1], fun lay g2 rm h => ?_, hbare, hrooted⟩
  by_cases hrid : r.Obj.Identified
  · have hroot : ∀ r2, batch[0]? = some r2 → r2.Obj.Identified := by
      intro r2 hr2
      rw [hr] at hr2
      cases hr2
      exact hrid
    obtain ⟨hA, hB⟩ := hrooted hroot
    by_cases hs : 0 < lay.spare
    · rw [hA lay hs] at h
      cases h
    · obtain ⟨g3, rm3, h3, hlen, _⟩ := hB lay (by omega)
      rw [h3] at h
      cases h
      exact hlen
  · have hroot : ∀ r2, batch[0]? = some r2 → ¬ r2.Obj.Identified := by
      intro r2 hr2
      rw [hr] at hr2
      cases hr2
      exact hrid
    obtain ⟨name, he⟩ := hbare hroot lay
    rw [he] at h
    cases h

/-- Witness for C2 as amended: `exRootedBatch`, whose root carries a stable path. -/
theorem merge_own_output_witness :
    WellFormedBatch exRootedBatch ∧
    ∃ g1, Merge SerializedGraph.empty exRootedBatch = .ok g1 ∧
      ∀ lay g2 rm, mergeOwn lay g1 = .ok (g2, rm) →
        g2.nodes.length = g1.nodes.length + 1 := by
  have hwf : WellFormedBatch exRootedBatch := by decide
  obtain ⟨g1, h1, h2, _⟩ := merge_own_output exRootedBatch hwf
  exact ⟨hwf, g1, h1, h2⟩

/-- Counterexample to C2 as stated: for the well-formed `exBatch` (identity-less root)
the call on the graph's own node list aborts with the no-identity panic, with or without
a free element behind the node slice; for the well-formed `exRootedBatch`, whose merge
leaves 3 canonical nodes, it aborts with an index-out-of-range panic when the node slice
has a free element, and otherwise completes with 4 nodes. -/
theorem merge_own_output_counterexample :
    WellFormedBatch exBatch ∧
    (∃ g1, Merge SerializedGraph.empty exBatch = .ok g1 ∧
      mergeOwn (exLayout 0) g1 = .error (.noIdentity "") ∧
      mergeOwn (exLayout 1) g1 = .error (.noIdentity "")) ∧
    WellFormedBatch exRootedBatch ∧
    ∃ g1, Merge SerializedGraph.empty exRootedBatch = .ok g1 ∧ g1.nodes.length = 3 ∧
      mergeOwn (exLayout 1) g1 = .error .indexOutOfRange ∧
      ∃ g2, mergeOwn (exLayout 0) g1 = .ok (g2, [3, 1, 2]) ∧ g2.nodes.length = 4 :=
  ⟨by decide, ⟨_, rfl, rfl, rfl⟩, by decide, _, rfl, rfl, rfl, _, rfl, rfl⟩

/-- C3 (root fan-out): for every sequence of `N` well-formed partial graphs merged into
a fresh graph, the root of each being new at the moment of its merge (identity-less, or
with identities not recorded before), all merges complete and canonical node 0 ends with
exactly `N` `uses` entries; the `k`-th is the table entry of local id 0 of the `k`-th
batch, a canonical node that holds the object of that batch root, and the entries are
strictly increasing (hence pairwise distinct). -/
theorem merge_root_fanout (batches : List (List Node))
    (hwf : ∀ b ∈ batches, WellFormedBatch b)
    (hfresh : FreshRoots SerializedGraph.empty batches) :
    ∃ g rs, mergeAllRemap SerializedGraph.empty batches = .ok (g, rs) ∧
      mergeAll SerializedGraph.empty batches = .ok g ∧
      (rootUses g).length = batches.length ∧
      rootUses g = rs.map (fun rm => rm.getD 0 0) ∧
      (rootUses g).Pairwise (fun a b => a < b) ∧
      ∀ (k : Nat) (b : List Node) (rm : List Nat), batches[k]? = some b → rs[k]? = some rm →
        ∃ r nd, b[0]? = some r ∧ g.nodes[rm.getD 0 0]? = some nd ∧ nd.Obj = r.Obj := by
  obtain ⟨g, rs, hm, hlen, hroot, _, hpw, _, hobjs⟩ :=
    mergeAllRemap_fanout batches SerializedGraph.empty inv_empty hwf hfresh
  have hroot2 : rootUses g = rs.map (fun rm => remapOf rm 0) := by
    rw [hroot]
    rfl
  refine ⟨g, rs, hm, mergeAllRemap_fst batches hm, ?_, hroot2, ?_, hobjs⟩
  · rw [hroot2, List.length_map, hlen]
  · rw [hroot2]
    exact hpw

/-- Witness for C3: `exBatch` merged twice; its identity-less root is new each time. -/
theorem merge_root_fanout_witness :
    (∀ b ∈ [exBatch, exBatch], WellFormedBatch b) ∧
    FreshRoots SerializedGraph.empty [exBatch, exBatch] ∧
    ∃ g rs, mergeAllRemap SerializedGraph.empty [exBatch, exBatch] = .ok (g, rs) ∧
      (rootUses g).length = 2 := by
  have hwf : ∀ b ∈ [exBatch, exBatch], WellFormedBatch b := by decide
  have hfresh : FreshRoots SerializedGraph.empty [exBatch, exBatch] :=
    ⟨rfl, rfl, trivial⟩
  obtain ⟨g, rs, h1, _, h3, _⟩ := merge_root_fanout [exBatch, exBatch] hwf hfresh
  exact ⟨hwf, hfresh, g, rs, h1, h3⟩

/-- C4 (dense ids): after any sequence of completed `Merge` calls on a fresh
`SerializedGraph`, the node stored at every index `i` below the node count has `ID = i`,
and, as soon as one call has completed, node 0 exists. -/
theorem merge_ids_dense (batches : List (List Node)) (g : SerializedGraph)
    (h : mergeAll SerializedGraph.empty batches = .ok g) :
    (batches ≠ [] → ∃ root, g.nodes[0]? = some root) ∧
    (∀ (i : Nat) (hi : i < g.nodes.length), g.nodes[i].ID = i) := by
  refine ⟨fun hne => ?_, fun i hi => ?_⟩
  · have hpos : 0 < g.nodes.length := List.length_pos.mpr ((mergeAll_grows batches h).2 hne)
    exact ⟨g.nodes[0], List.getElem?_eq_getElem hpos⟩
  · exact (mergeAll_inv batches inv_empty h).dense i _ (List.getElem?_eq_getElem hi)

/-- Witness for C4: one completed `Merge` of `exBatch` into a fresh graph. -/
theorem merge_ids_dense_witness :
    ∃ g, mergeAll SerializedGraph.empty [exBatch] = .ok g ∧
      ([exBatch] ≠ [] → ∃ root, g.nodes[0]? = some root) ∧
      (∀ (i : Nat) (hi : i < g.nodes.length), g.nodes[i].ID = i) := by
  obtain ⟨g, hg⟩ : ∃ g, mergeAll SerializedGraph.empty [exBatch] = .ok g := ⟨_, rfl⟩
  exact ⟨g, hg, merge_ids_dense [exBatch] g hg⟩

/-- C5 (merge only grows the graph): for every graph and every batch on which `Merge`
completes, the node count does not decrease, and every node that existed before the call
keeps its `ID` and its `Obj`, its previous `Uses` and `Owns` lists being initial segments
of the lists after the call. -/
theorem merge_only_grows (g g2 : SerializedGraph) (batch : List Node)
    (h : Merge g batch = .ok g2) :
    g.nodes.length ≤ g2.nodes.length ∧
    ∀ (i : Nat) (a : Node), g.nodes[i]? = some a →
      ∃ b : Node, g2.nodes[i]? = some b ∧ b.ID = a.ID ∧ b.Obj = a.Obj ∧
        a.Uses <+: b.Uses ∧ a.Owns <+: b.Owns := by
  obtain ⟨rm, hm⟩ := Merge_eq_ok.mp h
  exact (mergeRemap_grows hm).1

/-- Witness for C5: `exBatch` merged a second time into the graph it has produced. -/
theorem merge_only_grows_witness :
    ∃ g g2, Merge SerializedGraph.empty exBatch = .ok g ∧ Merge g exBatch = .ok g2 ∧
      g.nodes.length ≤ g2.nodes.length ∧
      ∀ (i : Nat) (a : Node), g.nodes[i]? = some a →
        ∃ b : Node, g2.nodes[i]? = some b ∧ b.ID = a.ID ∧ b.Obj = a.Obj ∧
          a.Uses <+: b.Uses ∧ a.Owns <+: b.Owns := by
  obtain ⟨g, hg⟩ : ∃ g, Merge SerializedGraph.empty exBatch = .ok g := ⟨_, rfl⟩
  obtain ⟨g2, hg2⟩ : ∃ g2, Merge g exBatch = .ok g2 := by
    have hI : Inv g := reachable_inv ⟨[exBatch], by simp only [mergeAll, hg]⟩
    obtain ⟨g2, rm, h2⟩ := @mergeRemap_total g exBatch hI (by decide) (by decide)
    exact ⟨g2, by simp only [Merge, h2]⟩
  exact ⟨g, g2, hg, hg2, merge_only_grows g g2 exBatch hg2⟩

/-- C6 (fatal input check): on a canonical graph, for every batch whose local ids and
edge entries are in range, `Merge` aborts if and only if the batch contains a node whose
local id is not 0, whose stable path is empty and whose column is 0; the abort is then
the explicit panic for the first such node, and otherwise `Merge` completes.  A node with
local id 0 and neither identity is not such a node. -/
theorem merge_panics_iff (g : SerializedGraph) (batch : List Node) (hg : Reachable g)
    (hb : BatchInRange batch) :
    ((∃ e, Merge g batch = .error e) ↔
      ∃ n ∈ batch, n.ID ≠ 0 ∧ n.Obj.Path = ObjectPath.zero ∧ n.Obj.Position.Column = 0) ∧
    (∀ e, Merge g batch = .error e → ∃ n ∈ batch, n.Bad ∧ e = .noIdentity n.Obj.Name) ∧
    ((∀ n ∈ batch, n.Obj.Path = ObjectPath.zero ∧ n.Obj.Position.Column = 0 → n.ID = 0) →
      ∃ g2, Merge g batch = .ok g2) := by
  have hcases : (∃ n ∈ batch, n.Bad ∧ Merge g batch = .error (.noIdentity n.Obj.Name)) ∨
      ((∀ n ∈ batch, ¬ n.Bad) ∧ ∃ g2, Merge g batch = .ok g2) := by
    by_cases hbad : ∃ n ∈ batch, n.Bad
    · obtain ⟨n, hn, hnb, he⟩ := mergeRemap_error (g := g) hb hbad
      exact Or.inl ⟨n, hn, hnb, by simp only [Merge, he]⟩
    · have hbad2 : ∀ n ∈ batch, ¬ n.Bad := fun n hn hnb => hbad ⟨n, hn, hnb⟩
      obtain ⟨g2, rm, h2⟩ := mergeRemap_total (reachable_inv hg) hb hbad2
      exact Or.inr ⟨hbad2, g2, by simp only [Merge, h2]⟩
  refine ⟨⟨?_, ?_⟩, ?_, ?_⟩
  · rintro ⟨e, he⟩
    rcases hcases with ⟨n, hn, hnb, _⟩ | ⟨_, g2, h2⟩
    · exact ⟨n, hn, hnb⟩
    · rw [h2] at he
      cases he
  · rintro ⟨n, hn, hnb⟩
    rcases hcases with ⟨m, _, _, he⟩ | ⟨hbad2, _⟩
    · exact ⟨_, he⟩
    · exact absurd hnb (hbad2 n hn)
  · intro e he
    rcases hcases with ⟨n, hn, hnb, he2⟩ | ⟨_, g2, h2⟩
    · rw [he2] at he
      cases he
      exact ⟨n, hn, hnb, rfl⟩
    · rw [h2] at he
      cases he
  · intro hroot
    rcases hcases with ⟨n, hn, hnb, _⟩ | ⟨_, h2⟩
    · exact absurd (hroot n hn hnb.2) hnb.1
    · exact h2

/-- Witness for C6: the batch `exBadBatch`, whose node 1 has no identity, on the fresh
graph. -/
theorem merge_panics_iff_witness :
    Reachable SerializedGraph.empty ∧ BatchInRange exBadBatch ∧
    ((∃ e, Merge SerializedGraph.empty exBadBatch = .error e) ↔
      ∃ n ∈ exBadBatch,
        n.ID ≠ 0 ∧ n.Obj.Path = ObjectPath.zero ∧ n.Obj.Position.Column = 0) :=
  ⟨⟨[], rfl⟩, by decide,
    (merge_panics_iff SerializedGraph.empty exBadBatch ⟨[], rfl⟩ (by decide)).1⟩

/-- C7 (stable path before position): one iteration of the first pass, for an incoming
node `n` that passes the identity check and whose local id is in range, writes into the
table entry of `n` (1) the id `a` recorded for the stable path of `n`, whatever the
position table holds; (2) when the path is not recorded, the id `b` recorded for the
position of `n`, provided the column is not 0; (3) otherwise the current node count,
the id of the node it appends for the object of `n`.  Cases (1) and (2) leave the graph
unchanged.  For a whole `Merge` of a batch with pairwise distinct local ids on a canonical
graph, a node whose path is recorded for `a` before the call has table entry `a`. -/
theorem merge_path_precedence :
    (∀ (g : SerializedGraph) (rm : List Nat) (n : Node), n.ID < rm.length → ¬ n.Bad →
      (∀ a, g.nodesByPath n.Obj.Path = some a → resolve g rm n = .ok (g, rm.set n.ID a)) ∧
      (∀ b, g.nodesByPath n.Obj.Path = none → n.Obj.Position.Column ≠ 0 →
        g.nodesByPosition n.Obj.Position = some b → resolve g rm n = .ok (g, rm.set n.ID b)) ∧
      (g.nodesByPath n.Obj.Path = none →
        n.Obj.Position.Column = 0 ∨ g.nodesByPosition n.Obj.Position = none →
        ∃ g1, resolve g rm n = .ok (g1, rm.set n.ID g.nodes.length) ∧
          g1.nodes.length = g.nodes.length + 1 ∧
          (g.nodes ≠ [] → ∃ b : Node, g1.nodes[g.nodes.length]? = some b ∧
            b.ID = g.nodes.length ∧ b.Obj = n.Obj))) ∧
    (∀ (g g2 : SerializedGraph) (batch : List Node) (rm : List Nat) (n : Node) (a : Nat),
      Reachable g → (batch.map Node.ID).Nodup → mergeRemap g batch = .ok (g2, rm) →
      n ∈ batch → g.nodesByPath n.Obj.Path = some a → rm[n.ID]? = some a) := by
  refine ⟨fun g rm n hid hbad => ⟨fun a ha => ?_, fun b hp hcol hq => ?_, fun hp hq => ?_⟩,
    fun g g2 batch rm n a hg hnd hm hn ha => ?_⟩
  · exact resolve_of_hit hbad hid (lookupIdentity_of_path ha)
  · exact resolve_of_hit hbad hid (by simp [lookupIdentity, hp, hcol, hq])
  · have hmiss : lookupIdentity g n = none := by
      rcases hq with hq | hq
      · simp [lookupIdentity, hp, hq]
      · simp [lookupIdentity, hp, hq]
    obtain ⟨g1, h1⟩ := allocate_ok g hid
    refine ⟨g1, by rw [resolve_of_miss hbad hmiss]; exact h1, (allocate_nodes h1).1, ?_⟩
    intro hne
    have hpos : 0 < g.nodes.length := List.length_pos.mpr hne
    obtain ⟨_, _, _, _, hn⟩ := allocate_eq_ok h1
    have hfresh : (g.nodes ++ [freshNode g n])[g.nodes.length]? = some (freshNode g n) := by
      simp
    rcases hn with ⟨_, hn⟩ | ⟨_, nd, _, hn⟩
    · exact ⟨freshNode g n, by rw [hn]; exact hfresh, rfl, rfl⟩
    · refine ⟨freshNode g n, ?_, rfl, rfl⟩
      rw [hn, List.getElem?_set_ne (by omega)]
      exact hfresh
  · obtain ⟨g1, h1, _, _, _⟩ := mergeRemap_eq_ok hm
    obtain ⟨g0, rm0, _, hle, _, _, _, hrm⟩ :=
      pass1_trace batch (seedRoot_pass1Inv (reachable_inv hg) batch.length) hnd h1 n hn
    have ha0 : g0.nodesByPath n.Obj.Path = some a := by
      apply hle.1
      rw [(seedRoot_tables g).1]
      exact ha
    rw [hrm, lookupIdentity_of_path ha0]
    rfl

/-- Witness for C7: on `exTwoGraph` the path of the incoming node is recorded for node 1
and its position for node 2; the table entry becomes 1. -/
theorem merge_path_precedence_witness :
    exTwoGraph.nodesByPath exPath = some 1 ∧ exTwoGraph.nodesByPosition exPos = some 2 ∧
    resolve exTwoGraph [0, 0] ⟨1, ⟨"T", exPath, exPos⟩, [], []⟩ = .ok (exTwoGraph, [0, 1]) :=
  ⟨rfl, rfl,
    (merge_path_precedence.1 exTwoGraph [0, 0] ⟨1, ⟨"T", exPath, exPos⟩, [], []⟩ (by decide)
      (by decide)).1 1 rfl⟩

/-- C8 (edge rewrite): when `Merge` completes, the second pass keeps the node count, and
for every canonical id `c` the `Uses` list of `c` after the call is its `Uses` list after
the first pass followed, for each batch node `n` in batch order whose table entry is
`c`, by `n.Uses` sent through the table of the first pass; likewise for `Owns`.  Every
table read is in range, so `rm.getD u 0` is the table entry `rm[u]`. -/
theorem merge_edge_rewrite (g g1 g2 : SerializedGraph) (batch : List Node) (rm : List Nat)
    (h1 : pass1 (seedRoot g) (List.replicate batch.length 0) batch = .ok (g1, rm))
    (h : Merge g batch = .ok g2) :
    (∀ n ∈ batch, n.ID < rm.length ∧ (∀ u ∈ n.Uses, u < rm.length) ∧
      (∀ u ∈ n.Owns, u < rm.length)) ∧
    g2.nodes.length = g1.nodes.length ∧
    ∀ (c : Nat) (a : Node), g1.nodes[c]? = some a → ∃ b : Node, g2.nodes[c]? = some b ∧
      b.Uses = a.Uses ++ (batch.filter (fun n => decide (rm.getD n.ID 0 = c))).flatMap
        (fun n => n.Uses.map (fun u => rm.getD u 0)) ∧
      b.Owns = a.Owns ++ (batch.filter (fun n => decide (rm.getD n.ID 0 = c))).flatMap
        (fun n => n.Owns.map (fun u => rm.getD u 0)) := by
  obtain ⟨rm2, hm⟩ := Merge_eq_ok.mp h
  obtain ⟨g3, h3, ns2, h2, e⟩ := mergeRemap_eq_ok hm
  rw [h1] at h3
  cases h3
  obtain ⟨hlen, hspec⟩ := pass2_spec batch h2
  refine ⟨pass2_inRange batch h2, by rw [e]; exact hlen, fun c a ha => ?_⟩
  rw [e]
  exact ⟨_, hspec c a ha, rfl, rfl⟩

/-- Witness for C8: `exBatch` merged into a fresh graph. -/
theorem merge_edge_rewrite_witness :
    ∃ g1 g2 rm, pass1 (seedRoot SerializedGraph.empty) (List.replicate exBatch.length 0)
        exBatch = .ok (g1, rm) ∧
      Merge SerializedGraph.empty exBatch = .ok g2 ∧ g2.nodes.length = g1.nodes.length := by
  obtain ⟨g1, rm, h1⟩ : ∃ g1 rm, pass1 (seedRoot SerializedGraph.empty)
      (List.replicate exBatch.length 0) exBatch = .ok (g1, rm) := ⟨_, _, rfl⟩
  obtain ⟨g2, h2⟩ : ∃ g2, Merge SerializedGraph.empty exBatch = .ok g2 := ⟨_, rfl⟩
  exact ⟨g1, g2, rm, h1, h2,
    (merge_edge_rewrite SerializedGraph.empty g1 g2 exBatch rm h1 h2).2.1⟩

/-- C9 (selection is inclusion-rule reachability): on every well-formed graph, with a
recursion budget above the node count, the seeding loop of `yoink` returns, and its
`seen` set contains every seed (node whose name is a target), is closed under the rule
"if `n` is in the set and has a `uses` edge to a node `u` that is unexported or named by
a target, then `u` and every method node of the named type of `u` are in the set", and
is contained in every set with these two properties.  In the example (unexported `a`
uses exported `X`, `X` uses unexported `y`) the targets `a`, `X` give exactly the three
nodes `a`, `X`, `y`. -/
theorem select_least_closed :
    (∀ (env : Env) (nodes : List Node) (targets : List String) (fuel : Nat),
      GraphWellFormed env nodes → nodes.length < fuel →
      ∃ seen, yoinkSeen env nodes targets fuel = .ok seen ∧
        (∀ i, Seed nodes targets i → i ∈ seen) ∧
        Closed env nodes targets (fun i => i ∈ seen) ∧
        ∀ S : Nat → Prop, (∀ i, Seed nodes targets i → S i) → Closed env nodes targets S →
          ∀ i ∈ seen, S i) ∧
    (∃ seen, yoinkSeen exChainEnv exChain ["a", "X"] 5 = .ok seen ∧
      ∀ i, i ∈ seen ↔ (i = 1 ∨ i = 2 ∨ i = 3)) := by
  refine ⟨fun env nodes targets fuel hwf hfuel => ?_, ⟨[3, 2, 1], rfl, fun i => ?_⟩⟩
  · obtain ⟨seen, h, hiff⟩ := @yoinkSeen_spec env nodes targets hwf fuel hfuel
    refine ⟨seen, h, fun i hi => (hiff i).mpr (Selected.seed hi), ?_, ?_⟩
    · intro n nd hn hnd u hu hinc
      obtain ⟨h1, h2⟩ := selected_closed env nodes targets n nd ((hiff n).mp hn) hnd u hu hinc
      exact ⟨(hiff u).mpr h1, fun v hv => (hiff v).mpr (h2 v hv)⟩
    · intro S hseed hclosed i hi
      exact selected_least hseed hclosed ((hiff i).mp hi)
  · simp only [List.mem_cons, List.mem_singleton, List.not_mem_nil, or_false]
    constructor
    · rintro (h | h | h)
      · exact Or.inr (Or.inr h)
      · exact Or.inr (Or.inl h)
      · exact Or.inl h
    · rintro (h | h | h)
      · exact Or.inr (Or.inr h)
      · exact Or.inr (Or.inl h)
      · exact Or.inl h

/-- Witness for C9: the example graph with the targets `a` and `X`. -/
theorem select_least_closed_witness :
    GraphWellFormed exChainEnv exChain ∧ exChain.length < 5 ∧
    ∃ seen, yoinkSeen exChainEnv exChain ["a", "X"] 5 = .ok seen ∧
      (∀ i, Seed exChain ["a", "X"] i → i ∈ seen) :=
  have hwf : GraphWellFormed exChainEnv exChain := by decide
  have hlt : exChain.length < 5 := by decide
  ⟨hwf, hlt, (select_least_closed.1 exChainEnv exChain ["a", "X"] 5 hwf hlt).imp
    (fun _ h => ⟨h.1, h.2.1⟩)⟩

/-- C10 (visibility boundary) fails on the code: in `exMethod` the unexported target `a`
uses the unexported named type `t`, whose method `M` is exported and not a target; the
selection marks the node of `M` (id 3) in `seen`, next to the nodes of `a` and `t`.  The
method loop of lines 391-397 walks every method node of a touched named type without the
test that line 385 makes on a `uses` entry.  In the example of the claim (unexported `a`
uses exported `X`, `X` uses unexported `y`), where no method is involved, the target `a`
gives the node of `a` alone. -/
theorem walk_marks_exported_method :
    GraphWellFormed exMethodEnv exMethod ∧
    yoinkSeen exMethodEnv exMethod ["a"] 5 = .ok [2, 3, 1] ∧
    identOf exMethodEnv exMethod 3 = some ⟨30, "M"⟩ ∧
    IsExported exMethodEnv "M" = true ∧ "M" ∉ ["a"] ∧
    MethodOf exMethodEnv exMethod 2 3 ∧
    yoinkSeen exChainEnv exChain ["a"] 5 = .ok [1] :=
  ⟨by decide, rfl, by decide, by decide, by decide,
    ⟨⟨20, "t"⟩, [exDeclPos 3], rfl, rfl,
      ⟨3, ⟨"M", ObjectPath.zero, exDeclPos 3⟩, [], []⟩, by decide, by decide, rfl⟩, rfl⟩

/-- C11 (method-following for a target type) fails on the code: in the graph `exType`
the named type `T` owns the methods `M1` (id 2) and `M2` (id 3), which no declaration
references, and the selection for the target `T` returns the `seen` set holding the node
of `T` alone; the same holds when `T` also lists its methods as `uses` entries, the
methods being exported.  The methods of `T` are followed only where `T` is reached over
a `uses` edge: with the function `f`, which uses `T`, as a second target, both methods
are in `seen`. -/
theorem select_target_type_methods :
    GraphWellFormed exTypeEnv exType ∧ GraphWellFormed exTypeEnv exTypeRefs ∧
    MethodOf exTypeEnv exType 1 2 ∧ MethodOf exTypeEnv exType 1 3 ∧
    (∀ n ∈ exType, 2 ∉ n.Uses ∧ 3 ∉ n.Uses) ∧
    yoinkSeen exTypeEnv exType ["T"] 6 = .ok [1] ∧
    yoinkSeen exTypeEnv exTypeRefs ["T"] 6 = .ok [1] ∧
    yoinkSeen exTypeEnv exType ["T", "f"] 6 = .ok [3, 2, 4, 1] := by
  refine ⟨by decide, by decide, ?_, ?_, by decide, rfl, rfl, rfl⟩
  · exact ⟨⟨10, "T"⟩, [exDeclPos 2, exDeclPos 3], rfl, rfl,
      ⟨2, ⟨"M1", ObjectPath.zero, exDeclPos 2⟩, [1], []⟩, by decide, by decide, rfl⟩
  · exact ⟨⟨10, "T"⟩, [exDeclPos 2, exDeclPos 3], rfl, rfl,
      ⟨3, ⟨"M2", ObjectPath.zero, exDeclPos 3⟩, [1], []⟩, by decide, by decide, rfl⟩

/-- C12 (cycle termination): on every well-formed graph, for every valid start node,
every initial `seen` set and every target set, `walk` returns, and with the same result
for every recursion budget above the node count.  The result is the initial `seen` set
with new ids put in front; `walk` puts an id in front exactly when it expands that node,
and these ids are pairwise distinct, valid and not in the initial set, so each node is
expanded at most once.  For unexported `a` using `b` and unexported `b` using `a`, the
target `a` gives exactly the nodes `a` and `b`. -/
theorem walk_terminates :
    (∀ (env : Env) (nodes : List Node) (targets : List String) (n : Nat) (s : List Nat),
      GraphWellFormed env nodes → n < nodes.length →
      ∃ added, (∀ fuel, nodes.length < fuel →
          walk env nodes targets fuel n s = .ok (added ++ s)) ∧
        added.Nodup ∧ (∀ x ∈ added, x ∉ s ∧ x < nodes.length) ∧ n ∈ added ++ s) ∧
    (∃ seen, yoinkSeen exCycleEnv exCycle ["a"] 4 = .ok seen ∧
      ∀ i, i ∈ seen ↔ (i = 1 ∨ i = 2)) := by
  refine ⟨fun env nodes targets n s hwf hn => ?_, ⟨[2, 1], rfl, fun i => ?_⟩⟩
  · have hk : (unseen nodes.length s).card < nodes.length + 1 := by
      refine Nat.lt_succ_of_le ?_
      have := Finset.card_filter_le (Finset.range nodes.length) (fun i => i ∉ s)
      simpa [unseen] using this
    obtain ⟨added, h, ha, hmem⟩ := @walk_total env nodes targets hwf (nodes.length + 1) n s hn hk
    exact ⟨added, fun fuel hf => walk_fuel_le (Nat.succ_le_of_lt hf) n s _ h, ha.1, ha.2, hmem⟩
  · simp only [List.mem_cons, List.mem_singleton, List.not_mem_nil, or_false]
    exact Or.comm

/-- Witness for C12: the walk from node `a` of the cyclic example, with node 0 already
seen. -/
theorem walk_terminates_witness :
    GraphWellFormed exCycleEnv exCycle ∧ 1 < exCycle.length ∧
    ∃ added, (∀ fuel, exCycle.length < fuel →
        walk exCycleEnv exCycle ["a"] fuel 1 [0] = .ok (added ++ [0])) ∧ added.Nodup :=
  have hwf : GraphWellFormed exCycleEnv exCycle := by decide
  have hlt : 1 < exCycle.length := by decide
  ⟨hwf, hlt, (walk_terminates.1 exCycleEnv exCycle ["a"] 1 [0] hwf hlt).imp
    (fun _ h => ⟨h.1, h.2.1⟩)⟩

/-- C13, as amended (an unmatched target is a silent no-op): for every graph, every target
set `T` and every name `x` that is neither the `Obj.Name` of a node of the graph nor the
identifier at the position of a node, the selection for `T` plus `x` gives the very
result of the selection for `T`; and when no node is named by a target the selection
returns the empty `seen` set, without a panic. -/
theorem select_unmatched_target (env : Env) (nodes : List Node) (T T2 : List String)
    (x : String) (fuel : Nat) (hT2 : ∀ y, y ∈ T2 ↔ y = x ∨ y ∈ T)
    (hname : ∀ n ∈ nodes, n.Obj.Name ≠ x)
    (hid : ∀ u id, identOf env nodes u = some id → id.Name ≠ x) :
    yoinkSeen env nodes T2 fuel = yoinkSeen env nodes T fuel ∧
    ((∀ n ∈ nodes, n.Obj.Name ∉ T) →
      yoinkSeen env nodes T fuel = .ok [] ∧ yoinkSeen env nodes T2 fuel = .ok []) := by
  have hA : ∀ u id, identOf env nodes u = some id → (id.Name ∈ T2 ↔ id.Name ∈ T) := by
    intro u id h
    rw [hT2]
    exact ⟨fun h2 => h2.resolve_left (hid u id h), Or.inr⟩
  have hN : ∀ n ∈ nodes, (n.Obj.Name ∈ T2 ↔ n.Obj.Name ∈ T) := by
    intro n hn
    rw [hT2]
    exact ⟨fun h2 => h2.resolve_left (hname n hn), Or.inr⟩
  have heq : yoinkSeen env nodes T2 fuel = yoinkSeen env nodes T fuel :=
    walkTargets_congr hA fuel nodes [] hN
  refine ⟨heq, fun hno => ?_⟩
  have h0 : yoinkSeen env nodes T fuel = .ok [] := walkTargets_no_seed fuel nodes [] hno
  exact ⟨h0, heq.trans h0⟩

/-- Witness for C13: the example graph with the target `a` and the unmatched name `zz`. -/
theorem select_unmatched_target_witness :
    yoinkSeen exChainEnv exChain ["zz", "a"] 5 = yoinkSeen exChainEnv exChain ["a"] 5 ∧
    yoinkSeen exChainEnv exChain ["a"] 5 = .ok [1] :=
  ⟨(select_unmatched_target exChainEnv exChain ["a"] ["zz", "a"] "zz" 5
      (fun y => by simp) (by decide)
      (fun u id h => by
        have key : ∀ v < exChain.length,
            (identOf exChainEnv exChain v).all (fun i => decide (i.Name ≠ "zz")) = true := by
          decide
        have h2 := key u (identOf_lt h)
        rw [h] at h2
        simpa using h2)).1, rfl⟩

/-- Counterexample to C13 as stated: in `exQualified` no node has the name `M`, yet the
identifier at the position of the method node `T.M` is `M`; the selection for `a` gives
the node of `a` alone, the selection for `a` plus `M` also the nodes of `T.M` and `y`,
because line 385 tests the target set at the identifier. -/
theorem select_unmatched_target_counterexample :
    (∀ n ∈ exQualified, n.Obj.Name ≠ "M") ∧
    identOf exQualifiedEnv exQualified 2 = some ⟨20, "M"⟩ ∧
    yoinkSeen exQualifiedEnv exQualified ["a"] 5 = .ok [1] ∧
    yoinkSeen exQualifiedEnv exQualified ["M", "a"] 5 = .ok [3, 2, 1] :=
  ⟨by decide, by decide, rfl, rfl⟩

/-- C14 (concrete-type matching): for every non-empty interface `T` and concrete `V`
with method set `msV`, `implements` returns `ok = true` if and only if for every method
`m` of `T` the lookup of the package and the name of `m` in `msV` finds a selection of a
function whose type is identical to the type of `m`; on success the bindings are, in the
method order of `T`, the selections found for the methods of `T`, one per method, and on
failure the bindings list is empty.  For the interface with the one method `Read` and a
`V` with a matching `Read` the result is the one binding and `true`; with another
parameter type in the `Read` of `V` the result is `false`. -/
theorem implements_concrete (tenv : TypesEnv) (T : types.Interface) (msV : types.MethodSet)
    (hT : T.Empty = false) :
    ((implements tenv .Other T msV).2 = true ↔
      ∀ m ∈ T.methods, ∃ sel f, msV.Lookup m.Pkg m.Name = some sel ∧ sel.Func = some f ∧
        tenv.Identical f.Typ m.Typ = true) ∧
    ((implements tenv .Other T msV).2 = true →
      (implements tenv .Other T msV).1.length = T.methods.length ∧
      (implements tenv .Other T msV).1.map some =
        T.methods.map (fun m => msV.Lookup m.Pkg m.Name)) ∧
    ((implements tenv .Other T msV).2 = false → (implements tenv .Other T msV).1 = []) ∧
    implements exTypesEnv .Other exReader (exMethodSet ⟨["[]byte"], ["int", "error"]⟩) =
      ([exReadSel ⟨["[]byte"], ["int", "error"]⟩], true) ∧
    implements exTypesEnv .Other exReader (exMethodSet ⟨["string"], ["int", "error"]⟩) =
      ([], false) := by
  rw [implements_of_not_empty hT]
  obtain ⟨h1, h2, h3⟩ := implementsConcrete_spec tenv msV T.methods []
  refine ⟨h1, fun h => ?_, h3, by decide, by decide⟩
  have h4 := h2 h
  simp only [List.map_nil, List.nil_append] at h4
  refine ⟨?_, h4⟩
  have h5 := congrArg List.length h4
  simpa using h5

/-- Witness for C14: the interface `exReader` and the method set with a matching `Read`. -/
theorem implements_concrete_witness :
    exReader.Empty = false ∧
    ((implements exTypesEnv .Other exReader
        (exMethodSet ⟨["[]byte"], ["int", "error"]⟩)).2 = true ↔
      ∀ m ∈ exReader.methods, ∃ sel f,
        (exMethodSet ⟨["[]byte"], ["int", "error"]⟩).Lookup m.Pkg m.Name = some sel ∧
        sel.Func = some f ∧ exTypesEnv.Identical f.Typ m.Typ = true) :=
  ⟨by decide,
    (implements_concrete exTypesEnv exReader (exMethodSet ⟨["[]byte"], ["int", "error"]⟩)
      (by decide)).1⟩

/-- C15 (interface-to-interface matching): for every non-empty interface `T` and every
`V` whose underlying type is an interface, `implements` returns no bindings; and for
interfaces as the type checker builds them - no method of `T` is named by the blank
identifier `_`, and the methods of `V` are pairwise different identifiers - it returns
`ok = true` if and only if every method of `T` has in `V` a method with the same
identifier identity (`sameId`) and an identical type. -/
theorem implements_interface (tenv : TypesEnv) (T ityp : types.Interface)
    (msV : types.MethodSet) (hT : T.Empty = false)
    (hblank : ∀ m ∈ T.methods, m.Name ≠ "_")
    (hdistinct : ityp.methods.Pairwise
      (fun a b => sameId tenv a.toObject b.Pkg b.Name = false)) :
    ((implements tenv (.Interface ityp) T msV).2 = true ↔
      ∀ m ∈ T.methods, ∃ v ∈ ityp.methods,
        sameId tenv v.toObject m.Pkg m.Name = true ∧
        tenv.Identical v.Typ m.Typ = true) ∧
    (implements tenv (.Interface ityp) T msV).1 = [] := by
  obtain ⟨_, h2, h3⟩ := implements_interface_first tenv T ityp msV hT
  refine ⟨(h2 hdistinct).trans ⟨fun h m hm => (h m hm).2, fun h m hm => ⟨hblank m hm, h m hm⟩⟩,
    h3⟩

/-- Witness for C15: the interface `exReader` matched against itself. -/
theorem implements_interface_witness :
    exReader.Empty = false ∧ (∀ m ∈ exReader.methods, m.Name ≠ "_") ∧
    (implements exTypesEnv (.Interface exReader) exReader (exMethodSet ⟨[], []⟩)).2 = true ∧
    ((implements exTypesEnv (.Interface exReader) exReader (exMethodSet ⟨[], []⟩)).2 = true ↔
      ∀ m ∈ exReader.methods, ∃ v ∈ exReader.methods,
        sameId exTypesEnv v.toObject m.Pkg m.Name = true ∧
        exTypesEnv.Identical v.Typ m.Typ = true) :=
  have hT : exReader.Empty = false := by decide
  have hb : ∀ m ∈ exReader.methods, m.Name ≠ "_" := by decide
  ⟨hT, hb, by decide,
    (implements_interface exTypesEnv exReader exReader (exMethodSet ⟨[], []⟩) hT hb
      (List.pairwise_singleton _ _)).1⟩

/-- C16 (identifier identity): for every object `Obj`, package `pkg` and name, `sameId`
is true if and only if the name is spelled exactly like the name of `Obj` and either that
name is exported or `pkg` and the package of `Obj` are the same compilation unit (both
absent, or both present with equal paths).  So an exported name matches whatever the two
packages, and an unexported name never matches across different packages; `Read` of
package `a` is the same identifier as `Read` in package `b`, `read` of package `a` is not
the same identifier as `read` in package `b`. -/
theorem sameId_iff (tenv : TypesEnv) (Obj : types.Object) (pkg : Option types.Package)
    (name : String) :
    (sameId tenv Obj pkg name = true ↔
      name = Obj.Name ∧ (Obj.Exported tenv = true ∨
        (pkg = none ∧ Obj.Pkg = none) ∨
        ∃ p q, pkg = some p ∧ Obj.Pkg = some q ∧ p.Path = q.Path)) ∧
    (name = Obj.Name → Obj.Exported tenv = true → sameId tenv Obj pkg name = true) ∧
    (Obj.Exported tenv = false →
      ¬ ((pkg = none ∧ Obj.Pkg = none) ∨
        ∃ p q, pkg = some p ∧ Obj.Pkg = some q ∧ p.Path = q.Path) →
      sameId tenv Obj pkg name = false) ∧
    sameId exTypesEnv ⟨"Read", some ⟨"a"⟩⟩ (some ⟨"b"⟩) "Read" = true ∧
    sameId exTypesEnv ⟨"read", some ⟨"a"⟩⟩ (some ⟨"b"⟩) "read" = false ∧
    sameId exTypesEnv ⟨"read", some ⟨"a"⟩⟩ (some ⟨"a"⟩) "read" = true ∧
    sameId exTypesEnv ⟨"read", none⟩ none "read" = true ∧
    sameId exTypesEnv ⟨"read", some ⟨"a"⟩⟩ none "read" = false ∧
    sameId exTypesEnv ⟨"Read", some ⟨"a"⟩⟩ (some ⟨"a"⟩) "read" = false := by
  refine ⟨sameId_eq_true, fun hn he => sameId_eq_true.mpr ⟨hn, Or.inl he⟩, fun he hp => ?_,
    by decide, by decide, by decide, by decide, by decide, by decide⟩
  cases h : sameId tenv Obj pkg name with
  | false => rfl
  | true =>
    rcases (sameId_eq_true.mp h).2 with h1 | h1
    · rw [he] at h1
      cases h1
    · exact absurd h1 hp

/-- Witness for C16: the exported name `Read` in the packages `a` and `b`. -/
theorem sameId_iff_witness :
    sameId exTypesEnv ⟨"Read", some ⟨"a"⟩⟩ (some ⟨"b"⟩) "Read" = true :=
  (sameId_iff exTypesEnv ⟨"Read", some ⟨"a"⟩⟩ (some ⟨"b"⟩) "Read").2.1 rfl (by decide)

/-- C17, as amended (identity across repeated analysis): an entry of the path table or
of the position table, once recorded, is left as it is by every later sequence of
completed `Merge` calls.  Merging a well-formed batch into a canonical graph and then a
second time completes both times; the second merge remaps every node that carries a
stable path or a genuine column to the id the tables then record for it, the path first.
That is the id of the first merge for every node carrying only one of the two
identities; for a node carrying both it is the id of the first merge, or else the first
merge took the id recorded for the position and the second takes the id recorded for the
path.  The second merge allocates no node when the batch root carries an identity and
exactly one, the copy of the root, when it does not. -/
theorem merge_twice_identity :
    (∀ (g g2 : SerializedGraph) (batches : List (List Node)), mergeAll g batches = .ok g2 →
      (∀ k v, g.nodesByPath k = some v → g2.nodesByPath k = some v) ∧
      (∀ k v, g.nodesByPosition k = some v → g2.nodesByPosition k = some v)) ∧
    (∀ (g : SerializedGraph) (batch : List Node), Reachable g → WellFormedBatch batch →
      ∃ g1 rm1 g2 rm2, mergeRemap g batch = .ok (g1, rm1) ∧
        mergeRemap g1 batch = .ok (g2, rm2) ∧
        (∀ n ∈ batch, n.Obj.Identified → ∃ w, rm2[n.ID]? = some w ∧
          lookupIdentity g1 n = some w ∧
          (rm1[n.ID]? = some w ∨
            (n.Obj.Path ≠ ObjectPath.zero ∧ n.Obj.Position.Column ≠ 0 ∧
              g1.nodesByPath n.Obj.Path = some w ∧
              rm1[n.ID]? = g1.nodesByPosition n.Obj.Position))) ∧
        (∀ n ∈ batch, n.Obj.Identified →
          n.Obj.Path = ObjectPath.zero ∨ n.Obj.Position.Column = 0 →
          rm2[n.ID]? = rm1[n.ID]?) ∧
        (∀ r, batch[0]? = some r → r.Obj.Identified →
          g2.nodes.length = g1.nodes.length) ∧
        (∀ r, batch[0]? = some r → ¬ r.Obj.Identified →
          g2.nodes.length = g1.nodes.length + 1 ∧ rm2[0]? = some g1.nodes.length)) := by
  refine ⟨fun g g2 batches h => mergeAll_tablesLe batches h, fun g batch hg hwf => ?_⟩
  have hI := reachable_inv hg
  obtain ⟨g1, rm1, h1⟩ := mergeRemap_total hI (wellFormed_inRange hwf) hwf.2.2.1
  obtain ⟨g2, rm2, h2, hent, hlen0, hlen1⟩ := mergeRemap_again hI hwf h1
  refine ⟨g1, rm1, g2, rm2, h1, h2, hent, fun n hn hid hone => ?_, hlen0, hlen1⟩
  obtain ⟨w, hw2, _, hor⟩ := hent n hn hid
  rcases hor with hw1 | ⟨hp, hc, _, _⟩
  · rw [hw1, hw2]
  · rcases hone with h0 | h0
    · exact absurd h0 hp
    · exact absurd h0 hc

/-- Witness for C17 as amended: the batch `exDriftBatch` merged twice into the empty
graph. -/
theorem merge_twice_identity_witness :
    Reachable SerializedGraph.empty ∧ WellFormedBatch exDriftBatch ∧
    ∃ g1 rm1 g2 rm2, mergeRemap SerializedGraph.empty exDriftBatch = .ok (g1, rm1) ∧
      mergeRemap g1 exDriftBatch = .ok (g2, rm2) ∧
      ∀ n ∈ exDriftBatch, n.Obj.Identified →
        n.Obj.Path = ObjectPath.zero ∨ n.Obj.Position.Column = 0 →
        rm2[n.ID]? = rm1[n.ID]? := by
  have hg : Reachable SerializedGraph.empty := ⟨[], rfl⟩
  have hwf : WellFormedBatch exDriftBatch := by decide
  obtain ⟨g1, rm1, g2, rm2, h1, h2, _, h4, _⟩ :=
    merge_twice_identity.2 SerializedGraph.empty exDriftBatch hg hwf
  exact ⟨hg, hwf, g1, rm1, g2, rm2, h1, h2, h4⟩

/-- Counterexample to C17 as stated: in `exDriftBatch` the node with local id 2 carries a
stable path and a genuine column; the first merge into the empty graph remaps it to
canonical id 2 (by its position, recorded for the node before it), the second merge of
the same batch to canonical id 3 (by its path, recorded in the first merge for the node
after it). -/
theorem merge_twice_identity_counterexample :
    WellFormedBatch exDriftBatch ∧
    ∃ g1 g2, mergeRemap SerializedGraph.empty exDriftBatch = .ok (g1, [1, 2, 2, 3]) ∧
      mergeRemap g1 exDriftBatch = .ok (g2, [4, 2, 3, 3]) ∧
      ∃ n ∈ exDriftBatch, n.ID = 2 ∧ n.Obj.Path ≠ ObjectPath.zero ∧
        n.Obj.Position.Column ≠ 0 :=
  ⟨by decide, _, _, rfl, rfl, ⟨2, ⟨"T", exPath, exPos⟩, [], []⟩, by decide, by decide,
    by decide, by decide⟩

/-- C18 (the canonical graph stays in range): after any sequence of completed `Merge`
calls on an empty `SerializedGraph`, every `uses` and `owns` entry of every canonical node
is below the canonical node count, every id stored in the path table and in the position
table is above 0, the root id, and below the node count; hence a further `Merge` of a
batch whose local ids and edge entries are below the batch length - alone or followed by
more such batches - does not end in an index-out-of-range panic, and neither does `walk`
started at a canonical id, nor the selection, on the canonical node list, whatever the
identifier table, the type information and the targets. -/
theorem canonical_in_range (batches : List (List Node)) (g : SerializedGraph)
    (h : mergeAll SerializedGraph.empty batches = .ok g) :
    (∀ (i : Nat) (a : Node), g.nodes[i]? = some a →
      (∀ u ∈ a.Uses, 0 ≤ u ∧ u < g.nodes.length) ∧
      (∀ u ∈ a.Owns, 0 ≤ u ∧ u < g.nodes.length)) ∧
    (∀ k v, g.nodesByPath k = some v → 0 < v ∧ v < g.nodes.length) ∧
    (∀ k v, g.nodesByPosition k = some v → 0 < v ∧ v < g.nodes.length) ∧
    (∀ batch, BatchInRange batch → Merge g batch ≠ .error .indexOutOfRange) ∧
    (∀ more : List (List Node), (∀ b ∈ more, BatchInRange b) →
      mergeAll g more ≠ .error .indexOutOfRange) ∧
    (∀ (env : Env) (targets : List String) (fuel n : Nat) (seen : List Nat),
      n < g.nodes.length → walk env g.nodes targets fuel n seen ≠ .error .indexOutOfRange) ∧
    (∀ (env : Env) (targets : List String) (fuel : Nat),
      yoinkSeen env g.nodes targets fuel ≠ .error .indexOutOfRange) := by
  have hI : Inv g := reachable_inv ⟨batches, h⟩
  refine ⟨fun i a ha => ⟨fun u hu => ⟨Nat.zero_le u, (hI.edges i a ha).1 u hu⟩,
      fun u hu => ⟨Nat.zero_le u, (hI.edges i a ha).2 u hu⟩⟩,
    hI.pathRange, hI.posRange, fun batch hb hm => ?_,
    fun more hmore => mergeAll_inRange more g hI hmore,
    fun env targets fuel n seen hn => walk_inRange hI.dense hI.edges fuel n seen hn,
    fun env targets fuel => walkTargets_inRange hI.dense hI.edges fuel g.nodes []
      (fun _ hn => hn)⟩
  refine mergeAll_inRange [batch] g hI (fun b hb2 => ?_) ?_
  · rw [List.mem_singleton.mp hb2]
    exact hb
  · simp only [mergeAll, hm]

/-- Witness for C18: the canonical graph of one merge of the example batch. -/
theorem canonical_in_range_witness :
    ∃ g, mergeAll SerializedGraph.empty [exBatch] = .ok g ∧
      (∀ k v, g.nodesByPath k = some v → 0 < v ∧ v < g.nodes.length) ∧
      ∀ (env : Env) (targets : List String) (fuel : Nat),
        yoinkSeen env g.nodes targets fuel ≠ .error .indexOutOfRange := by
  obtain ⟨g, hg⟩ : ∃ g, mergeAll SerializedGraph.empty [exBatch] = .ok g := ⟨_, rfl⟩
  exact ⟨g, hg, (canonical_in_range [exBatch] g hg).2.1,
    (canonical_in_range [exBatch] g hg).2.2.2.2.2.2⟩

/-- C19 (selection is monotone in the target set): for every graph and all target sets
`T1` and `T2` with every name of `T1` in `T2`, whenever the two selections return, every
id in the `seen` set computed for `T1` is in the `seen` set computed for `T2`; and on a
graph on which `walk` cannot panic, with a recursion budget above the node count, both
selections do return. -/
theorem select_monotone :
    (∀ (env : Env) (nodes : List Node) (T1 T2 : List String) (fuel1 fuel2 : Nat)
      (s1 s2 : List Nat), (∀ t ∈ T1, t ∈ T2) →
      yoinkSeen env nodes T1 fuel1 = .ok s1 → yoinkSeen env nodes T2 fuel2 = .ok s2 →
      ∀ i ∈ s1, i ∈ s2) ∧
    (∀ (env : Env) (nodes : List Node) (T1 T2 : List String) (fuel : Nat),
      GraphWellFormed env nodes → nodes.length < fuel → (∀ t ∈ T1, t ∈ T2) →
      ∃ s1 s2, yoinkSeen env nodes T1 fuel = .ok s1 ∧ yoinkSeen env nodes T2 fuel = .ok s2 ∧
        ∀ i ∈ s1, i ∈ s2) := by
  have key : ∀ (env : Env) (nodes : List Node) (T1 T2 : List String) (fuel1 fuel2 : Nat)
      (s1 s2 : List Nat), (∀ t ∈ T1, t ∈ T2) →
      yoinkSeen env nodes T1 fuel1 = .ok s1 → yoinkSeen env nodes T2 fuel2 = .ok s2 →
      ∀ i ∈ s1, i ∈ s2 := by
    intro env nodes T1 T2 fuel1 fuel2 s1 s2 hT h1 h2 i hi
    exact (yoinkSeen_sel h2 i).mpr (selected_mono hT ((yoinkSeen_sel h1 i).mp hi))
  refine ⟨key, fun env nodes T1 T2 fuel hwf hfuel hT => ?_⟩
  obtain ⟨s1, h1, _⟩ := @yoinkSeen_spec env nodes T1 hwf fuel hfuel
  obtain ⟨s2, h2, _⟩ := @yoinkSeen_spec env nodes T2 hwf fuel hfuel
  exact ⟨s1, s2, h1, h2, key env nodes T1 T2 fuel fuel s1 s2 hT h1 h2⟩

/-- Witness for C19: in the example chain the selection for `a` gives node 1, and the
selection for `a` and `X` gives the nodes 1, 2 and 3. -/
theorem select_monotone_witness :
    (∀ t ∈ ["a"], t ∈ ["a", "X"]) ∧
    yoinkSeen exChainEnv exChain ["a"] 5 = .ok [1] ∧
    yoinkSeen exChainEnv exChain ["a", "X"] 5 = .ok [3, 2, 1] ∧
    ∀ i ∈ [1], i ∈ [3, 2, 1] :=
  have hT : ∀ t ∈ ["a"], t ∈ ["a", "X"] := by decide
  ⟨hT, rfl, rfl,
    select_monotone.1 exChainEnv exChain ["a"] ["a", "X"] 5 5 [1] [3, 2, 1] hT rfl rfl⟩

/-- C20 (target flag parsing): for every set `s` and string `v`, `Set` returns an error
if and only if a comma-separated component of `v` is empty, which is the case exactly
when `v` is empty, begins or ends with a comma, or has two adjacent commas; when `Set`
returns no error the keys of the set afterwards are the keys before and the components of
`v`.  For every non-empty set `s` of non-empty comma-free names, `String` is the
comma-joined list of the names of `s` in strictly ascending order, and `Set` of that
string on the empty set returns no error and leaves exactly the names of `s` as keys. -/
theorem set_flag_parsing :
    (∀ (s : List String) (v : String),
      ((∃ e, (set.Set s v).2 = some e) ↔ "" ∈ Split v) ∧
      ("" ∈ Split v ↔
        v = "" ∨ [','] <+: v.data ∨ [','] <:+ v.data ∨ [',', ','] <:+: v.data) ∧
      ((set.Set s v).2 = none → ∀ y, y ∈ (set.Set s v).1 ↔ y ∈ s ∨ y ∈ Split v)) ∧
    (∀ s : List String, s ≠ [] → s.Nodup → (∀ y ∈ s, y ≠ "" ∧ ',' ∉ y.data) →
      (∃ p : List String, set.String s = Join p ∧ p.Perm s ∧
        p.Pairwise (fun a b => strLe a b = true ∧ a ≠ b) ∧
        set.Set [] (set.String s) = (p, none)) ∧
      (set.Set [] (set.String s)).2 = none ∧
      ∀ y, y ∈ (set.Set [] (set.String s)).1 ↔ y ∈ s) ∧
    set.Set ["x"] "b,a" = (["x", "b", "a"], none) ∧
    set.Set ["x"] "b,,a" = (["x", "b"], some "empty string target") ∧
    set.String ["x", "b", "a"] = "a,b,x" ∧
    set.Set [] (set.String ["x", "b", "a"]) = (["a", "b", "x"], none) := by
  refine ⟨fun s v => ⟨(setLoop_spec (Split v) s).1, empty_mem_Split v,
    (setLoop_spec (Split v) s).2⟩, fun s hne hnd hs => ?_, by decide, by decide, by decide,
    by decide⟩
  have hperm : (sortStrings s).Perm s := List.perm_insertionSort _ s
  have hp_ne : sortStrings s ≠ [] := fun h => hne (by
    have := hperm.length_eq
    rw [h] at this
    exact List.length_eq_zero.mp this.symm)
  have hp_nd : (sortStrings s).Nodup := hperm.nodup_iff.mpr hnd
  have hp_s : ∀ y ∈ sortStrings s, y ≠ "" ∧ ',' ∉ y.data := fun y hy =>
    hs y (hperm.mem_iff.mp hy)
  have hset : set.Set [] (set.String s) = (sortStrings s, none) := by
    unfold set.Set set.String
    rw [Split_Join hp_ne (fun y hy => (hp_s y hy).2)]
    have := setLoop_nodup (sortStrings s) [] (by simpa using hp_nd)
      (fun h => (hp_s "" h).1 rfl)
    simpa using this
  refine ⟨⟨sortStrings s, rfl, hperm, (sortStrings_sorted s).and hp_nd, hset⟩, ?_, ?_⟩
  · rw [hset]
  · intro y
    rw [hset]
    exact hperm.mem_iff

/-- Witness for C20: the set with the keys `x`, `b` and `a`. -/
theorem set_flag_parsing_witness :
    ["x", "b", "a"] ≠ [] ∧ ["x", "b", "a"].Nodup ∧
    (∀ y ∈ ["x", "b", "a"], y ≠ "" ∧ ',' ∉ y.data) ∧
    ∀ y, y ∈ (set.Set [] (set.String ["x", "b", "a"])).1 ↔ y ∈ ["x", "b", "a"] :=
  have h1 : ["x", "b", "a"] ≠ [] := by decide
  have h2 : ["x", "b", "a"].Nodup := by decide
  have h3 : ∀ y ∈ ["x", "b", "a"], y ≠ "" ∧ ',' ∉ y.data := by decide
  ⟨h1, h2, h3, (set_flag_parsing.2.1 ["x", "b", "a"] h1 h2 h3).2.2⟩

end Yoink

